import Mathlib

/-!
jsonizer: a verification development

Shallow embedding of `src/jsonizer.cpp` (the Part data model, rendering, the
key allocator and its suffix counter, the keyed-pair and container factories,
the construction of the producer, its orders and its stall handling, and the
Assembly consumer loop), followed by theorems about the embedding.

Conventions of the embedding

* `std::shared_ptr<Part>` is `Option Part` (`none` is the null pointer); a
  `std::deque<PartPtr>` is a `List (Option Part)` whose head is `front()`.
* Parts are modelled by value.  The only mutation of a Part after its
  construction is `setKey`, applied to a queue head at the moment it moves
  from the queue into an accumulator.
* `std::size_t` is `Nat` reduced modulo `2^64` wherever the source computes
  with it; `int` is `Int` reduced to the 32-bit two-complement range where
  the source assigns to an `int`.
* Every call of the random engine `mt()` is an explicit argument.
* A function whose source has undefined behaviour on some input (division by
  zero, an out-of-range index, dereferencing a null pointer or an empty
  optional whose content is used) returns `none` on that input.  The log
  line of `Assembly::run` is not part of the modelled state; its read of a
  possibly empty key is recorded in the flag `absentKeyRead`.
* The global `serialGenerator` is threaded explicitly.
-/

namespace Jsonizer

/-! ## Basic types -/

/-- The modulus of `std::size_t` arithmetic (64-bit). -/
def SIZE_MOD : Nat := 2 ^ 64

/-- Conversion of an integer to `int` (32-bit, modular). -/
def toInt32 (x : Int) : Int := (x + 2 ^ 31) % 2 ^ 32 - 2 ^ 31

abbrev Key := Option String
abbrev Value := Option String
abbrev Serial := Int

/-- `Part::SimpleType`. -/
inductive SimpleType where
  | INT
  | DOUBLE
  | STRING
  deriving DecidableEq, Repr

/-- `Part::Type`. -/
inductive PartType where
  | INT
  | DOUBLE
  | STRING
  | ARRAY
  | OBJECT
  deriving DecidableEq, Repr

/-- `struct Part`: the members `mSerial`, `mType`, `mKey`, `mValue`, `mSubs`.
The member `mValueCount` is initialised by every constructor to
`isSimple() ? 1 : 0` and never assigned again; it is the function
`Part.mValueCount` below. -/
inductive Part where
  | mk (mSerial : Serial) (mType : PartType) (mKey : Key) (mValue : Value)
      (mSubs : Option (List (Option Part)))

abbrev PartPtr := Option Part
abbrev D_PartPtr := List PartPtr
abbrev OptD_PartPtr := Option D_PartPtr

namespace Part

/-- `Part::serial()`. -/
def serial : Part → Serial
  | mk s _ _ _ _ => s

/-- `Part::type()`. -/
def type : Part → PartType
  | mk _ t _ _ _ => t

/-- `Part::key()`. -/
def key : Part → Key
  | mk _ _ k _ _ => k

/-- `Part::value()`. -/
def value : Part → Value
  | mk _ _ _ v _ => v

/-- `Part::subs()`. -/
def subs : Part → OptD_PartPtr
  | mk _ _ _ _ s => s

/-- `Part::setKey`. -/
def setKey : Part → Key → Part
  | mk s t _ v subs, k => mk s t k v subs

/-- `Part::T2T`. -/
def T2T (type : SimpleType) : PartType :=
  if type = SimpleType.INT then PartType.INT
  else if type = SimpleType.DOUBLE then PartType.DOUBLE
  else PartType.STRING

/-- `Part::isSimple()`. -/
def isSimple (p : Part) : Bool :=
  p.type = PartType.INT || p.type = PartType.DOUBLE || p.type = PartType.STRING

/-- The member `mValueCount`, as every constructor initialises it. -/
def mValueCount (p : Part) : Nat :=
  if p.isSimple then 1 else 0

/-- `Part::match(SimpleType)`. -/
def matchType (p : Part) (type : SimpleType) : Bool :=
  if type = SimpleType.INT then p.type = PartType.INT
  else if type = SimpleType.DOUBLE then p.type = PartType.DOUBLE
  else p.type = PartType.STRING

end Part

/-- `conv(std::string const&)`: the string between double quotes. -/
def conv (t : String) : String := "\"" ++ t ++ "\""

/-! ## Part constructors -/

/-- `Part(Type, Key const&, Value const& = OptString(), PartPtr sub = nullptr)`:
the new Part and the advanced serial generator. -/
def Part.newKV (serialGenerator : Serial) (type : PartType) (key : Key)
    (val : Value) (sub : PartPtr) : Part × Serial :=
  (Part.mk (serialGenerator + 1) type key val
    (match sub with
     | some s => some [some s]
     | none => none),
   serialGenerator + 1)

/-- `Part(Type, OptD_PartPtr const&, Key const&, Value const& = OptString())`. -/
def Part.newSubs (serialGenerator : Serial) (type : PartType)
    (subs : OptD_PartPtr) (key : Key) (val : Value) : Part × Serial :=
  (Part.mk (serialGenerator + 1) type key val subs, serialGenerator + 1)

/-! ## DisNDat -/

/-- `DisNDat<std::string>`: yields `mDis` on the first `get`, `mDat` afterwards. -/
structure DisNDat where
  mDis : String
  mDat : String
  mDissed : Bool
  deriving DecidableEq, Repr

/-- `DisNDat(dis, dat)`. -/
def DisNDat.new (dis dat : String) : DisNDat := ⟨dis, dat, false⟩

/-- `DisNDat::get`: the string read and the object after the read. -/
def DisNDat.get (c : DisNDat) : String × DisNDat :=
  if !c.mDissed then (c.mDis, { c with mDissed := true }) else (c.mDat, c)

/-! ## Rendering: `operator<<(std::ostream&, Part const&)` -/

mutual
/-- The characters `operator<<` writes for a Part; `none` when a leaf without
value is reached (`*rhs.mValue` on an empty optional). -/
def Part.render : Part → Option String
  | Part.mk _ t k v s =>
    let head := match k with
      | some k => k ++ ":"
      | none => ""
    match t with
    | PartType.ARRAY =>
      match renderOptSubs s with
      | some body => some (head ++ "[" ++ body ++ "]")
      | none => none
    | PartType.OBJECT =>
      match renderOptSubs s with
      | some body => some (head ++ "\x7b" ++ body ++ "\x7d")
      | none => none
    | _ =>
      match v with
      | some v => some (head ++ v)
      | none => none
/-- The block `if(rhs.mSubs) { DisNDat<> c("",","); for(...) ... }`. -/
def renderOptSubs : Option (List (Option Part)) → Option String
  | none => some ""
  | some l => renderSubs (DisNDat.new "" ",") l
/-- The loop `for(auto& i:*rhs.mSubs) if(i) os << c << *i;` from a given state
of the separator object. -/
def renderSubs (c : DisNDat) : List (Option Part) → Option String
  | [] => some ""
  | none :: rest => renderSubs c rest
  | some p :: rest =>
    match Part.render p, renderSubs c.get.2 rest with
    | some a, some b => some (c.get.1 ++ a ++ b)
    | _, _ => none
end

/-! ## Value counting: `Part::valueCount` -/

mutual
/-- `Part::valueCount(SimpleType)`; `none` when a null child is dereferenced.
The running `count` is a `std::size_t`. -/
def Part.valueCount (type : SimpleType) : Part → Option Nat
  | Part.mk sr t k v s =>
    if (Part.mk sr t k v s).isSimple then
      some (if t = Part.T2T type then (Part.mk sr t k v s).mValueCount else 0)
    else valueCountOptSubs type s
/-- The block `if(mSubs) for(...) count+=...` starting from `count = 0`. -/
def valueCountOptSubs (type : SimpleType) : Option (List (Option Part)) → Option Nat
  | none => some 0
  | some l => valueCountSubs type 0 l
/-- The loop `for(auto const& i: *mSubs) count+=i->valueCount(type);`. -/
def valueCountSubs (type : SimpleType) (count : Nat) : List (Option Part) → Option Nat
  | [] => some count
  | none :: _ => none
  | some p :: rest =>
    match Part.valueCount type p with
    | some n => valueCountSubs type ((count + n) % SIZE_MOD) rest
    | none => none
end

/-! ## The key allocator: `getFrom` and `KeyGetter` -/

/-- `getFrom(t, start, size)` on a vector of strings, with `r` the value of
`mt()`: `conv(t[min(t.size()-1, start + r % size)])`.  Undefined when `size`
is zero (division by zero) or the index is outside the vector. -/
def getFrom (t : List String) (start size : Nat) (r : Nat) : Option String :=
  if size = 0 then none
  else
    let ix := min ((t.length + SIZE_MOD - 1) % SIZE_MOD) ((start + r % size) % SIZE_MOD)
    match t.get? ix with
    | some s => some (conv s)
    | none => none

/-- `struct KeyGetter`: the key pool, the number of registered tokens and the
slice size. -/
structure KeyGetter where
  mKeys : List String
  mToken : Nat
  mSlice : Nat
  deriving DecidableEq, Repr

namespace KeyGetter

/-- `KeyGetter::keyCount(Token)`, in `std::size_t` arithmetic. -/
def keyCount (kg : KeyGetter) (tok : Nat) : Nat :=
  let next := (tok * kg.mSlice + kg.mSlice) % SIZE_MOD
  let tail := (kg.mKeys.length + SIZE_MOD - next) % SIZE_MOD
  if 0 < tail && tail < kg.mSlice then (kg.mSlice + tail) % SIZE_MOD else kg.mSlice

/-- `KeyGetter::get(Token)` with `r` the value of `mt()`. -/
def get (kg : KeyGetter) (tok : Nat) (r : Nat) : Option String :=
  getFrom kg.mKeys ((tok * kg.mSlice) % SIZE_MOD) (kg.keyCount tok) r

/-- `KeyGetter::reg()`: the token handed out and the allocator afterwards. -/
def reg (kg : KeyGetter) : Nat × KeyGetter :=
  (kg.mToken, { kg with mToken := (kg.mToken + 1) % SIZE_MOD })

/-- The slice of token `tok` is non-empty and lies inside the key pool:
indices `tok*mSlice, ..., tok*mSlice + keyCount tok - 1` all exist. -/
def SliceOk (kg : KeyGetter) (tok : Nat) : Prop :=
  0 < kg.keyCount tok ∧ tok * kg.mSlice + kg.keyCount tok ≤ kg.mKeys.length
    ∧ kg.mKeys.length < SIZE_MOD

instance (kg : KeyGetter) (tok : Nat) : Decidable (kg.SliceOk tok) := by
  unfold SliceOk; exact inferInstance

/-- The key `k` is the quoted pool entry at some index of the slice of `tok`. -/
def InSlice (kg : KeyGetter) (tok : Nat) (k : String) : Prop :=
  ∃ j stem, tok * kg.mSlice ≤ j ∧ j < tok * kg.mSlice + kg.keyCount tok
    ∧ kg.mKeys.get? j = some stem ∧ k = conv stem

end KeyGetter

/-! ## The work queue: `MuxParts` (locking left out) -/

/-- `struct MuxParts`: the deque of Part pointers, front first. -/
abbrev MuxParts := D_PartPtr

/-! ## `SimpleKvPairFactory<N>` -/

/-- `SimpleKvPairFactory<N>`: the template argument and the token.  The weak
pointer `mpKeys` is passed to `get` as the result of `lock()`. -/
structure SimpleKvPairFactory where
  N : SimpleType
  mTok : Nat
  deriving DecidableEq, Repr

/-- What a call of a factory `get` leaves behind. -/
structure KvGet where
  part : PartPtr
  queue : MuxParts
  serialGenerator : Serial

/-- `SimpleKvPairFactory<N>::get(MuxParts&)`; `keys` is `mpKeys.lock()`, `r`
the value of `mt()` used by `keys->get`.  `none` when `keys->get` is
undefined. -/
def SimpleKvPairFactory.get (f : SimpleKvPairFactory) (queue : MuxParts)
    (keys : Option KeyGetter) (serialGenerator : Serial) (r : Nat) : Option KvGet :=
  match queue with
  | [] => some ⟨none, queue, serialGenerator⟩
  | none :: _ => some ⟨none, queue, serialGenerator⟩
  | some part :: rest =>
    -- queue.pop_front() happens before the match is tested
    match keys with
    | some kg =>
      if part.matchType f.N && !part.key.isSome && part.value.isSome then
        match kg.get f.mTok r with
        | some k =>
          let made := Part.newKV serialGenerator (Part.T2T f.N) (some k) part.value none
          some ⟨some made.1, rest, made.2⟩
        | none => none
      else some ⟨none, rest, serialGenerator⟩
    | none => some ⟨none, rest, serialGenerator⟩

/-! ## Container factories: `ContainerFactoryBase` and its subclasses -/

/-- The concrete classes derived from `ContainerFactoryBase` (the dynamic type
that selects the override of `match`). -/
inductive FactoryClass where
  | SimpleArrayFactory (N : SimpleType)
  | SimpleObjectFactory (N : SimpleType)
  | ObjectArrayFactory
  | ArrayArrayFactory
  | MixedArrayFactory
  | ArrayObjectFactory
  | ObjectObjectFactory
  | MixedObjectFactory
  deriving DecidableEq, Repr

/-- The `Part::Type` each subclass constructor hands to the base constructor. -/
def FactoryClass.partType : FactoryClass → PartType
  | FactoryClass.SimpleArrayFactory _ => PartType.ARRAY
  | FactoryClass.SimpleObjectFactory _ => PartType.OBJECT
  | FactoryClass.ObjectArrayFactory => PartType.ARRAY
  | FactoryClass.ArrayArrayFactory => PartType.ARRAY
  | FactoryClass.MixedArrayFactory => PartType.ARRAY
  | FactoryClass.ArrayObjectFactory => PartType.OBJECT
  | FactoryClass.ObjectObjectFactory => PartType.OBJECT
  | FactoryClass.MixedObjectFactory => PartType.OBJECT

/-- `struct ContainerFactoryBase`: its data members, and `cls` for the
dynamic type.  The weak pointer `mpKeys` is passed to `get` as the result of
`lock()`. -/
structure ContainerFactoryBase where
  cls : FactoryClass
  mSubs : D_PartPtr
  mMinLen : Nat
  mMaxLen : Nat
  mExpectedLen : Nat
  mAutoClear : Bool
  mPartType : PartType
  mTok : Nat

/-- The expression `maxLen<=minLen ? minLen : (mt()%(1+maxLen-minLen)+minLen)`
with `r` the value of `mt()`; undefined when `1+maxLen-minLen` is zero in
`std::size_t`. -/
def drawExpectedLen (minLen maxLen : Nat) (r : Nat) : Option Nat :=
  if maxLen ≤ minLen then some minLen
  else
    let range := (1 + maxLen - minLen) % SIZE_MOD
    if range = 0 then none else some ((r % range + minLen) % SIZE_MOD)

namespace ContainerFactoryBase

/-- `ContainerFactoryBase::ContainerFactoryBase` as called by the subclass
`cls`: the factory and the key allocator after `keys->reg()`. -/
def new (cls : FactoryClass) (minLen maxLen : Nat) (autoClear : Bool)
    (keys : Option KeyGetter) (r : Nat) :
    Option (ContainerFactoryBase × Option KeyGetter) :=
  match drawExpectedLen minLen maxLen r with
  | none => none
  | some e =>
    match keys with
    | some kg =>
      some (⟨cls, [], minLen, maxLen, e, autoClear, cls.partType, kg.reg.1⟩, some kg.reg.2)
    | none =>
      some (⟨cls, [], minLen, maxLen, e, autoClear, cls.partType, 0⟩, none)

/-- `ContainerFactoryBase::uniqueKey`. -/
def uniqueKey (mSubs : D_PartPtr) (rhs : String) : Bool :=
  match mSubs with
  | [] => true
  | none :: rest => uniqueKey rest rhs
  | some i :: rest =>
    match i.key with
    | some k => if k = rhs then false else uniqueKey rest rhs
    | none => uniqueKey rest rhs

/-- The overrides of `match(PartPtr)`, selected by the dynamic type. -/
def matchPart (f : ContainerFactoryBase) (p : PartPtr) : Bool :=
  match p with
  | none => false
  | some p =>
    match f.cls with
    | FactoryClass.SimpleArrayFactory N =>
      p.matchType N && !p.key.isSome && p.value.isSome
    | FactoryClass.SimpleObjectFactory N =>
      p.matchType N &&
        (match p.key with
         | some k => p.value.isSome && uniqueKey f.mSubs k
         | none => false)
    | FactoryClass.ObjectArrayFactory => p.type = PartType.OBJECT
    | FactoryClass.ArrayArrayFactory =>
      p.type = PartType.ARRAY &&
        (match p.subs with
         | none => false
         | some [] => true
         | some (none :: _) => false
         | some (some q :: _) => q.type ≠ PartType.ARRAY)
    | FactoryClass.MixedArrayFactory => true
    | FactoryClass.ArrayObjectFactory =>
      (match p.key with
       | some k => uniqueKey f.mSubs k && p.type = PartType.ARRAY
       | none => false)
    | FactoryClass.ObjectObjectFactory =>
      (match p.key with
       | some k => uniqueKey f.mSubs k && p.type = PartType.OBJECT
       | none => false)
    | FactoryClass.MixedObjectFactory =>
      (match p.key with
       | some k => uniqueKey f.mSubs k
       | none => false)

/-- The first statements of `get`, inside `if(mSubs.size()<mExpectedLen)`:
peek the queue head and, when it matches, clear its key for an ARRAY target,
append it to `mSubs` and pop the queue.  Yields the factory and the queue. -/
def fill (f : ContainerFactoryBase) (queue : MuxParts) : ContainerFactoryBase × MuxParts :=
  let p : PartPtr := match queue with
    | [] => none
    | h :: _ => h
  if f.matchPart p then
    match p with
    | some part =>
      let part := if f.mPartType = PartType.ARRAY then part.setKey none else part
      ({ f with mSubs := f.mSubs ++ [some part] }, queue.tail)
    | none => (f, queue)
  else (f, queue)

/-- What a call of `ContainerFactoryBase::get` leaves behind. -/
structure Get where
  part : PartPtr
  self : ContainerFactoryBase
  queue : MuxParts
  serialGenerator : Serial

/-- The statements of `get` after the accumulating block: lock the key
allocator, build the container, redraw `mExpectedLen`, clear `mSubs` when
`mAutoClear`.  `rKey` and `rLen` are the two values of `mt()`. -/
def emit (f : ContainerFactoryBase) (queue : MuxParts) (keys : Option KeyGetter)
    (serialGenerator : Serial) (rKey rLen : Nat) : Option Get :=
  match keys with
  | none => some ⟨none, f, queue, serialGenerator⟩
  | some kg =>
    match kg.get f.mTok rKey with
    | none => none
    | some k =>
      let made := Part.newSubs serialGenerator f.mPartType (some f.mSubs) (some k) none
      match drawExpectedLen f.mMinLen f.mMaxLen rLen with
      | none => none
      | some e =>
        some ⟨some made.1,
          { f with mExpectedLen := e, mSubs := if f.mAutoClear then [] else f.mSubs },
          queue, made.2⟩

/-- `ContainerFactoryBase::get(MuxParts&)`; `keys` is `mpKeys.lock()`. -/
def get (f : ContainerFactoryBase) (queue : MuxParts) (keys : Option KeyGetter)
    (serialGenerator : Serial) (rKey rLen : Nat) : Option Get :=
  if f.mSubs.length < f.mExpectedLen then
    let fq := f.fill queue
    if fq.1.mSubs.length < fq.1.mExpectedLen then
      some ⟨none, fq.1, fq.2, serialGenerator⟩
    else emit fq.1 fq.2 keys serialGenerator rKey rLen
  else emit f queue keys serialGenerator rKey rLen

end ContainerFactoryBase

/-! ## The producer as seen by an Assembly -/

/-- `Producer::recirculate(PartPtr)` on the work queue `mParts`. -/
def Producer.recirculate (mParts : MuxParts) (p : PartPtr) : MuxParts :=
  match p with
  | some part => mParts ++ [some part]
  | none => mParts

/-- A call an Assembly makes on its producer `mProd`. -/
inductive ProducerCall where
  | order (ints doubles strings : Int)
  | recirculate (p : PartPtr)

/-! ## `Assembly` -/

/-- `struct Assembly`: the requested counts.  The producer `mProd` is
represented by the answers of `mProd->get()` given to `run` and by the calls
recorded in `Assembly.Run.calls`. -/
structure Assembly where
  mInts : Int
  mDoubles : Int
  mStrings : Int

/-- The local variables of `Assembly::run` while its loop runs.  `calls` lists
the calls made on the producer, oldest first.  `accepted` is a ghost
variable: the products that reached the statement `ss << c << *prod`, in
order.  `absentKeyRead` records that the log line evaluated `*prod->key()` on
an empty key. -/
structure Assembly.Run where
  iCount : Int
  dCount : Int
  sCount : Int
  ss : String
  c : DisNDat
  keys : List (String × PartType)
  calls : List ProducerCall
  accepted : List Part
  absentKeyRead : Bool

/-- How a call of `Assembly::run` stands after a finite sequence of answers
of `mProd->get()`. -/
inductive Assembly.Outcome where
  | returned (s : String) (st : Assembly.Run)
  | waiting (st : Assembly.Run)
  | undefined

namespace Assembly

/-- The state of `run` just before its `while` loop. -/
def start (a : Assembly) : Run :=
  { iCount := 0, dCount := 0, sCount := 0,
    ss := "\x7b",
    c := DisNDat.new "" ",",
    keys := [],
    calls := [ProducerCall.order a.mInts a.mDoubles a.mStrings],
    accepted := [],
    absentKeyRead := false }

/-- The loop condition `iCount<mInts || dCount<mDoubles || sCount<mStrings`. -/
def cond (a : Assembly) (st : Run) : Bool :=
  st.iCount < a.mInts || st.dCount < a.mDoubles || st.sCount < a.mStrings

/-- `keys.find(k)!=keys.end()` on the map `keys`. -/
def keysFind (keys : List (String × PartType)) (k : String) : Bool :=
  keys.any (fun e => e.1 = k)

/-- One iteration of the loop body, `prod` being the answer of `mProd->get()`.
No product: the top-up order.  A product without key, or with a key found in
`keys`: `recirc` is set, the log line is written and the product goes to
`mProd->recirculate`.  Otherwise the key enters the map (a `std::map` whose
iteration order is never used, kept in insertion order here), the product is
streamed into `ss` and its counts are added; each `+=` converts the
`std::size_t` sum back to `int`.  `none` when rendering or counting the
accepted product is undefined. -/
def step (a : Assembly) (st : Run) (prod : PartPtr) : Option Run :=
  match prod with
  | none =>
    some { st with calls := st.calls ++ [ProducerCall.order
      (if a.mInts - st.iCount > 0 then 1 else 0)
      (if a.mDoubles - st.dCount > 0 then 1 else 0)
      (if a.mStrings - st.sCount > 0 then 1 else 0)] }
  | some prod =>
    match prod.key with
    | none =>
      some { st with calls := st.calls ++ [ProducerCall.recirculate (some prod)],
                     absentKeyRead := true }
    | some k =>
      if keysFind st.keys k then
        some { st with calls := st.calls ++ [ProducerCall.recirculate (some prod)] }
      else
        match prod.render, prod.valueCount SimpleType.INT,
            prod.valueCount SimpleType.DOUBLE, prod.valueCount SimpleType.STRING with
        | some text, some i, some d, some s =>
          some { st with
            keys := st.keys ++ [(k, prod.type)],
            ss := st.ss ++ st.c.get.1 ++ text,
            c := st.c.get.2,
            iCount := toInt32 (st.iCount + i),
            dCount := toInt32 (st.dCount + d),
            sCount := toInt32 (st.sCount + s),
            accepted := st.accepted ++ [prod] }
        | _, _, _, _ => none

/-- The `while` loop of `run` from state `st`, fed with the successive answers
of `mProd->get()`. -/
def loop (a : Assembly) : Run → List PartPtr → Outcome
  | st, [] =>
    if a.cond st then Outcome.waiting st
    else Outcome.returned (st.ss ++ "\x7d") st
  | st, prod :: rest =>
    if a.cond st then
      match a.step st prod with
      | some st1 => loop a st1 rest
      | none => Outcome.undefined
    else Outcome.returned (st.ss ++ "\x7d") st

/-- `Assembly::run()`, fed with the successive answers of `mProd->get()`. -/
def run (a : Assembly) (prods : List PartPtr) : Outcome :=
  a.loop a.start prods

end Assembly

/-! ## Specification-side definitions -/

mutual
/-- Spec: the number of leaves of simple type `type` that a Part contains
transitively (1 for a leaf of that type, 0 for another leaf or an empty
container, the sum over the children otherwise). -/
def Part.leafCount (type : SimpleType) : Part → Nat
  | Part.mk _ t _ _ s =>
    match t with
    | PartType.ARRAY => leafCountOptSubs type s
    | PartType.OBJECT => leafCountOptSubs type s
    | _ => if t = Part.T2T type then 1 else 0
/-- Spec: leaves of an optional child sequence. -/
def leafCountOptSubs (type : SimpleType) : Option (List (Option Part)) → Nat
  | none => 0
  | some l => leafCountSubs type l
/-- Spec: leaves of a child sequence. -/
def leafCountSubs (type : SimpleType) : List (Option Part) → Nat
  | [] => 0
  | none :: rest => leafCountSubs type rest
  | some p :: rest => Part.leafCount type p + leafCountSubs type rest
end

/-- Spec: leaves of type `type` contained in a list of products. -/
def leafTotal (type : SimpleType) (ps : List Part) : Nat :=
  (ps.map (Part.leafCount type)).sum

mutual
/-- Spec: the rendering of a Part in the words of the specification: the key
and a colon when a key is present, then the value of a leaf, or the
renderings of the children joined by commas between brackets (Array) or
braces (Object). -/
def Part.renderSpec : Part → String
  | Part.mk _ t k v s =>
    (match k with
     | some k => k ++ ":"
     | none => "") ++
    (match t with
     | PartType.ARRAY => "[" ++ ",".intercalate (renderSpecOptSubs s) ++ "]"
     | PartType.OBJECT => "\x7b" ++ ",".intercalate (renderSpecOptSubs s) ++ "\x7d"
     | _ => v.getD "")
/-- Spec: the renderings of the children of an optional child sequence. -/
def renderSpecOptSubs : Option (List (Option Part)) → List String
  | none => []
  | some l => renderSpecSubs l
/-- Spec: the renderings of the children, in stored order. -/
def renderSpecSubs : List (Option Part) → List String
  | [] => []
  | none :: rest => renderSpecSubs rest
  | some p :: rest => Part.renderSpec p :: renderSpecSubs rest
end

mutual
/-- Every leaf of the tree carries a value. -/
def Part.leavesHaveValue : Part → Bool
  | Part.mk _ t _ v s =>
    match t with
    | PartType.ARRAY => leavesHaveValueOptSubs s
    | PartType.OBJECT => leavesHaveValueOptSubs s
    | _ => v.isSome
/-- Every leaf below an optional child sequence carries a value. -/
def leavesHaveValueOptSubs : Option (List (Option Part)) → Bool
  | none => true
  | some l => leavesHaveValueSubs l
/-- Every leaf below a child sequence carries a value. -/
def leavesHaveValueSubs : List (Option Part) → Bool
  | [] => true
  | none :: rest => leavesHaveValueSubs rest
  | some p :: rest => Part.leavesHaveValue p && leavesHaveValueSubs rest
end

/-- The hand-built tree of the round-trip property: an unkeyed Object holding
the Int leaf `"k":1` and the Array `"arr"` of the unkeyed Int leaves 1 and 2. -/
def roundTripExample : Part :=
  Part.mk 5 PartType.OBJECT none none (some [
    some (Part.mk 1 PartType.INT (some (conv "k")) (some "1") none),
    some (Part.mk 4 PartType.ARRAY (some (conv "arr")) none (some [
      some (Part.mk 2 PartType.INT none (some "1") none),
      some (Part.mk 3 PartType.INT none (some "2") none)]))])

/-- The renderings of a list, each preceded by a comma. -/
def commaTail : List String → String
  | [] => ""
  | x :: xs => "," ++ x ++ commaTail xs

/-- The loop invariant of `Assembly::run`, relating the local variables to the
accepted products. -/
structure Assembly.Inv (st : Assembly.Run) : Prop where
  iLow : -(2 : Int) ^ 31 ≤ st.iCount
  dLow : -(2 : Int) ^ 31 ≤ st.dCount
  sLow : -(2 : Int) ^ 31 ≤ st.sCount
  iLe : st.iCount ≤ (leafTotal SimpleType.INT st.accepted : Int)
  dLe : st.dCount ≤ (leafTotal SimpleType.DOUBLE st.accepted : Int)
  sLe : st.sCount ≤ (leafTotal SimpleType.STRING st.accepted : Int)
  keysEq : st.accepted.map Part.key = st.keys.map (fun e => some e.1)
  keysNodup : (st.keys.map (fun e => e.1)).Nodup
  sep : st.c = ⟨"", ",", !st.accepted.isEmpty⟩
  text : ∃ body, renderSubs (DisNDat.new "" ",") (st.accepted.map some) = some body
    ∧ st.ss = "\x7b" ++ body

/-- The state of an outcome that has one. -/
def Assembly.Outcome.state : Assembly.Outcome → Option Assembly.Run
  | Assembly.Outcome.returned _ st => some st
  | Assembly.Outcome.waiting st => some st
  | Assembly.Outcome.undefined => none

/-- An Int leaf with key `"k"` and value 1. -/
def exampleLeafK : Part :=
  Part.mk 1 PartType.INT (some (conv "k")) (some "1") none

/-- An unkeyed Int leaf with value 7. -/
def exampleLeafRaw : Part :=
  Part.mk 2 PartType.INT none (some "7") none

/-- An Assembly asked for one Int value. -/
def exampleAssembly : Assembly := ⟨1, 0, 0⟩

/-- The locals of `exampleAssembly.run` after it accepted `exampleLeafK`. -/
def exampleFinal : Assembly.Run :=
  { iCount := 1, dCount := 0, sCount := 0,
    ss := "\x7b\"k\":1",
    c := ⟨"", ",", true⟩,
    keys := [(conv "k", PartType.INT)],
    calls := [ProducerCall.order 1 0 0],
    accepted := [exampleLeafK],
    absentKeyRead := false }

/-- The accumulating block of `get` as a whole: `fill` when `mSubs` is shorter
than `mExpectedLen`, nothing otherwise. -/
def ContainerFactoryBase.accumulate (f : ContainerFactoryBase) (queue : MuxParts) :
    ContainerFactoryBase × MuxParts :=
  if f.mSubs.length < f.mExpectedLen then f.fill queue else (f, queue)

/-- The factory states reached from `f0` by calls of `get`, each with an
arbitrary work queue, key allocator (live or not), serial counter and random
draws. -/
inductive ContainerFactoryBase.Reachable (f0 : ContainerFactoryBase) :
    ContainerFactoryBase → Prop where
  | start : ContainerFactoryBase.Reachable f0 f0
  | call (f : ContainerFactoryBase) (queue : MuxParts) (keys : Option KeyGetter)
      (serialGenerator : Serial) (rKey rLen : Nat) (res : ContainerFactoryBase.Get) :
      ContainerFactoryBase.Reachable f0 f →
      f.get queue keys serialGenerator rKey rLen = some res →
      ContainerFactoryBase.Reachable f0 res.self

/-- The invariant of a container factory of class `cls` built with
`minLen`, `maxLen` and auto-clear. -/
structure ContainerFactoryBase.Inv (cls : FactoryClass) (minLen maxLen : Nat)
    (f : ContainerFactoryBase) : Prop where
  clsEq : f.cls = cls
  typeEq : f.mPartType = cls.partType
  minEq : f.mMinLen = minLen
  maxEq : f.mMaxLen = maxLen
  auto : f.mAutoClear = true
  short : f.mSubs.length ≤ f.mExpectedLen
  drawn : ∃ r, drawExpectedLen minLen maxLen r = some f.mExpectedLen

/-- A key allocator over two stems with one registered token, activated. -/
def exampleKeys : KeyGetter := ⟨["alpha", "beta"], 1, 2⟩

/-- The keyed-pair factory for Int leaves holding token 0. -/
def exampleKvFactory : SimpleKvPairFactory := ⟨SimpleType.INT, 0⟩

/-- The simple Int array factory with `minLen = maxLen = 2`, as constructed. -/
def exampleArrayFactory : ContainerFactoryBase :=
  ⟨FactoryClass.SimpleArrayFactory SimpleType.INT, [], 2, 2, 2, true, PartType.ARRAY, 0⟩

/-- The unkeyed Int leaf with value 8. -/
def exampleLeafRaw2 : Part :=
  Part.mk 3 PartType.INT none (some "8") none

/-- The key allocator before any factory registered with it. -/
def exampleKeysFresh : KeyGetter := ⟨["alpha", "beta"], 0, 2⟩

/-- The factory `exampleArrayFactory` after it accepted `exampleLeafRaw`. -/
def exampleArrayFactoryHalf : ContainerFactoryBase :=
  { exampleArrayFactory with mSubs := [some exampleLeafRaw] }

/-- The Array emitted by `exampleArrayFactory` from the two unkeyed leaves. -/
def exampleArray : Part :=
  Part.mk 11 PartType.ARRAY (some (conv "alpha")) none
    (some [some exampleLeafRaw, some exampleLeafRaw2])

/-- Spec: no child of the accumulator carries the key `k`. -/
def KeyUnused (mSubs : D_PartPtr) (k : String) : Prop :=
  ∀ c ∈ mSubs, ∀ q : Part, c = some q → q.key ≠ some k

/-- Spec (row "array of arrays" as the claim reads it): the Part is an Array
that has no children or whose first child is not an Array; a Part without
child sequence has no children. -/
def ArrayArrayRow (p : Part) : Prop :=
  p.type = PartType.ARRAY ∧
    (p.subs.getD [] = [] ∨
      ∃ first rest, p.subs.getD [] = first :: rest ∧
        ∀ q : Part, first = some q → q.type ≠ PartType.ARRAY)

/-- An array-of-arrays factory as constructed with `minLen = 1`, `maxLen = 2`. -/
def exampleArrayArrayFactory : ContainerFactoryBase :=
  ⟨FactoryClass.ArrayArrayFactory, [], 1, 2, 1, true, PartType.ARRAY, 0⟩

/-- An Array built by `Part(Type, Key, Value, PartPtr)` without a child: its
`mSubs` holds no sequence. -/
def exampleArrayNoSubs : Part :=
  (Part.newKV 20 PartType.ARRAY (some (conv "arr")) none none).1

/-- An Array whose child sequence starts with a null pointer. -/
def exampleArrayNullFirst : Part :=
  (Part.newSubs 21 PartType.ARRAY (some [none]) (some (conv "arr")) none).1

/-! ## The leaf constructors and sequences of constructions -/

/-- A `double`, represented by the text `std::to_string` gives for it. -/
abbrev DoubleText := String

/-- `conv(T&)` for `int`: `std::to_string`. -/
def convInt (t : Int) : String := toString t

/-- `Part(int val, OptString const& key = OptString())`. -/
def Part.newInt (serialGenerator : Serial) (val : Int) (key : Key) : Part × Serial :=
  (Part.mk (serialGenerator + 1) PartType.INT key (some (convInt val)) none,
   serialGenerator + 1)

/-- `Part(double val, OptString const& key = OptString())`. -/
def Part.newDouble (serialGenerator : Serial) (val : DoubleText) (key : Key) : Part × Serial :=
  (Part.mk (serialGenerator + 1) PartType.DOUBLE key (some val) none, serialGenerator + 1)

/-- `Part(std::string const& val, OptString const& key = OptString())`. -/
def Part.newString (serialGenerator : Serial) (val : String) (key : Key) : Part × Serial :=
  (Part.mk (serialGenerator + 1) PartType.STRING key (some (conv val)) none,
   serialGenerator + 1)

/-- A call of one of the five constructors of `Part`, with its arguments. -/
inductive PartCtor where
  | kv (type : PartType) (key : Key) (val : Value) (sub : PartPtr)
  | subs (type : PartType) (subs : OptD_PartPtr) (key : Key) (val : Value)
  | int (val : Int) (key : Key)
  | double (val : DoubleText) (key : Key)
  | string (val : String) (key : Key)

/-- Running one constructor call on the serial generator. -/
def PartCtor.run (serialGenerator : Serial) : PartCtor → Part × Serial
  | PartCtor.kv t k v s => Part.newKV serialGenerator t k v s
  | PartCtor.subs t s k v => Part.newSubs serialGenerator t s k v
  | PartCtor.int v k => Part.newInt serialGenerator v k
  | PartCtor.double v k => Part.newDouble serialGenerator v k
  | PartCtor.string v k => Part.newString serialGenerator v k

/-- Running constructor calls one after the other: the Parts in construction
order and the serial generator at the end. -/
def constructAll (serialGenerator : Serial) : List PartCtor → List Part × Serial
  | [] => ([], serialGenerator)
  | c :: rest =>
    let made := c.run serialGenerator
    let more := constructAll made.2 rest
    (made.1 :: more.1, more.2)

/-! ## The suffix counter `BaseN` and the construction of the key pool -/

/-- `BaseN<BASE>`: the template argument, the zero character and the counter. -/
structure BaseN where
  BASE : Nat
  mZero : Char
  mVal : Nat
  deriving DecidableEq, Repr

/-- `BaseN(char zero)`. -/
def BaseN.new (BASE : Nat) (zero : Char) : BaseN := ⟨BASE, zero, 0⟩

/-- `BaseN::operator++()`. -/
def BaseN.incr (b : BaseN) : BaseN := { b with mVal := (b.mVal + 1) % SIZE_MOD }

/-- The loop `while(val) { digit=val%BASE; val=(val-digit)/BASE;
s=std::string(1,mZero+digit)+s; }` with at most `fuel` iterations; `none`
when the loop has not ended by then or `BASE` is zero. -/
def BaseN.derefLoop (BASE : Nat) (mZero : Char) : Nat → Nat → String → Option String
  | 0, val, s => if val = 0 then some s else none
  | fuel + 1, val, s =>
    if val = 0 then some s
    else if BASE = 0 then none
    else
      let digit := val % BASE
      BaseN.derefLoop BASE mZero fuel ((val - digit) / BASE)
        (String.singleton (Char.ofNat ((mZero.toNat + digit) % 256)) ++ s)

/-- `BaseN::operator*()`; the counter value itself is enough fuel whenever the
loop ends at all. -/
def BaseN.deref (b : BaseN) : Option String :=
  BaseN.derefLoop b.BASE b.mZero b.mVal b.mVal ""

/-- The loop `for(; count; --count, ++b)` of the constructor of `KeyGetter`,
appending to `mKeys` one copy of `names` per counter value. -/
def KeyGetter.expand (names : List String) : Nat → BaseN → List String → Option (List String)
  | 0, _, mKeys => some mKeys
  | count + 1, b, mKeys =>
    match b.deref with
    | none => none
    | some s =>
      let s := if !s.isEmpty then "_" ++ s else s
      KeyGetter.expand names count b.incr (mKeys ++ names.map (fun i => i ++ s))

/-- `KeyGetter::KeyGetter(V_S names, std::size_t count)`. -/
def KeyGetter.new (names : List String) (count : Nat) : Option KeyGetter :=
  if count = 0 then some ⟨names, 0, names.length⟩
  else
    match KeyGetter.expand names count (BaseN.new 26 'a') names with
    | some mKeys => some ⟨mKeys, 0, mKeys.length⟩
    | none => none

/-- `KeyGetter::activate()`; undefined when no token was registered. -/
def KeyGetter.activate (kg : KeyGetter) : Option KeyGetter :=
  if kg.mToken = 0 then none else some { kg with mSlice := kg.mKeys.length / kg.mToken }

/-- `reg()` called `n` times. -/
def KeyGetter.regTimes (kg : KeyGetter) : Nat → KeyGetter
  | 0 => kg
  | n + 1 => (kg.regTimes n).reg.2

/-- The key allocator of a producer: built from `names` and `count`, with one
token registered by each of `tokens` factories, then activated. -/
def KeyGetter.setup (names : List String) (count tokens : Nat) : Option KeyGetter :=
  match KeyGetter.new names count with
  | some kg => (kg.regTimes tokens).activate
  | none => none

/-- The table `g_substantives`. -/
def g_substantives : List String := [
  "abaxiator", "adscititiouser", "affranchiser", "aoristicor", "athwarter",
  "beaconacor", "bheestier", "biconcaver", "blitherer", "buckrammer",
  "centuplicator", "chicanerer", "coarticulor", "cribriformer", "ctenidiumer",
  "dactyolizer", "delabializator", "diminuendor", "dubitator", "dwindler",
  "eccentrizer", "elasticizer", "enantiotrophier", "eosinophiler", "equiprobabilizer",
  "fenestrator", "firnificator", "flagellator", "foliculator", "foppisher",
  "gesticulator", "ghoulizer", "gimcrackerizer", "glaciator", "gobbledegooker",
  "haplographier", "hemistitcher", "hierarchizer", "horologizer", "hyalogizer",
  "illminator", "inviolator", "iotacer", "isomorpher", "itemizer",
  "jangler", "jettisoner", "jibber", "jotter", "jurisprudenter",
  "katamorpher", "kinaestethor", "knaverer", "kottabosser", "kyoodler",
  "laborizer", "legitimizer", "ligaturer", "listlessor", "locator",
  "maculator", "merchandizor", "mimesizer", "modalator", "multifarier",
  "namablor", "negligor", "nicher", "nocturner", "nuncupator",
  "oblanceolator", "octamerer", "officializer", "omitter", "oxymoronizer",
  "parasynthesizer", "pedimentor", "phantastronizer", "pickler", "plagiotropisizer",
  "quacker", "quaererizor", "quantumizer", "quarreler", "quaternator",
  "rachiformer", "readjustor", "rinser", "rollicker", "ruinator",
  "salienator", "scatterer", "segmentalizer", "shaper", "sinuouser",
  "tanstaafler", "tediumizer", "thougher", "tillyvallier", "toilsomizer",
  "ubiquitter", "ultimator", "umbriferouser", "unconformer", "upsurger",
  "valuator", "vehiculumizer", "vinculumizer", "vorticer", "vulganizer",
  "wackier", "whammier", "wiggler", "wreather", "wrought-upper",
  "xanthiciser", "xerarchizer", "x-unitizer", "xylographer", "xylotomizer",
  "yarner", "yerker", "yielder", "yonderer", "yummizer",
  "zagger", "zanizer", "zonator", "zoomer", "zymosizer"]

/-! ## The producer: parameters, construction, orders, stall handling -/

/-- The random engine `mt`: the values it returns, in order, and how many of
them were taken so far. -/
structure Rand where
  draws : Nat → Nat
  pos : Nat

/-- One call `mt()`. -/
def Rand.next (g : Rand) : Nat × Rand :=
  (g.draws g.pos, { g with pos := g.pos + 1 })

/-- `enum class CT`. -/
inductive CT where
  | KI | KD | KS
  | AI | AD | AS | AA | AO | AM
  | OI | OD | OS | OA | OO | OM
  deriving DecidableEq, Repr

/-- `ProducerParams::ConsumerParams`. -/
structure ConsumerParams where
  min : Nat
  max : Nat
  recirc : Nat
  weigth : Nat
  deriving DecidableEq, Repr

/-- `struct ProducerParams`; the map `mCons` is an association list. -/
structure ProducerParams where
  mKeys : List String
  mMultiplier : Nat
  mInts : List (List Int)
  mDoubles : List (List DoubleText)
  mStrings : List (List String)
  mCons : List (CT × ConsumerParams)

/-- `ProducerParams::operator[](CT)`: the entry of the map, value-initialised
when the category has none. -/
def ProducerParams.at (par : ProducerParams) (i : CT) : ConsumerParams :=
  match par.mCons.find? (fun e => e.1 = i) with
  | some e => e.2
  | none => ⟨0, 0, 0, 0⟩

/-- `SimpleValueGenerator<T>`: the pointer to the deque of values. -/
structure SimpleValueGenerator (T : Type) where
  mValues : Option (List T)

/-- `SimpleValueGenerator<T>::get()`, `mk` being the constructor `Part(T)`:
a null pointer when there is no value, else a new unkeyed leaf for the value at
`mt() % size`. -/
def SimpleValueGenerator.get {T : Type} (g : SimpleValueGenerator T)
    (mk : Serial → T → Key → Part × Serial) (serialGenerator : Serial) (rnd : Rand) :
    PartPtr × Serial × Rand :=
  match g.mValues with
  | none => (none, serialGenerator, rnd)
  | some values =>
    if values.isEmpty then (none, serialGenerator, rnd)
    else
      match values.get? (rnd.next.1 % values.length) with
      | some v => ((mk serialGenerator v none).1, (mk serialGenerator v none).2, rnd.next.2)
      | none => (none, serialGenerator, rnd.next.2)

/-- `SimpleKvPairFactory(KeyGetterBasePtr keys)`: the factory and the key
allocator after `keys->reg()`. -/
def SimpleKvPairFactory.new (N : SimpleType) (keys : Option KeyGetter) :
    SimpleKvPairFactory × Option KeyGetter :=
  match keys with
  | some kg => (⟨N, kg.reg.1⟩, some kg.reg.2)
  | none => (⟨N, 0⟩, none)

/-- A factory object behind a `FactoryBasePtr`. -/
inductive Factory where
  | kvPair (f : SimpleKvPairFactory)
  | container (f : ContainerFactoryBase)

/-- An entry of `mConsumers`: `std::tuple<FactoryBasePtr,unsigned,unsigned>`. -/
structure ConsumerProducer where
  factory : Factory
  percentage : Nat
  weigth : Nat

/-- The class a factory member of `Producer` is declared with. -/
inductive MemberClass where
  | kvPair (N : SimpleType)
  | container (cls : FactoryClass)
  deriving DecidableEq, Repr

/-- The factory members of `Producer` in the order of `init(...)`, which is
also the order of `mConsumers`: the class of the declared pointer type (the
class `init` instantiates, through `element_type`) and the category whose
parameters the member is given.  The members are `mKvpFI`, `mKvpFD`,
`mKvpFS`, `mArrayFI`, `mArrayFD`, `mArrayFS`, `mObjectFI`, `mObjectFD`,
`mObjectFS`, `mObjArray`, `mArrayArray`, `mMixedArray`, `mArrayObj`,
`mObjObj`, `mMixedObj`. -/
def Producer.members : List (MemberClass × CT) := [
  (MemberClass.kvPair SimpleType.INT, CT.KI),
  (MemberClass.kvPair SimpleType.DOUBLE, CT.KD),
  (MemberClass.kvPair SimpleType.STRING, CT.KS),
  (MemberClass.container (FactoryClass.SimpleArrayFactory SimpleType.INT), CT.AI),
  (MemberClass.container (FactoryClass.SimpleArrayFactory SimpleType.DOUBLE), CT.AD),
  (MemberClass.container (FactoryClass.SimpleArrayFactory SimpleType.STRING), CT.AS),
  (MemberClass.container (FactoryClass.SimpleObjectFactory SimpleType.INT), CT.OI),
  (MemberClass.container (FactoryClass.SimpleObjectFactory SimpleType.DOUBLE), CT.OD),
  (MemberClass.container (FactoryClass.SimpleObjectFactory SimpleType.STRING), CT.OS),
  (MemberClass.container FactoryClass.ObjectArrayFactory, CT.AO),
  (MemberClass.container FactoryClass.ArrayArrayFactory, CT.AA),
  (MemberClass.container FactoryClass.ArrayArrayFactory, CT.AM),
  (MemberClass.container FactoryClass.ArrayObjectFactory, CT.OA),
  (MemberClass.container FactoryClass.ObjectObjectFactory, CT.OO),
  (MemberClass.container FactoryClass.ObjectObjectFactory, CT.OM)]

/-- The position in `mConsumers` of the factory configured by a category. -/
def CT.position : CT → Nat
  | CT.KI => 0 | CT.KD => 1 | CT.KS => 2
  | CT.AI => 3 | CT.AD => 4 | CT.AS => 5
  | CT.OI => 6 | CT.OD => 7 | CT.OS => 8
  | CT.AO => 9 | CT.AA => 10 | CT.AM => 11
  | CT.OA => 12 | CT.OO => 13 | CT.OM => 14

/-- `struct Producer`.  The factory objects live in `mConsumers`; the members
`mKvpFI` ... `mMixedObj` point to the same objects and are their positions
0 ... 14.  `mMisses` is an association list for the `std::map`. -/
structure Producer where
  mValueFIs : List (SimpleValueGenerator Int)
  mValueFDs : List (SimpleValueGenerator DoubleText)
  mValueFSs : List (SimpleValueGenerator String)
  mConsumers : List ConsumerProducer
  mParts : MuxParts
  mProducts : MuxParts
  mMisses : List (Serial × Int)
  mKeyGetter : KeyGetter
  mDone : Bool

namespace Producer

/-- The `init(...)` call of the constructor and the filling of `mConsumers`,
member by member: each factory is built (registering its token) and entered
with the recirculation percentage and weight of its category, converted to
`unsigned`.  `rLen i` is the value of `mt()` for the member at position `i`. -/
def build (par : ProducerParams) (rLen : Nat → Nat) :
    List (MemberClass × CT) → Nat → Option KeyGetter →
      Option (List ConsumerProducer × Option KeyGetter)
  | [], _, keys => some ([], keys)
  | (MemberClass.kvPair N, ct) :: rest, i, keys =>
    match build par rLen rest (i + 1) (SimpleKvPairFactory.new N keys).2 with
    | some (cs, k) =>
      some (⟨Factory.kvPair (SimpleKvPairFactory.new N keys).1,
        (par.at ct).recirc % 2 ^ 32, (par.at ct).weigth % 2 ^ 32⟩ :: cs, k)
    | none => none
  | (MemberClass.container cls, ct) :: rest, i, keys =>
    match ContainerFactoryBase.new cls (par.at ct).min (par.at ct).max true keys (rLen i) with
    | none => none
    | some (f, keys1) =>
      match build par rLen rest (i + 1) keys1 with
      | some (cs, k) =>
        some (⟨Factory.container f, (par.at ct).recirc % 2 ^ 32,
          (par.at ct).weigth % 2 ^ 32⟩ :: cs, k)
      | none => none

/-- `Producer::Producer(ProducerParams par)`. -/
def new (par : ProducerParams) (rLen : Nat → Nat) : Option Producer :=
  match KeyGetter.new par.mKeys par.mMultiplier with
  | none => none
  | some kg0 =>
    match build par rLen members 0 (some kg0) with
    | some (cs, some kg1) =>
      match kg1.activate with
      | some kg =>
        some { mValueFIs := par.mInts.map (fun i => ⟨some i⟩),
               mValueFDs := par.mDoubles.map (fun i => ⟨some i⟩),
               mValueFSs := par.mStrings.map (fun i => ⟨some i⟩),
               mConsumers := cs,
               mParts := [], mProducts := [], mMisses := [],
               mKeyGetter := kg, mDone := false }
      | none => none
    | _ => none

/-- The container factory configured by category `ct`, when it is one. -/
def containerOf (p : Producer) (ct : CT) : Option ContainerFactoryBase :=
  match p.mConsumers.get? ct.position with
  | some ⟨Factory.container f, _, _⟩ => some f
  | _ => none

/-- The loop `for(; ints>=0; --ints) mParts.push_back(gen.get());` with at
most `fuel` tests of its condition; `none` when they do not suffice. -/
def orderLoop {T : Type} (gen : SimpleValueGenerator T)
    (mk : Serial → T → Key → Part × Serial) :
    Nat → Int → MuxParts → Serial → Rand → Option (MuxParts × Serial × Rand)
  | 0, _, _, _, _ => none
  | fuel + 1, ints, mParts, serialGenerator, rnd =>
    if ints ≥ 0 then
      orderLoop gen mk fuel (ints - 1)
        (mParts ++ [(gen.get mk serialGenerator rnd).1])
        (gen.get mk serialGenerator rnd).2.1 (gen.get mk serialGenerator rnd).2.2
    else some (mParts, serialGenerator, rnd)

/-- One of the three blocks of `order`: `if(ints>0) { auto ix{mt()%gens.size()};
for(...) ... }`; undefined when there is no group (`mt() % 0`). -/
def orderType {T : Type} (gens : List (SimpleValueGenerator T))
    (mk : Serial → T → Key → Part × Serial) (ints : Int) (mParts : MuxParts)
    (serialGenerator : Serial) (rnd : Rand) : Option (MuxParts × Serial × Rand) :=
  if ints > 0 then
    if gens.length = 0 then none
    else
      match gens.get? (rnd.next.1 % gens.length) with
      | some gen => orderLoop gen mk (ints.toNat + 2) ints mParts serialGenerator rnd.next.2
      | none => none
  else some (mParts, serialGenerator, rnd)

/-- `Producer::order(int ints, int doubles, int strings)`. -/
def order (p : Producer) (ints doubles strings : Int) (serialGenerator : Serial)
    (rnd : Rand) : Option (Producer × Serial × Rand) :=
  match orderType p.mValueFIs Part.newInt ints p.mParts serialGenerator rnd with
  | none => none
  | some (q1, g1, r1) =>
    match orderType p.mValueFDs Part.newDouble doubles q1 g1 r1 with
    | none => none
    | some (q2, g2, r2) =>
      match orderType p.mValueFSs Part.newString strings q2 g2 r2 with
      | none => none
      | some (q3, g3, r3) => some ({ p with mParts := q3 }, g3, r3)

/-- `++mMisses[candidate]`: the entry is created with 0 when absent. -/
def missesIncr : List (Serial × Int) → Serial → List (Serial × Int)
  | [], k => [(k, 1)]
  | (k1, v) :: rest, k =>
    if k1 = k then (k1, v + 1) :: rest else (k1, v) :: missesIncr rest k

/-- The value `mMisses[candidate]` reads (0 for an absent entry). -/
def missesAt : List (Serial × Int) → Serial → Int
  | [], _ => 0
  | (k1, v) :: rest, k => if k1 = k then v else missesAt rest k

/-- `mMisses.erase(candidate)`. -/
def missesErase (m : List (Serial × Int)) (k : Serial) : List (Serial × Int) :=
  m.filter (fun e => e.1 ≠ k)

/-- The end of one iteration of the loop of `produce`, after the factories
were offered the queue: nothing when the work queue is empty or its head is
not the Part recorded as `candidate`; otherwise the stall counter of the
candidate is incremented and the head is either promoted to `mProducts`
(counter above 2; the log line streams the Part) or moved to the back.
`none` when the head is a null pointer or the logged Part has no rendering. -/
def endOfPass (p : Producer) (candidate : Serial) : Option Producer :=
  match p.mParts with
  | [] => some p
  | none :: _ => none
  | some front :: rest =>
    if candidate = front.serial then
      if missesAt (missesIncr p.mMisses candidate) candidate > 2 then
        match front.render with
        | some _ =>
          some { p with
            mProducts := p.mProducts ++ [some front],
            mParts := rest,
            mMisses := missesErase (missesIncr p.mMisses candidate) candidate }
        | none => none
      else
        some { p with
          mMisses := missesIncr p.mMisses candidate,
          mParts := rest ++ [some front] }
    else some p

end Producer

/-- The value pools of `initProducerValues`, the key stems of
`initProducerKeys` and the consumer parameters of the preset "default", with
the key multiplier `multiplier` (the option `-s`). -/
def presetDefault (multiplier : Nat) : ProducerParams :=
  { mKeys := g_substantives,
    mMultiplier := multiplier,
    mInts := [[0, 1, 2, 3, 4, 5, 6, 7, 8, 9], [10, 11, 12, 13, 14, 15, 16, 17, 18, 19],
      [110, 111, 112, 113, 114, 115, 116, 117, 118, 119]],
    mDoubles := [["0.100000", "0.200000", "0.300000", "0.400000", "0.500000", "0.600000",
        "0.700000", "0.800000", "0.900000", "1.000000"],
      ["10.100000", "10.200000", "10.300000", "10.400000", "10.500000", "10.600000",
        "10.700000", "10.800000", "10.900000", "11.000000"],
      ["110.110000", "110.210000", "110.310000", "110.410000", "110.150000", "110.610000",
        "110.710000", "110.180000", "110.190000", "111.020000"]],
    mStrings := [["A-0001", "B-0010", "C-0100", "D-1000", "E-1001", "F-1010", "G-1100",
        "H-1101", "I-1111"],
      ["3212-ab", "4230-bb", "4901-cb", "9443-db", "8444-eg", "3300-ff", "5932-gb",
        "0943-hb", "4064-ig"]],
    mCons := [(CT.KI, ⟨1, 2, 50, 1⟩), (CT.KD, ⟨1, 2, 50, 1⟩), (CT.KS, ⟨1, 2, 50, 1⟩),
      (CT.AI, ⟨1, 2, 50, 1⟩), (CT.AD, ⟨1, 2, 50, 1⟩), (CT.AS, ⟨1, 2, 50, 1⟩),
      (CT.AO, ⟨1, 2, 50, 1⟩), (CT.AA, ⟨1, 2, 50, 1⟩), (CT.AM, ⟨1, 2, 50, 1⟩),
      (CT.OI, ⟨1, 2, 50, 1⟩), (CT.OD, ⟨1, 2, 50, 1⟩), (CT.OS, ⟨1, 2, 50, 1⟩),
      (CT.OA, ⟨1, 2, 50, 1⟩), (CT.OO, ⟨1, 2, 50, 1⟩), (CT.OM, ⟨1, 2, 50, 1⟩)] }

/-- A random engine that always returns 0. -/
def exampleRand : Rand := ⟨fun _ => 0, 0⟩

/-- A producer whose work queue holds only the unkeyed leaf 7. -/
def exampleStalled (misses : List (Serial × Int)) (products : MuxParts) : Producer :=
  { mValueFIs := [], mValueFDs := [], mValueFSs := [], mConsumers := [],
    mParts := [some exampleLeafRaw], mProducts := products, mMisses := misses,
    mKeyGetter := exampleKeys, mDone := false }

mutual
/-- No container of the tree holds a null pointer among its children. -/
def Part.noNullChildren : Part → Bool
  | Part.mk _ _ _ _ s => noNullOptSubs s
/-- No null pointer in or below an optional child sequence. -/
def noNullOptSubs : Option (List (Option Part)) → Bool
  | none => true
  | some l => noNullSubs l
/-- No null pointer in or below a child sequence. -/
def noNullSubs : List (Option Part) → Bool
  | [] => true
  | none :: _ => false
  | some p :: rest => Part.noNullChildren p && noNullSubs rest
end

mutual
/-- Spec: the number of leaves (Parts of kind Int, Double or String) that a
Part contains transitively, itself included. -/
def Part.leaves : Part → Nat
  | Part.mk _ t _ _ s =>
    match t with
    | PartType.ARRAY => leavesOptSubs s
    | PartType.OBJECT => leavesOptSubs s
    | _ => 1
/-- Spec: leaves below an optional child sequence. -/
def leavesOptSubs : Option (List (Option Part)) → Nat
  | none => 0
  | some l => leavesSubs l
/-- Spec: leaves below a child sequence. -/
def leavesSubs : List (Option Part) → Nat
  | [] => 0
  | none :: rest => leavesSubs rest
  | some p :: rest => Part.leaves p + leavesSubs rest
end

/-- Spec: every entry of the sequence is a Part that carries a key. -/
def AllKeyed (l : D_PartPtr) : Prop :=
  ∀ c ∈ l, ∃ (q : Part) (k : String), c = some q ∧ q.key = some k

/-- The keys carried by the entries of a sequence, in order. -/
def keysOf (l : D_PartPtr) : List String :=
  l.filterMap (fun c => c.bind Part.key)

/-- Spec: every entry of the sequence is a Part without key. -/
def AllUnkeyed (l : D_PartPtr) : Prop :=
  ∀ c ∈ l, ∃ q : Part, c = some q ∧ q.key = none

/-- An Array that `ArrayArrayFactory::match` accepts: it has a child sequence
that is empty or starts with a Part that is not an Array. -/
def PlainArray (q : Part) : Prop :=
  q.type = PartType.ARRAY ∧
    (q.subs = some [] ∨ ∃ q2 rest, q.subs = some (some q2 :: rest) ∧ q2.type ≠ PartType.ARRAY)

/-- The simple Int object factory with `minLen = maxLen = 1`, as constructed. -/
def exampleObjectFactory : ContainerFactoryBase :=
  ⟨FactoryClass.SimpleObjectFactory SimpleType.INT, [], 1, 1, 1, true, PartType.OBJECT, 0⟩

/-- The Object emitted by `exampleObjectFactory` from the keyed leaf `"k":1`. -/
def exampleObject : Part :=
  Part.mk 11 PartType.OBJECT (some (conv "alpha")) none (some [some exampleLeafK])

/-- The two-level Array emitted by `exampleArrayArrayFactory` from
`exampleArray`, whose key is cleared on the way in. -/
def exampleNested : Part :=
  Part.mk 12 PartType.ARRAY (some (conv "alpha")) none
    (some [some (exampleArray.setKey none)])

/-! ## The dispatch pass of `Producer::produce` -/

namespace Producer

/-- The test `100-std::get<IX::PERCENTAGE>(consumer) < mt()%100`, in `unsigned`
arithmetic, with `r` the value of `mt()`: when it holds the emitted Part is
pushed back onto `mParts`. -/
def recirculates (percentage r : Nat) : Bool :=
  decide ((100 + 2 ^ 32 - percentage % 2 ^ 32) % 2 ^ 32 < r % 100)

/-- What `produce` does with a Part a factory returned: back onto the work
queue when the test holds, else onto the products queue. -/
def dispose (p : Producer) (part : Part) (percentage r : Nat) : Producer :=
  if recirculates percentage r then { p with mParts := p.mParts ++ [some part] }
  else { p with mProducts := p.mProducts ++ [some part] }

/-- The vector `key2`: the position of every consumer, repeated as many times
as its weight, positions counted from `i`. -/
def key2From : Nat → List ConsumerProducer → List Nat
  | _, [] => []
  | i, c :: rest => List.replicate c.weigth i ++ key2From (i + 1) rest

/-- The vector `key2` of `produce`. -/
def key2 (p : Producer) : List Nat := key2From 0 p.mConsumers

/-- One turn of the inner loop of `produce` for the consumer at position
`ixx`: its factory is offered the work queue, and a returned Part is disposed
of after the roll.  The draws are taken from `rnd` in the order of the
calls of `mt()`: the key, the new expected length when `maxLen > minLen`,
the roll. -/
def offer (p : Producer) (ixx : Nat) (serialGenerator : Serial) (rnd : Rand) :
    Option (Producer × Serial × Rand) :=
  match p.mConsumers.get? ixx with
  | none => none
  | some ⟨Factory.kvPair f, percentage, _⟩ =>
    match f.get p.mParts (some p.mKeyGetter) serialGenerator rnd.next.1 with
    | none => none
    | some res =>
      match res.part with
      | some part =>
        some (dispose { p with mParts := res.queue } part percentage rnd.next.2.next.1,
          res.serialGenerator, rnd.next.2.next.2)
      | none => some ({ p with mParts := res.queue }, res.serialGenerator, rnd)
  | some ⟨Factory.container f, percentage, weigth⟩ =>
    match f.get p.mParts (some p.mKeyGetter) serialGenerator rnd.next.1
        rnd.next.2.next.1 with
    | none => none
    | some res =>
      match res.part with
      | some part =>
        some (dispose
            { p with
              mParts := res.queue,
              mConsumers := p.mConsumers.set ixx ⟨Factory.container res.self, percentage, weigth⟩ }
            part percentage
            (if f.mMaxLen ≤ f.mMinLen then rnd.next.2 else rnd.next.2.next.2).next.1,
          res.serialGenerator,
          (if f.mMaxLen ≤ f.mMinLen then rnd.next.2 else rnd.next.2.next.2).next.2)
      | none =>
        some ({ p with
            mParts := res.queue,
            mConsumers := p.mConsumers.set ixx ⟨Factory.container res.self, percentage, weigth⟩ },
          res.serialGenerator, rnd)

/-- The loop `while(!key.empty())` of `produce`, with at most `fuel` turns:
a position is drawn from `key`, erased, and its consumer is offered the
queue. -/
def dispatchLoop : Nat → List Nat → Producer → Serial → Rand →
    Option (Producer × Serial × Rand)
  | 0, key, p, serialGenerator, rnd =>
    if key.isEmpty then some (p, serialGenerator, rnd) else none
  | fuel + 1, key, p, serialGenerator, rnd =>
    if key.isEmpty then some (p, serialGenerator, rnd)
    else
      match key.get? (rnd.next.1 % key.length) with
      | none => none
      | some ixx =>
        match offer p ixx serialGenerator rnd.next.2 with
        | none => none
        | some (p1, g1, rnd1) =>
          dispatchLoop fuel (key.eraseIdx (rnd.next.1 % key.length)) p1 g1 rnd1

/-- One iteration of the loop `while(!mDone)` of `produce`: nothing when done
or when the work queue is empty (the thread waits); otherwise the serial of
the head is recorded, every entry of `key2` is dispatched, and the end of the
pass handles a stall.  `none` when the head is a null pointer. -/
def pass (p : Producer) (serialGenerator : Serial) (rnd : Rand) :
    Option (Producer × Serial × Rand) :=
  if p.mDone then some (p, serialGenerator, rnd)
  else
    match p.mParts with
    | [] => some (p, serialGenerator, rnd)
    | none :: _ => none
    | some front :: _ =>
      match dispatchLoop (key2 p).length (key2 p) p serialGenerator rnd with
      | none => none
      | some (p1, g1, rnd1) =>
        match p1.endOfPass front.serial with
        | some p2 => some (p2, g1, rnd1)
        | none => none

/-- `n` iterations of the loop of `produce`. -/
def passes : Nat → Producer → Serial → Rand → Option (Producer × Serial × Rand)
  | 0, p, serialGenerator, rnd => some (p, serialGenerator, rnd)
  | n + 1, p, serialGenerator, rnd =>
    match pass p serialGenerator rnd with
    | some (p1, g1, rnd1) => passes n p1 g1 rnd1
    | none => none

end Producer

/-- The parameters of the scenario: the stems of `g_substantives`, no key
multiplier, the int-array factory with `minLen = maxLen = 2`, recirculation 0
and weight 1; every other category is absent from the map, hence has weight 0. -/
def scenarioParams : ProducerParams :=
  { mKeys := g_substantives, mMultiplier := 0,
    mInts := [], mDoubles := [], mStrings := [],
    mCons := [(CT.AI, ⟨2, 2, 0, 1⟩)] }

/-- The three unkeyed Int leaves of the scenario. -/
def scenarioSeeds : MuxParts :=
  [some (Part.mk 1 PartType.INT none (some "10") none),
   some (Part.mk 2 PartType.INT none (some "20") none),
   some (Part.mk 3 PartType.INT none (some "30") none)]

/-- The producer of the scenario after `n` iterations of `produce`, started
with the three seeds in its work queue and every draw equal to 0. -/
def scenarioAfter (n : Nat) : Option (Producer × Serial × Rand) :=
  match Producer.new scenarioParams (fun _ => 0) with
  | some p => Producer.passes n { p with mParts := scenarioSeeds } 3 exampleRand
  | none => none

/-- A producer holding only the int-array factory of the scenario, with the
three seeds in its work queue. -/
def exampleScenarioProducer : Producer :=
  { mValueFIs := [], mValueFDs := [], mValueFSs := [],
    mConsumers := [⟨Factory.container exampleArrayFactory, 0, 1⟩],
    mParts := scenarioSeeds, mProducts := [], mMisses := [],
    mKeyGetter := exampleKeys, mDone := false }

/-! ## The serials present in a producer -/

mutual
/-- The serials of a Part and of all Parts below it. -/
def Part.serials : Part → List Serial
  | Part.mk s _ _ _ subs => s :: serialsOptSubs subs
/-- The serials in and below an optional child sequence. -/
def serialsOptSubs : Option (List (Option Part)) → List Serial
  | none => []
  | some l => serialsSubs l
/-- The serials in and below a sequence of Part pointers. -/
def serialsSubs : List (Option Part) → List Serial
  | [] => []
  | none :: rest => serialsSubs rest
  | some p :: rest => Part.serials p ++ serialsSubs rest
end

/-- The serials held in the accumulator of a factory. -/
def Factory.serials : Factory → List Serial
  | Factory.kvPair _ => []
  | Factory.container f => serialsSubs f.mSubs

/-- The serials held in the accumulators of all consumers. -/
def consumersSerials : List ConsumerProducer → List Serial
  | [] => []
  | c :: rest => c.factory.serials ++ consumersSerials rest

/-- Every serial in the work queue, the products queue, the accumulators of
all factories and the children of all containers among them. -/
def Producer.allSerials (p : Producer) : List Serial :=
  serialsSubs p.mParts ++ serialsSubs p.mProducts ++ consumersSerials p.mConsumers

/-- Every container factory of the producer has auto-clear enabled. -/
def Producer.AutoClear (p : Producer) : Prop :=
  ∀ c ∈ p.mConsumers, ∀ f, c.factory = Factory.container f → f.mAutoClear = true

/-- No serial occurs twice in the producer, every serial was issued by the
serial generator, and auto-clear is enabled. -/
def Producer.Distinct (p : Producer) (serialGenerator : Serial) : Prop :=
  p.allSerials.Nodup ∧ (∀ s ∈ p.allSerials, s ≤ serialGenerator) ∧ p.AutoClear

/-- One step of the system around a producer and the serial generator: an
iteration of `produce`, an order, or an Assembly taking the head of the
products queue and either recirculating it or keeping it for its document. -/
inductive Producer.Step : Producer × Serial → Producer × Serial → Prop where
  | pass (p : Producer) (g : Serial) (rnd : Rand) (p1 : Producer) (g1 : Serial) (rnd1 : Rand) :
      p.pass g rnd = some (p1, g1, rnd1) → Producer.Step (p, g) (p1, g1)
  | order (p : Producer) (ints doubles strings : Int) (g : Serial) (rnd : Rand)
      (p1 : Producer) (g1 : Serial) (rnd1 : Rand) :
      p.order ints doubles strings g rnd = some (p1, g1, rnd1) → Producer.Step (p, g) (p1, g1)
  | recirculate (p : Producer) (g : Serial) (prod : PartPtr) (rest : MuxParts) :
      p.mProducts = prod :: rest →
      Producer.Step (p, g)
        ({ p with mProducts := rest, mParts := Producer.recirculate p.mParts prod }, g)
  | accept (p : Producer) (g : Serial) (prod : PartPtr) (rest : MuxParts) :
      p.mProducts = prod :: rest →
      Producer.Step (p, g) ({ p with mProducts := rest }, g)

/-- The states reached from a start state by any number of steps. -/
inductive Producer.Reach (s0 : Producer × Serial) : Producer × Serial → Prop where
  | start : Producer.Reach s0 s0
  | step (s s1 : Producer × Serial) :
      Producer.Reach s0 s → Producer.Step s s1 → Producer.Reach s0 s1

/-- The serials `b` are the serials `a` together with distinct new ones, each
issued while the serial generator went from `g` to `g1`. -/
def FreshSerials (g g1 : Int) (a b : List Serial) : Prop :=
  ∃ F : List Serial, F.Nodup ∧ (∀ x ∈ F, g < x ∧ x ≤ g1) ∧ g ≤ g1
    ∧ (↑b : Multiset Serial) = ↑F + ↑a

/-- The scenario producer after one iteration of `produce` with every draw 0
(unchanged if the iteration were undefined). -/
def exampleAfterPass1 : Producer × Serial × Rand :=
  (exampleScenarioProducer.pass 3 exampleRand).getD (exampleScenarioProducer, 3, exampleRand)

/-- The scenario producer after a second iteration. -/
def exampleAfterPass2 : Producer × Serial × Rand :=
  (exampleAfterPass1.1.pass exampleAfterPass1.2.1 exampleAfterPass1.2.2).getD exampleAfterPass1

/-! ## The command line -/

/-- `enum ERRORS`. -/
inductive ERRORS where
  | NO | USAGE | CMDLINE_INVALID_PREDEFINED | CMDLINE_EXCEPTION
  deriving DecidableEq, Repr

/-- The value of an enumerator as `int`. -/
def ERRORS.toInt : ERRORS → Int
  | ERRORS.NO => 0
  | ERRORS.USAGE => 1
  | ERRORS.CMDLINE_INVALID_PREDEFINED => 2
  | ERRORS.CMDLINE_EXCEPTION => 3

/-- `using V_Counts=std::vector<std::tuple<int,int,int>>`. -/
abbrev V_Counts := List (Int × Int × Int)

/-- The position of the first comma of `s`, the positions counted from `i`. -/
def findCommaFrom : List Char → Nat → Option Nat
  | [], _ => none
  | c :: rest, i => if c = ',' then some i else findCommaFrom rest (i + 1)

/-- `s.find(",",pos)`; `none` is `std::string::npos`. -/
def strFind (s : String) (pos : Nat) : Option Nat :=
  findCommaFrom (s.data.drop pos) pos

/-- `s.substr(pos,count)` for `pos` not beyond the size of `s`; the count
`none` is `npos`. -/
def substr (s : String) (pos : Nat) (count : Option Nat) : String :=
  match count with
  | none => String.mk (s.data.drop pos)
  | some n => String.mk ((s.data.drop pos).take n)

/-- The recursive lambda `splitz` of `parseCmdline`, with at most `fuel`
calls: the piece `s.substr(pos,pos2)` is appended to `res` (the second
argument of `substr` is a count, and it is given the position of the comma),
and the recursion goes on behind the comma.  `pos` is never beyond the size
of `s`, so `substr` does not throw. -/
def splitzLoop : Nat → List String → String → Nat → Option (List String)
  | 0, _, _, _ => none
  | fuel + 1, res, s, pos =>
    if pos ≠ SIZE_MOD - 1 then
      match strFind s pos with
      | some pos2 => splitzLoop fuel (res ++ [substr s pos (some pos2)]) s (pos2 + 1)
      | none => some (res ++ [substr s pos none])
    else some res

/-- The call `splitz(splitz,v,ii)` on an empty `v`. -/
def splitz (s : String) : Option (List String) :=
  splitzLoop (s.length + 1) [] s 0

/-- The characters `std::isspace` accepts in the "C" locale. -/
def isSpaceChar (c : Char) : Bool :=
  c.toNat = 32 || (9 ≤ c.toNat && c.toNat ≤ 13)

/-- `std::stoi(s)`: leading white space is skipped, a sign is read, then the
longest run of decimal digits; the rest of the string is ignored.  `none`
when it throws: no digit (`std::invalid_argument`) or a value outside `int`
(`std::out_of_range`). -/
def stoi (s : String) : Option Int :=
  match s.data.dropWhile isSpaceChar with
  | [] => none
  | c :: rest =>
    if ((if c = '-' ∨ c = '+' then rest else c :: rest).takeWhile Char.isDigit).isEmpty then none
    else if c = '-' then
      if 2 ^ 31 < (rest.takeWhile Char.isDigit).foldl (fun a d => 10 * a + (d.toNat - 48)) 0
      then none
      else some (-(((rest.takeWhile Char.isDigit).foldl
        (fun a d => 10 * a + (d.toNat - 48)) 0 : Nat) : Int))
    else
      if 2 ^ 31 ≤ ((if c = '+' then rest else c :: rest).takeWhile Char.isDigit).foldl
          (fun a d => 10 * a + (d.toNat - 48)) 0
      then none
      else some ((((if c = '+' then rest else c :: rest).takeWhile Char.isDigit).foldl
        (fun a d => 10 * a + (d.toNat - 48)) 0 : Nat) : Int)

/-- The conversion of an `int` to `std::size_t`. -/
def toSizeT (n : Int) : Nat := (n % (SIZE_MOD : Int)).toNat

/-- The set `KEYS_1` of `parseCmdline`. -/
def KEYS_1 : List String := ["-h"]

/-- The set `KEYS_2` of `parseCmdline`. -/
def KEYS_2 : List String := ["-s", "-p", "-c", "-t"]

/-- The map `KEYS` of the `-c` handling. -/
def KEYS : List (String × CT) :=
  [("KI", CT.KI), ("KD", CT.KD), ("KS", CT.KS), ("AI", CT.AI), ("AD", CT.AD), ("AS", CT.AS),
   ("AO", CT.AO), ("AA", CT.AA), ("AM", CT.AM), ("OI", CT.OI), ("OD", CT.OD), ("OS", CT.OS),
   ("OA", CT.OA), ("OO", CT.OO), ("OM", CT.OM)]

/-- `KEYS.find(key)`. -/
def keysFindCT (key : String) : Option CT :=
  (KEYS.find? (fun e => e.1 = key)).map (fun e => e.2)

/-- The map `candidates` of `parseCmdline`, as an association list. -/
abbrev Candidates := List (String × List String)

/-- `candidates.find(k)`: the vector of the entry, when there is one. -/
def candFind (c : Candidates) (k : String) : Option (List String) :=
  (c.find? (fun e => e.1 = k)).map (fun e => e.2)

/-- `candidates[k].push_back(v)`. -/
def candPush : Candidates → String → String → Candidates
  | [], k, v => [(k, [v])]
  | (k1, vs) :: rest, k, v =>
    if k1 = k then (k1, vs ++ [v]) :: rest else (k1, vs) :: candPush rest k v

/-- `candidates[k];`: the entry is created when absent. -/
def candTouch (c : Candidates) (k : String) : Candidates :=
  if (candFind c k).isSome then c else c ++ [(k, [])]

/-- The loop `for(int i=1; i<argc; ++i)` over the arguments not yet visited:
an option of `KEYS_2` followed by an argument that is not one gets that
argument as a value (the test `!strcmp(argv[i],"-h")` is false for a member of
`KEYS_2`); `-h` gets an entry; any other argument starting with `-` ends the
function with `USAGE`, which is `none` here. -/
def candidatesLoop : List String → Candidates → Option Candidates
  | [], c => some c
  | a :: rest, c =>
    if a ∈ KEYS_2 then
      match rest with
      | b :: _ => if b ∉ KEYS_2 then candidatesLoop rest (candPush c a b)
                  else candidatesLoop rest c
      | [] => candidatesLoop rest c
    else if a ∈ KEYS_1 then candidatesLoop rest (candTouch c a)
    else if a.data.head? = some '-' then none
    else candidatesLoop rest c

/-- `ProducerParams::setConsumerParam`: `mCons[ct]=cp`. -/
def setConsumerParamIn : List (CT × ConsumerParams) → CT → ConsumerParams →
    List (CT × ConsumerParams)
  | [], ct, cp => [(ct, cp)]
  | (c, v) :: rest, ct, cp =>
    if c = ct then (c, cp) :: rest else (c, v) :: setConsumerParamIn rest ct cp

/-- `ProducerParams::setConsumerParam(CT ct, ConsumerParams const& cp)`. -/
def ProducerParams.setConsumerParam (par : ProducerParams) (ct : CT) (cp : ConsumerParams) :
    ProducerParams :=
  { par with mCons := setConsumerParamIn par.mCons ct cp }

/-- The loop of the `-s` handling: `pp.setKeyMultiplier(std::stoi(i))` for every
value.  The first component is the code the function returns with when `stoi`
throws. -/
def multiplierLoop : List String → ProducerParams → Option ERRORS × ProducerParams
  | [], pp => (none, pp)
  | i :: rest, pp =>
    match stoi i with
    | none => (some ERRORS.CMDLINE_EXCEPTION, pp)
    | some n => multiplierLoop rest { pp with mMultiplier := toSizeT n }

/-- The loop of the `-p` handling: the parameters are replaced by the named
predefined ones; an unknown name ends the function. -/
def predefinedLoop (predefined : List (String × ProducerParams)) :
    List String → ProducerParams → Option ERRORS × ProducerParams
  | [], pp => (none, pp)
  | i :: rest, pp =>
    match predefined.find? (fun e => e.1 = i) with
    | some j => predefinedLoop predefined rest j.2
    | none => (some ERRORS.CMDLINE_INVALID_PREDEFINED, pp)

/-- One statement `if(vv!=v.end()) x=std::stoi(*vv++);` of the `-c` handling:
the new value of `x` and of `vv`; `none` when `stoi` throws. -/
def readSize (x : Nat) : List String → Option (Nat × List String)
  | [] => some (x, [])
  | a :: rest =>
    match stoi a with
    | none => none
    | some n => some (toSizeT n, rest)

/-- The variables `minSize`, `maxSize`, `recirc`, `weigth` of the `-c`
handling, which are declared before the loop over the `-c` values. -/
structure Sizes where
  minSize : Nat
  maxSize : Nat
  recirc : Nat
  weigth : Nat
  deriving DecidableEq, Repr

/-- The loop `for(auto ii: k->second)` of the `-c` handling.  The outer
`none` is undefined behaviour (or `splitz` out of fuel); the first component is
the code the function returns with when `stoi` throws. -/
def consumerLoop : List String → Sizes → ProducerParams →
    Option (Option ERRORS × ProducerParams)
  | [], _, pp => some (none, pp)
  | ii :: more, z, pp =>
    match splitz ii with
    | none => none
    | some [] => none
    | some (key :: vv1) =>
      match keysFindCT key with
      | none => consumerLoop more z pp
      | some ct =>
        match readSize z.minSize vv1 with
        | none => some (some ERRORS.CMDLINE_EXCEPTION, pp)
        | some (minSize, vv2) =>
          match readSize z.maxSize vv2 with
          | none => some (some ERRORS.CMDLINE_EXCEPTION, pp)
          | some (maxSize, vv3) =>
            match readSize z.recirc vv3 with
            | none => some (some ERRORS.CMDLINE_EXCEPTION, pp)
            | some (recirc, vv4) =>
              match readSize z.weigth vv4 with
              | none => some (some ERRORS.CMDLINE_EXCEPTION, pp)
              | some (weigth, _) =>
                consumerLoop more ⟨minSize, maxSize, recirc, weigth⟩
                  (pp.setConsumerParam ct ⟨minSize, maxSize, recirc, weigth⟩)

/-- How a statement of the `-t` handling ends. -/
inductive CountRead where
  | undefined
  | thrown
  | value (n : Option Int) (vv : List String)

/-- One statement `if(vv!=v.end()) if(!vv++->empty()) x=std::stoi(*vv);` of
the `-t` handling: `vv` is advanced before it is dereferenced, so the value
read is that of the element after the one tested; undefined when there is none.
`value none` when nothing is assigned. -/
def readCount : List String → CountRead
  | [] => CountRead.value none []
  | a :: rest =>
    if a = "" then CountRead.value none rest
    else
      match rest with
      | [] => CountRead.undefined
      | b :: _ =>
        match stoi b with
        | none => CountRead.thrown
        | some n => CountRead.value (some n) rest

/-- The last statement `if(vv!=v.end()) if(!vv->empty()) s=std::stoi(*vv);`. -/
def readLast : List String → CountRead
  | [] => CountRead.value none []
  | a :: rest =>
    if a = "" then CountRead.value none (a :: rest)
    else
      match stoi a with
      | none => CountRead.thrown
      | some n => CountRead.value (some n) (a :: rest)

/-- The body of the loop of the `-t` handling after `splitz`: the tuple
`{i,d,s}` pushed onto `counts`.  The outer `none` is undefined behaviour, the
inner one an exception. -/
def countsOf (v : List String) : Option (Option (Int × Int × Int)) :=
  match readCount v with
  | CountRead.undefined => none
  | CountRead.thrown => some none
  | CountRead.value n1 vv1 =>
    match readCount vv1 with
    | CountRead.undefined => none
    | CountRead.thrown => some none
    | CountRead.value n2 vv2 =>
      match readLast vv2 with
      | CountRead.undefined => none
      | CountRead.thrown => some none
      | CountRead.value n3 _ =>
        some (some (n1.getD 0, n2.getD (n1.getD 0), n3.getD (n2.getD (n1.getD 0))))

/-- The loop `for(auto ii: k->second)` of the `-t` handling. -/
def countsLoop : List String → V_Counts → Option (Option ERRORS × V_Counts)
  | [], counts => some (none, counts)
  | ii :: more, counts =>
    match splitz ii with
    | none => none
    | some v =>
      match countsOf v with
      | none => none
      | some none => some (some ERRORS.CMDLINE_EXCEPTION, counts)
      | some (some t) => countsLoop more (counts ++ [t])

/-- `parseCmdline(argc,argv,pp,counts,predefined)`: the value returned and the
final `pp` and `counts`; `argv` includes the program name.  `none` when the
behaviour is undefined. -/
def parseCmdline (argv : List String) (pp : ProducerParams) (counts : V_Counts)
    (predefined : List (String × ProducerParams)) :
    Option (Int × ProducerParams × V_Counts) :=
  match candidatesLoop (argv.drop 1) [] with
  | none => some (ERRORS.USAGE.toInt, pp, counts)
  | some candidates =>
    if (candFind candidates "-h").isSome then some (ERRORS.USAGE.toInt, pp, counts)
    else
      match multiplierLoop ((candFind candidates "-s").getD []) pp with
      | (some e, pp1) => some (e.toInt, pp1, counts)
      | (none, pp1) =>
        match predefinedLoop predefined ((candFind candidates "-p").getD []) pp1 with
        | (some e, pp2) => some (e.toInt, pp2, counts)
        | (none, pp2) =>
          match consumerLoop ((candFind candidates "-c").getD []) ⟨1, 2, 50, 1⟩ pp2 with
          | none => none
          | some (some e, pp3) => some (e.toInt, pp3, counts)
          | some (none, pp3) =>
            match countsLoop ((candFind candidates "-t").getD []) counts with
            | none => none
            | some (some e, counts1) => some (e.toInt, pp3, counts1)
            | some (none, counts1) => some (0, pp3, counts1)

/-! ## Specification of the suffixes and of the key pool -/

/-- Spec: the value of a numeral in base 26 whose digits `a` ... `z` stand
for 0 ... 25, most significant digit first. -/
def base26Value (s : List Char) : Nat :=
  s.foldl (fun acc c => 26 * acc + (c.toNat - 'a'.toNat)) 0

/-- Spec: the suffix of counter value `k`: what `BaseN<26>('a')` with that
counter value writes. -/
def suffixOf (k : Nat) : String := (BaseN.deref ⟨26, 'a', k⟩).getD ""

/-- Spec: the keys `stem + "_" + suffix(k)` for the `c` counter values from
`v` on, in order of the counter value and, within one, in stem order. -/
def suffixedKeys (names : List String) : Nat → Nat → List String
  | _, 0 => []
  | v, c + 1 => names.map (fun i => i ++ "_" ++ suffixOf v) ++ suffixedKeys names (v + 1) c

/-- Spec: the key pool for the stems `names` and the key multiplier `count`:
the stems alone when `count = 0`, else the stems, the stems again, and the
suffixed keys for the counter values 1 ... `count - 1`. -/
def poolSpec (names : List String) (count : Nat) : List String :=
  if count = 0 then names else names ++ names ++ suffixedKeys names 1 (count - 1)

mutual
/-- Spec: the array depth of a Part, the greatest number of Arrays on a path
from the Part down to a leaf (an Object adds nothing and passes the depth of
its children on; a leaf has depth 0). -/
def Part.arrayDepth : Part → Nat
  | Part.mk _ t _ _ subs => (if t = PartType.ARRAY then 1 else 0) + arrayDepthOptSubs subs
/-- Spec: the greatest array depth in an optional child sequence. -/
def arrayDepthOptSubs : Option (List (Option Part)) → Nat
  | none => 0
  | some l => arrayDepthSubs l
/-- Spec: the greatest array depth in a sequence of Part pointers. -/
def arrayDepthSubs : List (Option Part) → Nat
  | [] => 0
  | none :: rest => arrayDepthSubs rest
  | some p :: rest => max (Part.arrayDepth p) (arrayDepthSubs rest)
end

/-- An Array whose first child is the leaf 7 and whose second child is an
Array holding an Array with the leaf 8. -/
def exampleDeepCandidate : Part :=
  Part.mk 22 PartType.ARRAY (some (conv "arr")) none
    (some [some exampleLeafRaw,
      some (Part.mk 21 PartType.ARRAY none none
        (some [some (Part.mk 20 PartType.ARRAY none none (some [some exampleLeafRaw2]))]))])

/-- The Array `exampleArrayArrayFactory` emits around `exampleDeepCandidate`. -/
def exampleDeepNested : Part :=
  Part.mk 23 PartType.ARRAY (some (conv "alpha")) none
    (some [some (exampleDeepCandidate.setKey none)])

/-! # Theorems -/

/-! ## Rendering agrees with the specification -/

theorem intercalate_go_eq (acc : String) (xs : List String) :
    String.intercalate.go acc "," xs = acc ++ commaTail xs := by
  induction xs generalizing acc with
  | nil => simp [String.intercalate.go, commaTail]
  | cons x xs ih =>
    simp [String.intercalate.go, commaTail, ih, String.append_assoc]

theorem intercalate_cons_eq (x : String) (xs : List String) :
    ",".intercalate (x :: xs) = x ++ commaTail xs := by
  simp [String.intercalate, intercalate_go_eq]

mutual
theorem render_eq_renderSpec :
    ∀ p : Part, p.leavesHaveValue = true → p.render = some p.renderSpec
  | Part.mk sr t k v s, h => by
    cases t with
    | ARRAY =>
      have hs : leavesHaveValueOptSubs s = true := by simpa [Part.leavesHaveValue] using h
      simp [Part.render, Part.renderSpec, renderOptSubs_eq s hs, String.append_assoc]
    | OBJECT =>
      have hs : leavesHaveValueOptSubs s = true := by simpa [Part.leavesHaveValue] using h
      simp [Part.render, Part.renderSpec, renderOptSubs_eq s hs, String.append_assoc]
    | INT =>
      cases v with
      | none => simp [Part.leavesHaveValue] at h
      | some v => simp [Part.render, Part.renderSpec]
    | DOUBLE =>
      cases v with
      | none => simp [Part.leavesHaveValue] at h
      | some v => simp [Part.render, Part.renderSpec]
    | STRING =>
      cases v with
      | none => simp [Part.leavesHaveValue] at h
      | some v => simp [Part.render, Part.renderSpec]
theorem renderOptSubs_eq :
    ∀ s : Option (List (Option Part)), leavesHaveValueOptSubs s = true →
      renderOptSubs s = some (",".intercalate (renderSpecOptSubs s))
  | none, _ => by simp [renderOptSubs, renderSpecOptSubs, String.intercalate]
  | some l, h => by
    have hl : leavesHaveValueSubs l = true := by simpa [leavesHaveValueOptSubs] using h
    have := renderSubs_eq l false hl
    simpa [renderOptSubs, renderSpecOptSubs, DisNDat.new] using this
theorem renderSubs_eq :
    ∀ (l : List (Option Part)) (d : Bool), leavesHaveValueSubs l = true →
      renderSubs ⟨"", ",", d⟩ l =
        some (if d then commaTail (renderSpecSubs l) else ",".intercalate (renderSpecSubs l))
  | [], d, _ => by cases d <;> simp [renderSubs, renderSpecSubs, commaTail, String.intercalate]
  | none :: rest, d, h => by
    have hr : leavesHaveValueSubs rest = true := by simpa [leavesHaveValueSubs] using h
    simpa [renderSubs, renderSpecSubs] using renderSubs_eq rest d hr
  | some p :: rest, d, h => by
    have hp : p.leavesHaveValue = true ∧ leavesHaveValueSubs rest = true := by
      simpa [leavesHaveValueSubs] using h
    have h1 := render_eq_renderSpec p hp.1
    have h2 := renderSubs_eq rest true hp.2
    cases d <;>
      simp [renderSubs, renderSpecSubs, DisNDat.get, h1, h2, commaTail, intercalate_cons_eq,
        String.append_assoc]
end


/-- C3: rendering a Part whose leaves all carry a value yields the key and a
colon when a key is present, then the value of a leaf, or the renderings of
the children joined by commas inside brackets (Array) or braces (Object), in
stored order and without whitespace; the hand-built Object holding the Int
leaf k = 1 and the Array arr of the Int leaves 1 and 2 renders exactly as the
object literal with members k and arr. -/
theorem render_follows_spec :
    (∀ p : Part, p.leavesHaveValue = true → p.render = some p.renderSpec)
    ∧ roundTripExample.render = some "\x7b\"k\":1,\"arr\":[1,2]\x7d" :=
  ⟨render_eq_renderSpec, by decide⟩

/-- Witness of C3 at the round-trip tree. -/
theorem render_follows_spec_witness :
    roundTripExample.leavesHaveValue = true
    ∧ roundTripExample.render = some roundTripExample.renderSpec :=
  ⟨by decide, render_follows_spec.1 roundTripExample (by decide)⟩

/-! ## Counting -/

theorem toInt32_le (x : Int) (h : -(2 : Int) ^ 31 ≤ x) : toInt32 x ≤ x := by
  unfold toInt32
  norm_num at h ⊢
  omega

theorem toInt32_low (x : Int) : -(2 : Int) ^ 31 ≤ toInt32 x := by
  unfold toInt32
  norm_num
  omega

mutual
theorem valueCount_le_leafCount (type : SimpleType) :
    ∀ (p : Part) (n : Nat), p.valueCount type = some n → n ≤ p.leafCount type
  | Part.mk sr t k v s, n, h => by
    cases t with
    | ARRAY =>
      simp [Part.valueCount, Part.isSimple, Part.type] at h
      simpa [Part.leafCount] using valueCountOptSubs_le type s n h
    | OBJECT =>
      simp [Part.valueCount, Part.isSimple, Part.type] at h
      simpa [Part.leafCount] using valueCountOptSubs_le type s n h
    | INT =>
      simp [Part.valueCount, Part.isSimple, Part.type, Part.mValueCount] at h
      subst h; simp [Part.leafCount]
    | DOUBLE =>
      simp [Part.valueCount, Part.isSimple, Part.type, Part.mValueCount] at h
      subst h; simp [Part.leafCount]
    | STRING =>
      simp [Part.valueCount, Part.isSimple, Part.type, Part.mValueCount] at h
      subst h; simp [Part.leafCount]
theorem valueCountOptSubs_le (type : SimpleType) :
    ∀ (s : Option (List (Option Part))) (n : Nat),
      valueCountOptSubs type s = some n → n ≤ leafCountOptSubs type s
  | none, n, h => by
    simp [valueCountOptSubs] at h
    subst h; simp
  | some l, n, h => by
    have := valueCountSubs_le type l 0 n (by simpa [valueCountOptSubs] using h)
    simpa [leafCountOptSubs] using this
theorem valueCountSubs_le (type : SimpleType) :
    ∀ (l : List (Option Part)) (count n : Nat),
      valueCountSubs type count l = some n → n ≤ count + leafCountSubs type l
  | [], count, n, h => by
    simp [valueCountSubs] at h
    subst h; simp
  | none :: rest, count, n, h => by simp [valueCountSubs] at h
  | some p :: rest, count, n, h => by
    simp only [valueCountSubs] at h
    cases hp : Part.valueCount type p with
    | none => simp [hp] at h
    | some m =>
      simp only [hp] at h
      have h1 := valueCount_le_leafCount type p m hp
      have h2 := valueCountSubs_le type rest _ n h
      have h3 : (count + m) % SIZE_MOD ≤ count + m := Nat.mod_le _ _
      simp only [leafCountSubs]
      omega
end

/-! ## The loop of `Assembly::run` -/

theorem renderSubs_append_one (p : Part) (text : String) (hp : p.render = some text) :
    ∀ (l : List Part) (d : Bool) (body : String),
      renderSubs ⟨"", ",", d⟩ (l.map some) = some body →
      renderSubs ⟨"", ",", d⟩ (l.map some ++ [some p])
        = some (body ++ (if d || !l.isEmpty then "," else "") ++ text)
  | [], d, body, h => by
    simp [renderSubs] at h
    subst h
    cases d <;> simp [renderSubs, hp, DisNDat.get]
  | q :: rest, d, body, h => by
    simp only [List.map_cons, renderSubs] at h
    cases hq : Part.render q with
    | none => simp [hq] at h
    | some a =>
      cases hr : renderSubs (DisNDat.get ⟨"", ",", d⟩).2 (rest.map some) with
      | none => simp [hq, hr] at h
      | some b =>
        simp only [hq, hr, Option.some.injEq] at h
        have hd : (DisNDat.get ⟨"", ",", d⟩).2 = ⟨"", ",", true⟩ := by
          cases d <;> simp [DisNDat.get]
        rw [hd] at hr
        have ih := renderSubs_append_one p text hp rest true b hr
        subst h
        simp only [List.map_cons, List.cons_append, renderSubs, hq, hd, List.append_eq]
        rw [ih]
        simp [String.append_assoc]

theorem Assembly.inv_start (a : Assembly) : Assembly.Inv a.start := by
  refine ⟨?_, ?_, ?_, ?_, ?_, ?_, ?_, ?_, ?_, ?_⟩ <;>
    simp [Assembly.start, leafTotal, DisNDat.new, renderSubs]

theorem leafTotal_append (type : SimpleType) (l : List Part) (p : Part) :
    leafTotal type (l ++ [p]) = leafTotal type l + p.leafCount type := by
  simp [leafTotal]

theorem keysFind_iff (keys : List (String × PartType)) (k : String) :
    Assembly.keysFind keys k = true ↔ k ∈ keys.map (fun e => e.1) := by
  simp [Assembly.keysFind, List.any_eq_true]

theorem Assembly.inv_step (a : Assembly) (st st1 : Assembly.Run) (prod : PartPtr)
    (hinv : Assembly.Inv st) (h : a.step st prod = some st1) : Assembly.Inv st1 := by
  cases prod with
  | none =>
    simp only [Assembly.step, Option.some.injEq] at h
    subst h
    exact ⟨hinv.iLow, hinv.dLow, hinv.sLow, hinv.iLe, hinv.dLe, hinv.sLe, hinv.keysEq,
      hinv.keysNodup, hinv.sep, hinv.text⟩
  | some p =>
    simp only [Assembly.step] at h
    cases hk : p.key with
    | none =>
      simp only [hk, Option.some.injEq] at h
      subst h
      exact ⟨hinv.iLow, hinv.dLow, hinv.sLow, hinv.iLe, hinv.dLe, hinv.sLe, hinv.keysEq,
        hinv.keysNodup, hinv.sep, hinv.text⟩
    | some k =>
      simp only [hk] at h
      by_cases hf : Assembly.keysFind st.keys k = true
      · simp only [hf, if_true, Option.some.injEq] at h
        subst h
        exact ⟨hinv.iLow, hinv.dLow, hinv.sLow, hinv.iLe, hinv.dLe, hinv.sLe, hinv.keysEq,
          hinv.keysNodup, hinv.sep, hinv.text⟩
      · simp only [hf] at h
        cases hr : p.render with
        | none => simp [hr] at h
        | some text =>
          cases hi : p.valueCount SimpleType.INT with
          | none => simp [hr, hi] at h
          | some i =>
            cases hd : p.valueCount SimpleType.DOUBLE with
            | none => simp [hr, hi, hd] at h
            | some d =>
              cases hs : p.valueCount SimpleType.STRING with
              | none => simp [hr, hi, hd, hs] at h
              | some s =>
                simp only [hr, hi, hd, hs, Bool.false_eq_true, if_false,
                  Option.some.injEq] at h
                subst h
                have hi1 := valueCount_le_leafCount _ p i hi
                have hd1 := valueCount_le_leafCount _ p d hd
                have hs1 := valueCount_le_leafCount _ p s hs
                have hnot : k ∉ st.keys.map (fun e => e.1) := by
                  rw [← keysFind_iff]; exact hf
                obtain ⟨body, hb, hss⟩ := hinv.text
                refine ⟨toInt32_low _, toInt32_low _, toInt32_low _, ?_, ?_, ?_, ?_, ?_, ?_, ?_⟩
                · have := toInt32_le (st.iCount + i) (by have := hinv.iLow; omega)
                  have := hinv.iLe
                  simp only [leafTotal_append]; push_cast; omega
                · have := toInt32_le (st.dCount + d) (by have := hinv.dLow; omega)
                  have := hinv.dLe
                  simp only [leafTotal_append]; push_cast; omega
                · have := toInt32_le (st.sCount + s) (by have := hinv.sLow; omega)
                  have := hinv.sLe
                  simp only [leafTotal_append]; push_cast; omega
                · simp [hinv.keysEq, hk]
                · simp only [List.map_append, List.map_cons, List.map_nil]
                  exact List.Nodup.append hinv.keysNodup (List.nodup_singleton _)
                    (by simpa [List.disjoint_singleton] using hnot)
                · show (DisNDat.get st.c).2 = _
                  rw [hinv.sep]
                  cases hacc : st.accepted <;> simp [DisNDat.get]
                · refine ⟨body ++ (if false || !st.accepted.isEmpty then "," else "") ++ text, ?_, ?_⟩
                  · simpa [DisNDat.new] using
                      renderSubs_append_one p text hr st.accepted false body
                        (by simpa [DisNDat.new] using hb)
                  · show st.ss ++ (DisNDat.get st.c).1 ++ text = _
                    rw [hss, hinv.sep]
                    cases hacc : st.accepted <;> simp [DisNDat.get, String.append_assoc]

theorem Assembly.loop_state (a : Assembly) :
    ∀ (prods : List PartPtr) (st st1 : Assembly.Run), Assembly.Inv st →
      (a.loop st prods).state = some st1 → Assembly.Inv st1
  | [], st, st1, hinv, h => by
    simp only [Assembly.loop] at h
    split at h <;> simp [Assembly.Outcome.state] at h <;> subst h <;> exact hinv
  | prod :: rest, st, st1, hinv, h => by
    simp only [Assembly.loop] at h
    split at h
    · cases hs : a.step st prod with
      | none => simp [hs, Assembly.Outcome.state] at h
      | some st2 =>
        simp only [hs] at h
        exact Assembly.loop_state a rest st2 st1 (Assembly.inv_step a st st2 prod hinv hs) h
    · simp [Assembly.Outcome.state] at h
      subst h; exact hinv

theorem Assembly.loop_returned (a : Assembly) :
    ∀ (prods : List PartPtr) (st st1 : Assembly.Run) (s : String),
      a.loop st prods = Assembly.Outcome.returned s st1 →
      a.cond st1 = false ∧ s = st1.ss ++ "\x7d"
  | [], st, st1, s, h => by
    simp only [Assembly.loop] at h
    split at h
    · simp at h
    · rename_i hc
      simp only [Assembly.Outcome.returned.injEq] at h
      obtain ⟨h1, h2⟩ := h
      subst h2
      exact ⟨by simpa using hc, h1.symm⟩
  | prod :: rest, st, st1, s, h => by
    simp only [Assembly.loop] at h
    split at h
    · cases hs : a.step st prod with
      | none => simp [hs] at h
      | some st2 =>
        simp only [hs] at h
        exact Assembly.loop_returned a rest st2 st1 s h
    · rename_i hc
      simp only [Assembly.Outcome.returned.injEq] at h
      obtain ⟨h1, h2⟩ := h
      subst h2
      exact ⟨by simpa using hc, h1.symm⟩

theorem Assembly.loop_waiting (a : Assembly) :
    ∀ (prods : List PartPtr) (st st1 : Assembly.Run),
      a.loop st prods = Assembly.Outcome.waiting st1 → a.cond st1 = true
  | [], st, st1, h => by
    simp only [Assembly.loop] at h
    split at h
    · rename_i hc
      simp only [Assembly.Outcome.waiting.injEq] at h
      subst h; exact hc
    · simp at h
  | prod :: rest, st, st1, h => by
    simp only [Assembly.loop] at h
    split at h
    · cases hs : a.step st prod with
      | none => simp [hs] at h
      | some st2 =>
        simp only [hs] at h
        exact Assembly.loop_waiting a rest st2 st1 h
    · simp at h

theorem renderSubs_texts :
    ∀ (l : List Part) (d : Bool) (body : String),
      renderSubs ⟨"", ",", d⟩ (l.map some) = some body →
      (∀ p ∈ l, p.render.isSome = true) ∧
      body = (if d then commaTail (l.filterMap Part.render)
              else ",".intercalate (l.filterMap Part.render))
  | [], d, body, h => by
    simp [renderSubs] at h
    subst h
    cases d <;> simp [commaTail, String.intercalate]
  | q :: rest, d, body, h => by
    simp only [List.map_cons, renderSubs] at h
    cases hq : Part.render q with
    | none => simp [hq] at h
    | some a =>
      cases hr : renderSubs (DisNDat.get ⟨"", ",", d⟩).2 (rest.map some) with
      | none => simp [hq, hr] at h
      | some b =>
        simp only [hq, hr, Option.some.injEq] at h
        have hd : (DisNDat.get ⟨"", ",", d⟩).2 = ⟨"", ",", true⟩ := by
          cases d <;> simp [DisNDat.get]
        rw [hd] at hr
        obtain ⟨ih1, ih2⟩ := renderSubs_texts rest true b hr
        simp only [if_true] at ih2
        subst h
        refine ⟨?_, ?_⟩
        · intro p hp
          rcases List.mem_cons.mp hp with rfl | hp
          · simp [hq]
          · exact ih1 p hp
        · cases d <;>
            simp [List.filterMap_cons, hq, DisNDat.get, commaTail, intercalate_cons_eq, ih2,
              String.append_assoc]

theorem Assembly.step_accepted (a : Assembly) (st st1 : Assembly.Run) (prod : PartPtr)
    (h : a.step st prod = some st1) :
    st1.accepted = st.accepted ∨ ∃ p, prod = some p ∧ st1.accepted = st.accepted ++ [p] := by
  cases prod with
  | none =>
    simp only [Assembly.step, Option.some.injEq] at h
    subst h; exact Or.inl rfl
  | some p =>
    simp only [Assembly.step] at h
    cases hk : p.key with
    | none =>
      simp only [hk, Option.some.injEq] at h
      subst h; exact Or.inl rfl
    | some k =>
      simp only [hk] at h
      by_cases hf : Assembly.keysFind st.keys k = true
      · simp only [hf, if_true, Option.some.injEq] at h
        subst h; exact Or.inl rfl
      · simp only [hf] at h
        cases hr : p.render with
        | none => simp [hr] at h
        | some text =>
          cases hi : p.valueCount SimpleType.INT with
          | none => simp [hr, hi] at h
          | some i =>
            cases hd : p.valueCount SimpleType.DOUBLE with
            | none => simp [hr, hi, hd] at h
            | some d =>
              cases hs : p.valueCount SimpleType.STRING with
              | none => simp [hr, hi, hd, hs] at h
              | some s =>
                simp only [hr, hi, hd, hs, Bool.false_eq_true, if_false,
                  Option.some.injEq] at h
                subst h
                exact Or.inr ⟨p, rfl, rfl⟩

theorem Assembly.loop_accepted (a : Assembly) :
    ∀ (prods : List PartPtr) (st st1 : Assembly.Run),
      (a.loop st prods).state = some st1 →
      ∃ extra : List Part, st1.accepted = st.accepted ++ extra
        ∧ (extra.map some).Sublist prods
  | [], st, st1, h => by
    simp only [Assembly.loop] at h
    split at h <;> simp [Assembly.Outcome.state] at h <;> subst h <;> exact ⟨[], by simp⟩
  | prod :: rest, st, st1, h => by
    simp only [Assembly.loop] at h
    split at h
    · cases hs : a.step st prod with
      | none => simp [hs, Assembly.Outcome.state] at h
      | some st2 =>
        simp only [hs] at h
        obtain ⟨extra, he, hsub⟩ := Assembly.loop_accepted a rest st2 st1 h
        rcases Assembly.step_accepted a st st2 prod hs with h2 | ⟨p, hp, h2⟩
        · exact ⟨extra, by rw [he, h2], hsub.cons _⟩
        · refine ⟨p :: extra, by rw [he, h2]; simp, ?_⟩
          subst hp
          simpa using hsub.cons₂ (some p)
    · simp [Assembly.Outcome.state] at h
      subst h
      exact ⟨[], by simp⟩

/-- C1: when `Assembly::run` returns, the products it accepted contain,
transitively, at least the requested number of Int leaves, of Double leaves
and of String leaves, whatever products the producer handed out. -/
theorem run_meets_requested_counts (a : Assembly) (prods : List PartPtr) (s : String)
    (st : Assembly.Run) (h : a.run prods = Assembly.Outcome.returned s st) :
    a.mInts ≤ (leafTotal SimpleType.INT st.accepted : Int)
    ∧ a.mDoubles ≤ (leafTotal SimpleType.DOUBLE st.accepted : Int)
    ∧ a.mStrings ≤ (leafTotal SimpleType.STRING st.accepted : Int) := by
  have hinv : Assembly.Inv st :=
    Assembly.loop_state a prods a.start st (Assembly.inv_start a)
      (by unfold Assembly.run at h; rw [h]; rfl)
  have hc := (Assembly.loop_returned a prods a.start st s h).1
  simp only [Assembly.cond, Bool.or_eq_false_iff, decide_eq_false_iff_not, not_lt] at hc
  exact ⟨le_trans hc.1.1 hinv.iLe, le_trans hc.1.2 hinv.dLe, le_trans hc.2 hinv.sLe⟩

/-- Witness of C1: the Assembly asked for one Int value returns after the
keyed leaf `"k":1`. -/
theorem run_meets_requested_counts_witness :
    exampleAssembly.run [some exampleLeafK]
        = Assembly.Outcome.returned "\x7b\"k\":1\x7d" exampleFinal
    ∧ exampleAssembly.mInts ≤ (leafTotal SimpleType.INT exampleFinal.accepted : Int) :=
  ⟨by rfl, (run_meets_requested_counts exampleAssembly [some exampleLeafK] _ exampleFinal
    (by rfl)).1⟩

/-- C2: whatever products are handed to an Assembly, the products it has
accepted into its document all carry a key, and those keys are pairwise
distinct. -/
theorem accepted_keys_present_and_distinct (a : Assembly) (prods : List PartPtr)
    (st : Assembly.Run) (h : (a.run prods).state = some st) :
    (∀ p ∈ st.accepted, p.key.isSome = true) ∧ (st.accepted.map Part.key).Nodup := by
  have hinv : Assembly.Inv st :=
    Assembly.loop_state a prods a.start st (Assembly.inv_start a) h
  refine ⟨?_, ?_⟩
  · intro p hp
    have hmem : p.key ∈ st.accepted.map Part.key := List.mem_map_of_mem _ hp
    rw [hinv.keysEq] at hmem
    obtain ⟨e, _, he⟩ := List.mem_map.mp hmem
    rw [← he]; rfl
  · rw [hinv.keysEq]
    have : st.keys.map (fun e => some e.1) = (st.keys.map (fun e => e.1)).map some := by
      simp
    rw [this]
    exact hinv.keysNodup.map (Option.some_injective _)

/-- Witness of C2 on the run that accepts `"k":1`. -/
theorem accepted_keys_present_and_distinct_witness :
    (exampleAssembly.run [some exampleLeafK]).state = some exampleFinal
    ∧ (exampleFinal.accepted.map Part.key).Nodup :=
  ⟨by rfl, (accepted_keys_present_and_distinct exampleAssembly [some exampleLeafK]
    exampleFinal (by rfl)).2⟩

/-- C4: the string `Assembly::run` returns is the rendering of an unkeyed
Object whose children are the accepted products in acceptance order: an
opening brace, the renderings of the accepted products joined by commas, a
closing brace.  Every accepted product has a rendering, and the accepted
products are among the answers of the producer, in the order they came. -/
theorem run_returns_object_of_accepted (a : Assembly) (prods : List PartPtr) (s : String)
    (st : Assembly.Run) (n : Serial) (h : a.run prods = Assembly.Outcome.returned s st) :
    (Part.mk n PartType.OBJECT none none (some (st.accepted.map some))).render = some s
    ∧ (∀ p ∈ st.accepted, p.render.isSome = true)
    ∧ s = "\x7b" ++ ",".intercalate (st.accepted.filterMap Part.render) ++ "\x7d"
    ∧ (st.accepted.map some).Sublist prods := by
  have hstate : (a.loop a.start prods).state = some st := by
    unfold Assembly.run at h; rw [h]; rfl
  have hinv : Assembly.Inv st :=
    Assembly.loop_state a prods a.start st (Assembly.inv_start a) hstate
  have hs := (Assembly.loop_returned a prods a.start st s h).2
  obtain ⟨body, hb, hss⟩ := hinv.text
  have ht := renderSubs_texts st.accepted false body (by simpa [DisNDat.new] using hb)
  obtain ⟨extra, he, hsub⟩ := Assembly.loop_accepted a prods a.start st hstate
  refine ⟨?_, ht.1, ?_, ?_⟩
  · simp [Part.render, renderOptSubs, hb, hs, hss]
  · rw [hs, hss, ht.2]; simp
  · have : st.accepted = extra := by rw [he]; simp [Assembly.start]
    rw [this]; exact hsub

/-- Witness of C4 on the run that accepts `"k":1`. -/
theorem run_returns_object_of_accepted_witness :
    exampleAssembly.run [some exampleLeafK]
        = Assembly.Outcome.returned "\x7b\"k\":1\x7d" exampleFinal
    ∧ (Part.mk 0 PartType.OBJECT none none (some (exampleFinal.accepted.map some))).render
        = some "\x7b\"k\":1\x7d" :=
  ⟨by rfl, (run_returns_object_of_accepted exampleAssembly [some exampleLeafK] _ exampleFinal
    0 (by rfl)).1⟩

/-- C5: in a running `Assembly::run`, a product obtained from the producer is
rejected exactly when it has no key or its key is the key of a product
already accepted.  A rejected product is handed to `Producer::recirculate`,
which appends it to the back of the work queue, and the output buffer, the
separator, the used-key set, the three totals and the accepted products stay
as they were.  A product that is not rejected is not recirculated and joins
the accepted products. -/
theorem rejection_rule (a : Assembly) (prods : List PartPtr) (st : Assembly.Run) (p : Part)
    (h : a.run prods = Assembly.Outcome.waiting st) :
    ((p.key = none ∨ ∃ q ∈ st.accepted, q.key = p.key) →
      a.step st (some p) = some { st with
        calls := st.calls ++ [ProducerCall.recirculate (some p)],
        absentKeyRead := st.absentKeyRead || p.key.isNone })
    ∧ (¬ (p.key = none ∨ ∃ q ∈ st.accepted, q.key = p.key) →
        ∀ st1, a.step st (some p) = some st1 →
          st1.calls = st.calls ∧ st1.accepted = st.accepted ++ [p])
    ∧ (∀ mParts : MuxParts, Producer.recirculate mParts (some p) = mParts ++ [some p]) := by
  have hinv : Assembly.Inv st :=
    Assembly.loop_state a prods a.start st (Assembly.inv_start a)
      (by unfold Assembly.run at h; rw [h]; rfl)
  have hfind : ∀ k, Assembly.keysFind st.keys k = true ↔ ∃ q ∈ st.accepted, q.key = some k := by
    intro k
    rw [keysFind_iff]
    constructor
    · intro hk
      have : some k ∈ st.keys.map (fun e => some e.1) := by
        obtain ⟨e, he, hek⟩ := List.mem_map.mp hk
        exact List.mem_map.mpr ⟨e, he, by rw [hek]⟩
      rw [← hinv.keysEq] at this
      obtain ⟨q, hq, hqk⟩ := List.mem_map.mp this
      exact ⟨q, hq, hqk⟩
    · rintro ⟨q, hq, hqk⟩
      have : some k ∈ st.accepted.map Part.key := List.mem_map.mpr ⟨q, hq, hqk⟩
      rw [hinv.keysEq] at this
      obtain ⟨e, he, hek⟩ := List.mem_map.mp this
      exact List.mem_map.mpr ⟨e, he, Option.some.inj hek⟩
  refine ⟨?_, ?_, ?_⟩
  · intro hrule
    cases hk : p.key with
    | none => simp [Assembly.step, hk]
    | some k =>
      have hf : Assembly.keysFind st.keys k = true := by
        rw [hfind]
        rcases hrule with h0 | h1
        · rw [hk] at h0; cases h0
        · rw [hk] at h1; exact h1
      simp [Assembly.step, hk, hf]
  · intro hrule st1 hstep
    cases hk : p.key with
    | none => exact absurd (Or.inl hk) hrule
    | some k =>
      have hf : ¬ Assembly.keysFind st.keys k = true := by
        rw [hfind]
        intro hex
        exact hrule (Or.inr (by rw [hk]; exact hex))
      simp only [Assembly.step, hk, hf] at hstep
      cases hr : p.render with
      | none => simp [hr] at hstep
      | some text =>
        cases hi : p.valueCount SimpleType.INT with
        | none => simp [hr, hi] at hstep
        | some i =>
          cases hd : p.valueCount SimpleType.DOUBLE with
          | none => simp [hr, hi, hd] at hstep
          | some d =>
            cases hs : p.valueCount SimpleType.STRING with
            | none => simp [hr, hi, hd, hs] at hstep
            | some s =>
              simp only [hr, hi, hd, hs, Bool.false_eq_true, if_false,
                Option.some.injEq] at hstep
              subst hstep
              exact ⟨rfl, rfl⟩
  · intro mParts; rfl

/-- Witness of C5: the first product offered to `exampleAssembly` is an
unkeyed leaf. -/
theorem rejection_rule_witness :
    exampleAssembly.run [] = Assembly.Outcome.waiting exampleAssembly.start
    ∧ exampleAssembly.step exampleAssembly.start (some exampleLeafRaw)
        = some { exampleAssembly.start with
            calls := exampleAssembly.start.calls
              ++ [ProducerCall.recirculate (some exampleLeafRaw)],
            absentKeyRead := exampleAssembly.start.absentKeyRead
              || exampleLeafRaw.key.isNone } :=
  ⟨by rfl, (rejection_rule exampleAssembly [] exampleAssembly.start exampleLeafRaw
    (by rfl)).1 (Or.inl rfl)⟩

/-! ## The key allocator -/

theorem KeyGetter.get_inSlice (kg : KeyGetter) (tok r : Nat) (h : kg.SliceOk tok) :
    ∃ k, kg.get tok r = some k ∧ kg.InSlice tok k := by
  obtain ⟨hpos, hle, hlt⟩ := h
  have hmod : r % kg.keyCount tok < kg.keyCount tok := Nat.mod_lt _ hpos
  have hix : tok * kg.mSlice + r % kg.keyCount tok < kg.mKeys.length := by omega
  have hstart : (tok * kg.mSlice) % SIZE_MOD = tok * kg.mSlice :=
    Nat.mod_eq_of_lt (by omega)
  have hsum : (tok * kg.mSlice + r % kg.keyCount tok) % SIZE_MOD
      = tok * kg.mSlice + r % kg.keyCount tok := Nat.mod_eq_of_lt (by omega)
  have hlast : (kg.mKeys.length + SIZE_MOD - 1) % SIZE_MOD = kg.mKeys.length - 1 := by
    have : kg.mKeys.length + SIZE_MOD - 1 = (kg.mKeys.length - 1) + SIZE_MOD := by omega
    rw [this, Nat.add_mod_right]
    exact Nat.mod_eq_of_lt (by omega)
  have hmin : min (kg.mKeys.length - 1) (tok * kg.mSlice + r % kg.keyCount tok)
      = tok * kg.mSlice + r % kg.keyCount tok := by
    apply Nat.min_eq_right; omega
  obtain ⟨stem, hstem⟩ : ∃ stem, kg.mKeys.get? (tok * kg.mSlice + r % kg.keyCount tok)
      = some stem := ⟨_, List.get?_eq_get hix⟩
  refine ⟨conv stem, ?_, tok * kg.mSlice + r % kg.keyCount tok, stem, by omega, by omega,
    hstem, rfl⟩
  unfold KeyGetter.get getFrom
  simp only [hstart, hsum, hlast, hmin, hstem, Nat.pos_iff_ne_zero.mp hpos, if_false]

/-! ## The keyed-pair factory -/

theorem Part.matchType_iff (p : Part) (N : SimpleType) :
    p.matchType N = true ↔ p.type = Part.T2T N := by
  cases N <;> simp [Part.matchType, Part.T2T]

/-- C7: with a live key allocator whose slice for the factory token is in
place, `SimpleKvPairFactory::get` emits a Part exactly when the queue head is
a leaf of the factory type without key and with a value; then the queue is
left as its former tail, and the emitted Part is a leaf of that type with the
value of the head, a key drawn from the slice of the factory token, and no
children. -/
theorem kvpair_get_accepts (f : SimpleKvPairFactory) (kg : KeyGetter) (queue : MuxParts)
    (serialGenerator : Serial) (r : Nat) (hslice : kg.SliceOk f.mTok) :
    ∃ res, f.get queue (some kg) serialGenerator r = some res
      ∧ (res.part.isSome = true ↔
          ∃ head rest, queue = some head :: rest ∧ head.type = Part.T2T f.N
            ∧ head.key = none ∧ head.value.isSome = true)
      ∧ (∀ made, res.part = some made →
          ∃ head rest, queue = some head :: rest ∧ res.queue = rest
            ∧ made.type = Part.T2T f.N ∧ made.value = head.value
            ∧ (∃ k, made.key = some k ∧ kg.InSlice f.mTok k)
            ∧ made.subs = none) := by
  obtain ⟨k, hk, hin⟩ := KeyGetter.get_inSlice kg f.mTok r hslice
  cases queue with
  | nil => exact ⟨_, rfl, by simp, by simp⟩
  | cons h rest =>
    cases h with
    | none => exact ⟨_, rfl, by simp, by simp⟩
    | some head =>
      by_cases hm : (head.matchType f.N && !head.key.isSome && head.value.isSome) = true
      · have hm1 := hm
        simp [Part.matchType_iff] at hm1
        refine ⟨⟨some (Part.newKV serialGenerator (Part.T2T f.N) (some k) head.value none).1,
          rest, (Part.newKV serialGenerator (Part.T2T f.N) (some k) head.value none).2⟩,
          ?_, ?_, ?_⟩
        · simp only [SimpleKvPairFactory.get, hm, hk, if_true]
        · simp only [Option.isSome_some, true_iff]
          exact ⟨head, rest, rfl, hm1.1.1, hm1.1.2, hm1.2⟩
        · intro made hmade
          simp only [Option.some.injEq] at hmade
          subst hmade
          exact ⟨head, rest, rfl, rfl, rfl, rfl, ⟨k, rfl, hin⟩, rfl⟩
      · refine ⟨⟨none, rest, serialGenerator⟩, ?_, ?_, ?_⟩
        · simp only [SimpleKvPairFactory.get, hm, if_false]
          simp
        · simp only [Option.isSome_none, Bool.false_eq_true, false_iff]
          rintro ⟨head1, rest1, hq, h1, h2, h3⟩
          simp only [List.cons.injEq, Option.some.injEq] at hq
          obtain ⟨rfl, rfl⟩ := hq
          apply hm
          simp [Part.matchType_iff, h1, h2, h3]
        · intro made hmade; simp at hmade

/-- Witness of C7: the Int factory takes the unkeyed leaf 7 from the head of
the queue and emits it under the key `"alpha"`. -/
theorem kvpair_get_accepts_witness :
    exampleKeys.SliceOk exampleKvFactory.mTok
    ∧ ∃ res, exampleKvFactory.get [some exampleLeafRaw, some exampleLeafK] (some exampleKeys) 10 0
          = some res
        ∧ (res.part.isSome = true ↔
          ∃ head rest, [some exampleLeafRaw, some exampleLeafK] = some head :: rest
            ∧ head.type = Part.T2T exampleKvFactory.N
            ∧ head.key = none ∧ head.value.isSome = true)
        ∧ (∀ made, res.part = some made →
          ∃ head rest, [some exampleLeafRaw, some exampleLeafK] = some head :: rest
            ∧ res.queue = rest
            ∧ made.type = Part.T2T exampleKvFactory.N ∧ made.value = head.value
            ∧ (∃ k, made.key = some k ∧ exampleKeys.InSlice exampleKvFactory.mTok k)
            ∧ made.subs = none) :=
  ⟨by decide, kvpair_get_accepts exampleKvFactory exampleKeys
    [some exampleLeafRaw, some exampleLeafK] 10 0 (by decide)⟩

/-- C8 (code defect): offered a queue whose head is the already keyed leaf
`"k":1`, the Int keyed-pair factory emits nothing and the queue loses its
head, keeping only the leaf behind it: `queue.pop_front()` runs before the
head is tested. -/
theorem kvpair_get_drops_unmatched_head :
    ∃ res, exampleKvFactory.get [some exampleLeafK, some exampleLeafRaw] (some exampleKeys) 10 0
        = some res
      ∧ res.part = none ∧ res.queue = [some exampleLeafRaw]
      ∧ res.queue ≠ [some exampleLeafK, some exampleLeafRaw] :=
  ⟨⟨none, [some exampleLeafRaw], 10⟩, rfl, rfl, rfl, by simp⟩

/-! ## Container factories -/

theorem drawExpectedLen_bounds (minLen maxLen r e : Nat) (hmax : maxLen < SIZE_MOD)
    (h : drawExpectedLen minLen maxLen r = some e) :
    (minLen ≤ maxLen → minLen ≤ e ∧ e ≤ maxLen) ∧ (maxLen ≤ minLen → e = minLen) := by
  unfold drawExpectedLen at h
  by_cases hle : maxLen ≤ minLen
  · simp only [hle, if_true, Option.some.injEq] at h
    subst h
    exact ⟨fun h1 => ⟨le_refl _, h1⟩, fun _ => rfl⟩
  · simp only [hle, if_false] at h
    by_cases hz : (1 + maxLen - minLen) % SIZE_MOD = 0
    · simp [hz] at h
    · simp only [hz, if_false, Option.some.injEq] at h
      have hr : r % ((1 + maxLen - minLen) % SIZE_MOD) < (1 + maxLen - minLen) % SIZE_MOD :=
        Nat.mod_lt _ (Nat.pos_of_ne_zero hz)
      have hm : (1 + maxLen - minLen) % SIZE_MOD ≤ 1 + maxLen - minLen := Nat.mod_le _ _
      have hsum : (r % ((1 + maxLen - minLen) % SIZE_MOD) + minLen) % SIZE_MOD
          = r % ((1 + maxLen - minLen) % SIZE_MOD) + minLen :=
        Nat.mod_eq_of_lt (by omega)
      rw [hsum] at h
      subst h
      exact ⟨fun _ => ⟨by omega, by omega⟩, fun h1 => absurd h1 hle⟩

theorem drawExpectedLen_total (minLen maxLen r0 e0 r : Nat)
    (h : drawExpectedLen minLen maxLen r0 = some e0) :
    ∃ e, drawExpectedLen minLen maxLen r = some e := by
  unfold drawExpectedLen at h ⊢
  by_cases hle : maxLen ≤ minLen
  · exact ⟨minLen, by simp [hle]⟩
  · simp only [hle, if_false] at h ⊢
    by_cases hz : (1 + maxLen - minLen) % SIZE_MOD = 0
    · simp [hz] at h
    · exact ⟨(r % ((1 + maxLen - minLen) % SIZE_MOD) + minLen) % SIZE_MOD,
        by simp only [hz, if_false]⟩

theorem ContainerFactoryBase.matchPart_none (f : ContainerFactoryBase) :
    f.matchPart none = false := rfl

theorem ContainerFactoryBase.fill_cases (f : ContainerFactoryBase) (queue : MuxParts) :
    (f.fill queue = (f, queue)
      ∧ ∀ head rest, queue = some head :: rest → f.matchPart (some head) = false)
    ∨ ∃ head rest, queue = some head :: rest ∧ f.matchPart (some head) = true
        ∧ f.fill queue =
          ({ f with mSubs := f.mSubs ++
              [some (if f.mPartType = PartType.ARRAY then head.setKey none else head)] },
           rest) := by
  cases queue with
  | nil =>
    left
    exact ⟨by simp [ContainerFactoryBase.fill, ContainerFactoryBase.matchPart_none],
      by intro head rest h; cases h⟩
  | cons h rest =>
    cases h with
    | none =>
      left
      exact ⟨by simp [ContainerFactoryBase.fill, ContainerFactoryBase.matchPart_none],
        by intro head rest h; cases h⟩
    | some head =>
      by_cases hm : f.matchPart (some head) = true
      · right
        exact ⟨head, rest, rfl, hm, by simp [ContainerFactoryBase.fill, hm]⟩
      · left
        refine ⟨by simp [ContainerFactoryBase.fill, hm], ?_⟩
        intro head1 rest1 h
        simp only [List.cons.injEq, Option.some.injEq] at h
        obtain ⟨rfl, rfl⟩ := h
        simpa using hm

theorem ContainerFactoryBase.fill_fields (f : ContainerFactoryBase) (queue : MuxParts) :
    (f.fill queue).1.cls = f.cls ∧ (f.fill queue).1.mPartType = f.mPartType
    ∧ (f.fill queue).1.mMinLen = f.mMinLen ∧ (f.fill queue).1.mMaxLen = f.mMaxLen
    ∧ (f.fill queue).1.mAutoClear = f.mAutoClear
    ∧ (f.fill queue).1.mExpectedLen = f.mExpectedLen
    ∧ (f.fill queue).1.mTok = f.mTok
    ∧ (f.fill queue).1.mSubs.length ≤ f.mSubs.length + 1 := by
  rcases ContainerFactoryBase.fill_cases f queue with ⟨h, _⟩ | ⟨head, rest, _, _, h⟩
  · rw [h]; simp
  · rw [h]; simp

theorem ContainerFactoryBase.accumulate_fields (f : ContainerFactoryBase) (queue : MuxParts) :
    (f.accumulate queue).1.cls = f.cls ∧ (f.accumulate queue).1.mPartType = f.mPartType
    ∧ (f.accumulate queue).1.mMinLen = f.mMinLen ∧ (f.accumulate queue).1.mMaxLen = f.mMaxLen
    ∧ (f.accumulate queue).1.mAutoClear = f.mAutoClear
    ∧ (f.accumulate queue).1.mExpectedLen = f.mExpectedLen
    ∧ (f.accumulate queue).1.mTok = f.mTok
    ∧ ((f.accumulate queue).1.mSubs.length ≤ f.mExpectedLen
        ∨ (f.accumulate queue).1.mSubs = f.mSubs) := by
  unfold ContainerFactoryBase.accumulate
  by_cases hs : f.mSubs.length < f.mExpectedLen
  · simp only [hs, if_true]
    obtain ⟨h1, h2, h3, h4, h5, h6, h7, h8⟩ := ContainerFactoryBase.fill_fields f queue
    exact ⟨h1, h2, h3, h4, h5, h6, h7, Or.inl (by omega)⟩
  · simp [hs]

theorem ContainerFactoryBase.get_eq (f : ContainerFactoryBase) (queue : MuxParts)
    (keys : Option KeyGetter) (serialGenerator : Serial) (rKey rLen : Nat) :
    f.get queue keys serialGenerator rKey rLen =
      if (f.accumulate queue).1.mSubs.length < f.mExpectedLen then
        some ⟨none, (f.accumulate queue).1, (f.accumulate queue).2, serialGenerator⟩
      else ContainerFactoryBase.emit (f.accumulate queue).1 (f.accumulate queue).2 keys
        serialGenerator rKey rLen := by
  unfold ContainerFactoryBase.get ContainerFactoryBase.accumulate
  by_cases hs : f.mSubs.length < f.mExpectedLen
  · simp only [hs, if_true, (ContainerFactoryBase.fill_fields f queue).2.2.2.2.2.1]
  · simp [hs]

theorem ContainerFactoryBase.inv_new (cls : FactoryClass) (minLen maxLen : Nat)
    (keys0 keys1 : Option KeyGetter) (r0 : Nat) (f0 : ContainerFactoryBase)
    (h : ContainerFactoryBase.new cls minLen maxLen true keys0 r0 = some (f0, keys1)) :
    ContainerFactoryBase.Inv cls minLen maxLen f0 := by
  unfold ContainerFactoryBase.new at h
  cases hd : drawExpectedLen minLen maxLen r0 with
  | none => simp [hd] at h
  | some e =>
    simp only [hd] at h
    cases keys0 with
    | none =>
      simp only [Option.some.injEq, Prod.mk.injEq] at h
      obtain ⟨rfl, _⟩ := h
      exact ⟨rfl, rfl, rfl, rfl, rfl, Nat.zero_le _, ⟨r0, hd⟩⟩
    | some kg =>
      simp only [Option.some.injEq, Prod.mk.injEq] at h
      obtain ⟨rfl, _⟩ := h
      exact ⟨rfl, rfl, rfl, rfl, rfl, Nat.zero_le _, ⟨r0, hd⟩⟩

theorem ContainerFactoryBase.inv_get (cls : FactoryClass) (minLen maxLen : Nat)
    (f : ContainerFactoryBase) (queue : MuxParts) (keys : Option KeyGetter)
    (serialGenerator : Serial) (rKey rLen : Nat) (res : ContainerFactoryBase.Get)
    (hinv : ContainerFactoryBase.Inv cls minLen maxLen f)
    (h : f.get queue keys serialGenerator rKey rLen = some res) :
    ContainerFactoryBase.Inv cls minLen maxLen res.self := by
  rw [ContainerFactoryBase.get_eq] at h
  obtain ⟨h1, h2, h3, h4, h5, h6, _, h8⟩ := ContainerFactoryBase.accumulate_fields f queue
  have hacc : ContainerFactoryBase.Inv cls minLen maxLen (f.accumulate queue).1 :=
    ⟨h1.trans hinv.clsEq, by rw [h2, hinv.typeEq], h3.trans hinv.minEq, h4.trans hinv.maxEq,
      h5.trans hinv.auto,
      by
        rw [h6]
        rcases h8 with h8 | h8
        · exact h8
        · rw [h8]; exact hinv.short,
      by rw [h6]; exact hinv.drawn⟩
  split at h
  · simp only [Option.some.injEq] at h
    subst h
    exact hacc
  · unfold ContainerFactoryBase.emit at h
    cases keys with
    | none =>
      simp only [Option.some.injEq] at h
      subst h
      exact hacc
    | some kg =>
      simp only at h
      cases hk : kg.get (f.accumulate queue).1.mTok rKey with
      | none => simp [hk] at h
      | some k =>
        simp only [hk] at h
        cases hd : drawExpectedLen (f.accumulate queue).1.mMinLen
            (f.accumulate queue).1.mMaxLen rLen with
        | none => simp [hd] at h
        | some e =>
          simp only [hd, Option.some.injEq] at h
          subst h
          refine ⟨hacc.clsEq, hacc.typeEq, hacc.minEq, hacc.maxEq, hacc.auto, ?_, ?_⟩
          · simp [hacc.auto]
          · exact ⟨rLen, by rw [← hacc.minEq, ← hacc.maxEq]; exact hd⟩

theorem ContainerFactoryBase.inv_reachable (cls : FactoryClass) (minLen maxLen : Nat)
    (f0 f : ContainerFactoryBase) (h0 : ContainerFactoryBase.Inv cls minLen maxLen f0)
    (hreach : ContainerFactoryBase.Reachable f0 f) :
    ContainerFactoryBase.Inv cls minLen maxLen f := by
  induction hreach with
  | start => exact h0
  | call f1 queue keys sg rKey rLen res _ hget ih =>
    exact ContainerFactoryBase.inv_get cls minLen maxLen f1 queue keys sg rKey rLen res ih hget

theorem ContainerFactoryBase.emit_queue (f : ContainerFactoryBase) (queue : MuxParts)
    (keys : Option KeyGetter) (serialGenerator : Serial) (rKey rLen : Nat)
    (res : ContainerFactoryBase.Get)
    (h : ContainerFactoryBase.emit f queue keys serialGenerator rKey rLen = some res) :
    res.queue = queue
    ∧ (∀ made, res.part = some made → made.subs = some f.mSubs ∧ made.type = f.mPartType
        ∧ made.value = none
        ∧ ∃ kg k, keys = some kg ∧ kg.get f.mTok rKey = some k ∧ made.key = some k)
    ∧ (res.part = none → res.self = f) := by
  unfold ContainerFactoryBase.emit at h
  cases keys with
  | none =>
    simp only [Option.some.injEq] at h
    subst h
    exact ⟨rfl, (by intro made hm; cases hm), fun _ => rfl⟩
  | some kg =>
    simp only at h
    cases hk : kg.get f.mTok rKey with
    | none => simp [hk] at h
    | some k =>
      simp only [hk] at h
      cases hd : drawExpectedLen f.mMinLen f.mMaxLen rLen with
      | none => simp [hd] at h
      | some e =>
        simp only [hd, Option.some.injEq] at h
        subst h
        refine ⟨rfl, ?_, (by intro hn; cases hn)⟩
        intro made hm
        simp only [Option.some.injEq] at hm
        subst hm
        exact ⟨rfl, rfl, rfl, kg, k, rfl, hk, rfl⟩

/-- C6: a container factory built with auto-clear emits, on every call of
`get` after any sequence of earlier calls (any work queues, any random draws,
key allocator live or not), a container whose child count is the
`mExpectedLen` of that round; that count lies in `[minLen, maxLen]` when
`minLen <= maxLen`, and is `minLen` when `maxLen <= minLen`. -/
theorem emitted_container_length (cls : FactoryClass) (minLen maxLen : Nat)
    (keys0 keys1 : Option KeyGetter) (r0 : Nat) (f0 f : ContainerFactoryBase)
    (queue : MuxParts) (keys : Option KeyGetter) (serialGenerator : Serial)
    (rKey rLen : Nat) (res : ContainerFactoryBase.Get) (made : Part)
    (hmax : maxLen < SIZE_MOD)
    (hnew : ContainerFactoryBase.new cls minLen maxLen true keys0 r0 = some (f0, keys1))
    (hreach : ContainerFactoryBase.Reachable f0 f)
    (hget : f.get queue keys serialGenerator rKey rLen = some res)
    (hmade : res.part = some made) :
    made.subs.map List.length = some f.mExpectedLen
    ∧ (minLen ≤ maxLen → minLen ≤ f.mExpectedLen ∧ f.mExpectedLen ≤ maxLen)
    ∧ (maxLen ≤ minLen → f.mExpectedLen = minLen) := by
  have hinv := ContainerFactoryBase.inv_reachable cls minLen maxLen f0 f
    (ContainerFactoryBase.inv_new cls minLen maxLen keys0 keys1 r0 f0 hnew) hreach
  obtain ⟨r, hr⟩ := hinv.drawn
  refine ⟨?_, drawExpectedLen_bounds minLen maxLen r f.mExpectedLen hmax hr⟩
  rw [ContainerFactoryBase.get_eq] at hget
  obtain ⟨_, _, _, _, _, _, _, h8⟩ := ContainerFactoryBase.accumulate_fields f queue
  split at hget
  · simp only [Option.some.injEq] at hget
    subst hget
    cases hmade
  · rename_i hlen
    have hsub := ((ContainerFactoryBase.emit_queue _ _ _ _ _ _ _ hget).2.1 made hmade).1
    rw [hsub]
    simp only [Option.map_some', Option.some.injEq]
    rcases h8 with h8 | h8
    · omega
    · rw [h8] at hlen ⊢
      have := hinv.short
      omega

/-- Witness of C6: the Int array factory with `minLen = maxLen = 2`, after
one call that accepted a leaf, emits an Array of two children. -/
theorem emitted_container_length_witness :
    (2 < SIZE_MOD)
    ∧ ContainerFactoryBase.new (FactoryClass.SimpleArrayFactory SimpleType.INT) 2 2 true
        (some exampleKeysFresh) 0 = some (exampleArrayFactory, some exampleKeys)
    ∧ exampleArrayFactoryHalf.get [some exampleLeafRaw2] (some exampleKeys) 10 0 0
        = some ⟨some exampleArray, exampleArrayFactory, [], 11⟩
    ∧ exampleArray.subs.map List.length = some exampleArrayFactoryHalf.mExpectedLen
    ∧ (2 ≤ 2 → 2 ≤ exampleArrayFactoryHalf.mExpectedLen
        ∧ exampleArrayFactoryHalf.mExpectedLen ≤ 2) :=
  have hnew : ContainerFactoryBase.new (FactoryClass.SimpleArrayFactory SimpleType.INT) 2 2 true
      (some exampleKeysFresh) 0 = some (exampleArrayFactory, some exampleKeys) := by rfl
  have hget : exampleArrayFactoryHalf.get [some exampleLeafRaw2] (some exampleKeys) 10 0 0
      = some ⟨some exampleArray, exampleArrayFactory, [], 11⟩ := by rfl
  have hreach : ContainerFactoryBase.Reachable exampleArrayFactory exampleArrayFactoryHalf :=
    ContainerFactoryBase.Reachable.call exampleArrayFactory
      [some exampleLeafRaw, some exampleLeafRaw2] (some exampleKeys) 10 0 0
      ⟨none, exampleArrayFactoryHalf, [some exampleLeafRaw2], 10⟩
      ContainerFactoryBase.Reachable.start (by rfl)
  have hmain := emitted_container_length (FactoryClass.SimpleArrayFactory SimpleType.INT) 2 2
    (some exampleKeysFresh) (some exampleKeys) 0 exampleArrayFactory exampleArrayFactoryHalf
    [some exampleLeafRaw2] (some exampleKeys) 10 0 0
    ⟨some exampleArray, exampleArrayFactory, [], 11⟩ exampleArray
    (by decide) hnew hreach hget rfl
  ⟨by decide, hnew, hget, hmain.1, hmain.2.1⟩

/-- C9: one call of `get` on a container factory whose accumulator is shorter
than `mExpectedLen`.  When the queue head matches, the head leaves the queue
(the queue becomes its tail) and is appended at the end of the accumulator,
its key cleared for an ARRAY target and kept otherwise; the call then goes on
with that accumulator.  When the queue is empty or its head does not match,
the call returns nothing and leaves queue and factory as they were.  No call
removes more than one Part from the queue. -/
theorem container_get_accumulates (f : ContainerFactoryBase) (queue : MuxParts)
    (keys : Option KeyGetter) (serialGenerator : Serial) (rKey rLen : Nat)
    (hshort : f.mSubs.length < f.mExpectedLen) :
    (∀ head rest, queue = some head :: rest → f.matchPart (some head) = true →
      f.fill queue =
        ({ f with mSubs := f.mSubs ++
            [some (if f.mPartType = PartType.ARRAY then head.setKey none else head)] }, rest)
      ∧ f.get queue keys serialGenerator rKey rLen =
          (if f.mSubs.length + 1 < f.mExpectedLen then
            some ⟨none, (f.fill queue).1, rest, serialGenerator⟩
           else ContainerFactoryBase.emit (f.fill queue).1 rest keys serialGenerator rKey rLen)
      ∧ (∀ res, f.get queue keys serialGenerator rKey rLen = some res → res.queue = rest)
      ∧ (head.setKey none).key = none ∧ (head.setKey none).serial = head.serial
      ∧ (head.setKey none).type = head.type ∧ (head.setKey none).value = head.value
      ∧ (head.setKey none).subs = head.subs)
    ∧ ((∀ head rest, queue = some head :: rest → f.matchPart (some head) = false) →
        f.fill queue = (f, queue)
        ∧ f.get queue keys serialGenerator rKey rLen = some ⟨none, f, queue, serialGenerator⟩)
    ∧ (∀ res, f.get queue keys serialGenerator rKey rLen = some res →
        res.queue = queue ∨ res.queue = queue.tail) := by
  have hget : f.get queue keys serialGenerator rKey rLen =
      if (f.fill queue).1.mSubs.length < f.mExpectedLen then
        some ⟨none, (f.fill queue).1, (f.fill queue).2, serialGenerator⟩
      else ContainerFactoryBase.emit (f.fill queue).1 (f.fill queue).2 keys
        serialGenerator rKey rLen := by
    rw [ContainerFactoryBase.get_eq]
    simp only [ContainerFactoryBase.accumulate, hshort, if_true]
  have hq : ∀ res, f.get queue keys serialGenerator rKey rLen = some res →
      res.queue = (f.fill queue).2 := by
    intro res hres
    rw [hget] at hres
    split at hres
    · simp only [Option.some.injEq] at hres
      subst hres; rfl
    · exact (ContainerFactoryBase.emit_queue _ _ _ _ _ _ _ hres).1
  refine ⟨?_, ?_, ?_⟩
  · intro head rest hqueue hmatch
    have hfill : f.fill queue =
        ({ f with mSubs := f.mSubs ++
            [some (if f.mPartType = PartType.ARRAY then head.setKey none else head)] },
          rest) := by
      subst hqueue
      simp [ContainerFactoryBase.fill, hmatch]
    refine ⟨hfill, ?_, ?_, ?_⟩
    · rw [hget, hfill]
      simp
    · intro res hres
      rw [hq res hres, hfill]
    · cases head
      exact ⟨rfl, rfl, rfl, rfl, rfl⟩
  · intro hno
    have hfill : f.fill queue = (f, queue) := by
      rcases ContainerFactoryBase.fill_cases f queue with ⟨h, _⟩ | ⟨head, rest, h1, h2, _⟩
      · exact h
      · rw [hno head rest h1] at h2
        cases h2
    refine ⟨hfill, ?_⟩
    rw [hget, hfill]
    simp [hshort]
  · intro res hres
    rw [hq res hres]
    rcases ContainerFactoryBase.fill_cases f queue with ⟨h, _⟩ | ⟨head, rest, h1, _, h⟩
    · left; rw [h]
    · right; rw [h, h1]; rfl

/-- Witness of C9: the empty Int array factory takes the unkeyed leaf 7 from
the head of the queue. -/
theorem container_get_accumulates_witness :
    exampleArrayFactory.mSubs.length < exampleArrayFactory.mExpectedLen
    ∧ exampleArrayFactory.fill [some exampleLeafRaw, some exampleLeafRaw2]
        = (exampleArrayFactoryHalf, [some exampleLeafRaw2])
    ∧ exampleArrayFactory.get [some exampleLeafRaw, some exampleLeafRaw2] (some exampleKeys) 10 0 0
        = some ⟨none, exampleArrayFactoryHalf, [some exampleLeafRaw2], 10⟩ :=
  have h := (container_get_accumulates exampleArrayFactory
    [some exampleLeafRaw, some exampleLeafRaw2] (some exampleKeys) 10 0 0 (by decide)).1
    exampleLeafRaw [some exampleLeafRaw2] rfl (by decide)
  ⟨by decide, h.1, h.2.1⟩

/-- C10: with a live key allocator whose slice for the factory token is in
place, `get` on an auto-clear container factory emits a Part exactly when the
accumulator, after the acceptance of that call if any, holds `mExpectedLen`
children, and otherwise returns nothing and keeps the accumulator.  The
emitted Part has the target kind of the factory (ARRAY or OBJECT), a key
drawn from the slice of the factory token, no value, and the accumulated
Parts as children in acceptance order; afterwards the accumulator is empty
and `mExpectedLen` is the freshly drawn value. -/
theorem container_get_emits (cls : FactoryClass) (minLen maxLen : Nat)
    (keys0 keys1 : Option KeyGetter) (r0 : Nat) (f0 f : ContainerFactoryBase)
    (kg : KeyGetter) (queue : MuxParts) (serialGenerator : Serial) (rKey rLen : Nat)
    (hnew : ContainerFactoryBase.new cls minLen maxLen true keys0 r0 = some (f0, keys1))
    (hreach : ContainerFactoryBase.Reachable f0 f)
    (hslice : kg.SliceOk f.mTok) :
    ∃ res, f.get queue (some kg) serialGenerator rKey rLen = some res
      ∧ (res.part.isSome = true ↔ (f.accumulate queue).1.mSubs.length = f.mExpectedLen)
      ∧ res.queue = (f.accumulate queue).2
      ∧ (res.part = none → res.self = (f.accumulate queue).1)
      ∧ (∀ made, res.part = some made →
          made.type = cls.partType
          ∧ (made.type = PartType.ARRAY ∨ made.type = PartType.OBJECT)
          ∧ (∃ k, made.key = some k ∧ kg.InSlice f.mTok k)
          ∧ made.value = none
          ∧ made.subs = some (f.accumulate queue).1.mSubs
          ∧ res.self.mSubs = []
          ∧ drawExpectedLen minLen maxLen rLen = some res.self.mExpectedLen) := by
  have hinv := ContainerFactoryBase.inv_reachable cls minLen maxLen f0 f
    (ContainerFactoryBase.inv_new cls minLen maxLen keys0 keys1 r0 f0 hnew) hreach
  obtain ⟨h1, h2, h3, h4, h5, h6, h7, h8⟩ := ContainerFactoryBase.accumulate_fields f queue
  have hle : (f.accumulate queue).1.mSubs.length ≤ f.mExpectedLen := by
    rcases h8 with h8 | h8
    · exact h8
    · rw [h8]; exact hinv.short
  have hkind : cls.partType = PartType.ARRAY ∨ cls.partType = PartType.OBJECT := by
    cases cls <;> simp [FactoryClass.partType]
  rw [ContainerFactoryBase.get_eq]
  by_cases hlen : (f.accumulate queue).1.mSubs.length < f.mExpectedLen
  · refine ⟨⟨none, (f.accumulate queue).1, (f.accumulate queue).2, serialGenerator⟩,
      by simp only [hlen, if_true], ?_, rfl, fun _ => rfl, ?_⟩
    · simp only [Option.isSome_none, Bool.false_eq_true, false_iff]
      omega
    · intro made hm; cases hm
  · obtain ⟨k, hk, hin⟩ := KeyGetter.get_inSlice kg f.mTok rKey hslice
    obtain ⟨r, hr⟩ := hinv.drawn
    obtain ⟨e, he⟩ := drawExpectedLen_total minLen maxLen r f.mExpectedLen rLen hr
    refine ⟨⟨some (Part.newSubs serialGenerator (f.accumulate queue).1.mPartType
        (some (f.accumulate queue).1.mSubs) (some k) none).1,
      { (f.accumulate queue).1 with mExpectedLen := e, mSubs := [] },
      (f.accumulate queue).2,
      (Part.newSubs serialGenerator (f.accumulate queue).1.mPartType
        (some (f.accumulate queue).1.mSubs) (some k) none).2⟩, ?_, ?_, rfl, ?_, ?_⟩
    · simp only [hlen, if_false, ContainerFactoryBase.emit, h7, hk, h3, h4, hinv.minEq,
        hinv.maxEq, he, h5, hinv.auto, if_true]
    · simp only [Option.isSome_some, true_iff]
      omega
    · intro hn; cases hn
    · intro made hm
      simp only [Option.some.injEq] at hm
      subst hm
      have ht : (f.accumulate queue).1.mPartType = cls.partType := by rw [h2, hinv.typeEq]
      refine ⟨ht, ?_, ⟨k, rfl, hin⟩, rfl, rfl, rfl, he⟩
      rcases hkind with hk1 | hk1
      · left; exact ht.trans hk1
      · right; exact ht.trans hk1

/-- Witness of C10: the Int array factory holding one leaf completes its
round with the second leaf and emits the Array under the key `"alpha"`. -/
theorem container_get_emits_witness :
    ContainerFactoryBase.new (FactoryClass.SimpleArrayFactory SimpleType.INT) 2 2 true
        (some exampleKeysFresh) 0 = some (exampleArrayFactory, some exampleKeys)
    ∧ exampleKeys.SliceOk exampleArrayFactoryHalf.mTok
    ∧ exampleArrayFactoryHalf.get [some exampleLeafRaw2] (some exampleKeys) 10 0 0
        = some ⟨some exampleArray, exampleArrayFactory, [], 11⟩
    ∧ ∃ res, exampleArrayFactoryHalf.get [some exampleLeafRaw2] (some exampleKeys) 10 0 0
          = some res
        ∧ (res.part.isSome = true ↔
            (exampleArrayFactoryHalf.accumulate [some exampleLeafRaw2]).1.mSubs.length
              = exampleArrayFactoryHalf.mExpectedLen) :=
  have hnew : ContainerFactoryBase.new (FactoryClass.SimpleArrayFactory SimpleType.INT) 2 2 true
      (some exampleKeysFresh) 0 = some (exampleArrayFactory, some exampleKeys) := by rfl
  have hreach : ContainerFactoryBase.Reachable exampleArrayFactory exampleArrayFactoryHalf :=
    ContainerFactoryBase.Reachable.call exampleArrayFactory
      [some exampleLeafRaw, some exampleLeafRaw2] (some exampleKeys) 10 0 0
      ⟨none, exampleArrayFactoryHalf, [some exampleLeafRaw2], 10⟩
      ContainerFactoryBase.Reachable.start (by rfl)
  match container_get_emits (FactoryClass.SimpleArrayFactory SimpleType.INT) 2 2
    (some exampleKeysFresh) (some exampleKeys) 0 exampleArrayFactory exampleArrayFactoryHalf
    exampleKeys [some exampleLeafRaw2] 10 0 0 hnew hreach (by decide) with
  | ⟨res, h1, h2, _⟩ => ⟨hnew, by decide, by rfl, res, h1, h2⟩

/-! ## The match predicates -/

theorem ContainerFactoryBase.uniqueKey_iff (mSubs : D_PartPtr) (k : String) :
    ContainerFactoryBase.uniqueKey mSubs k = true ↔ KeyUnused mSubs k := by
  induction mSubs with
  | nil => simp [ContainerFactoryBase.uniqueKey, KeyUnused]
  | cons c rest ih =>
    cases c with
    | none =>
      simp only [ContainerFactoryBase.uniqueKey, ih, KeyUnused, List.mem_cons]
      constructor
      · intro h c hc q hq
        rcases hc with rfl | hc
        · cases hq
        · exact h c hc q hq
      · intro h c hc q hq
        exact h c (Or.inr hc) q hq
    | some i =>
      cases hk : i.key with
      | none =>
        simp only [ContainerFactoryBase.uniqueKey, hk, ih, KeyUnused, List.mem_cons]
        constructor
        · intro h c hc q hq
          rcases hc with rfl | hc
          · cases hq; rw [hk]; simp
          · exact h c hc q hq
        · intro h c hc q hq
          exact h c (Or.inr hc) q hq
      | some k1 =>
        by_cases hkk : k1 = k
        · subst hkk
          simp only [ContainerFactoryBase.uniqueKey, hk, if_true, Bool.false_eq_true,
            false_iff, KeyUnused]
          intro h
          exact h (some i) (List.mem_cons_self _ _) i rfl hk
        · simp only [ContainerFactoryBase.uniqueKey, hk, hkk, if_false, ih, KeyUnused,
            List.mem_cons]
          constructor
          · intro h c hc q hq
            rcases hc with rfl | hc
            · cases hq; rw [hk]; simpa using hkk
            · exact h c hc q hq
          · intro h c hc q hq
            exact h c (Or.inr hc) q hq

/-- C11: the match predicates of the simple array, simple object, array of
objects, object of arrays and object of objects factories are the rows of
the table, for every candidate Part and every accumulator: unkeyed leaf of
type N with a value; keyed leaf of type N with a value whose key no
accumulator child carries; kind Object; kind Array with a key no accumulator
child carries; kind Object with such a key.  A null candidate is never
accepted. -/
theorem match_predicates_follow_table (f : ContainerFactoryBase) (p : Part) (N : SimpleType) :
    (f.cls = FactoryClass.SimpleArrayFactory N →
      (f.matchPart (some p) = true ↔
        p.type = Part.T2T N ∧ p.key = none ∧ p.value.isSome = true))
    ∧ (f.cls = FactoryClass.SimpleObjectFactory N →
      (f.matchPart (some p) = true ↔
        p.type = Part.T2T N ∧ p.value.isSome = true
          ∧ ∃ k, p.key = some k ∧ KeyUnused f.mSubs k))
    ∧ (f.cls = FactoryClass.ObjectArrayFactory →
      (f.matchPart (some p) = true ↔ p.type = PartType.OBJECT))
    ∧ (f.cls = FactoryClass.ArrayObjectFactory →
      (f.matchPart (some p) = true ↔
        p.type = PartType.ARRAY ∧ ∃ k, p.key = some k ∧ KeyUnused f.mSubs k))
    ∧ (f.cls = FactoryClass.ObjectObjectFactory →
      (f.matchPart (some p) = true ↔
        p.type = PartType.OBJECT ∧ ∃ k, p.key = some k ∧ KeyUnused f.mSubs k))
    ∧ f.matchPart none = false := by
  refine ⟨?_, ?_, ?_, ?_, ?_, rfl⟩
  · intro hc
    simp only [ContainerFactoryBase.matchPart, hc, Bool.and_eq_true, Part.matchType_iff]
    cases p.key <;> simp
  · intro hc
    simp only [ContainerFactoryBase.matchPart, hc, Bool.and_eq_true, Part.matchType_iff]
    cases hk : p.key with
    | none => simp
    | some k =>
      simp only [Bool.and_eq_true, ContainerFactoryBase.uniqueKey_iff, Option.some.injEq,
        exists_eq_left']
  · intro hc
    simp [ContainerFactoryBase.matchPart, hc]
  · intro hc
    simp only [ContainerFactoryBase.matchPart, hc]
    cases hk : p.key with
    | none => simp
    | some k =>
      simp only [Bool.and_eq_true, ContainerFactoryBase.uniqueKey_iff, decide_eq_true_eq,
        Option.some.injEq, exists_eq_left']
      exact and_comm
  · intro hc
    simp only [ContainerFactoryBase.matchPart, hc]
    cases hk : p.key with
    | none => simp
    | some k =>
      simp only [Bool.and_eq_true, ContainerFactoryBase.uniqueKey_iff, decide_eq_true_eq,
        Option.some.injEq, exists_eq_left']
      exact and_comm

/-- Witness of C11: the simple Int array factory and the unkeyed leaf 7. -/
theorem match_predicates_follow_table_witness :
    exampleArrayFactory.cls = FactoryClass.SimpleArrayFactory SimpleType.INT
    ∧ (exampleArrayFactory.matchPart (some exampleLeafRaw) = true ↔
        exampleLeafRaw.type = Part.T2T SimpleType.INT ∧ exampleLeafRaw.key = none
          ∧ exampleLeafRaw.value.isSome = true) :=
  ⟨rfl, (match_predicates_follow_table exampleArrayFactory exampleLeafRaw SimpleType.INT).1 rfl⟩

/-- Counterexample to C12 as stated: an Array built without a child sequence
has no children, and an Array whose first entry is a null pointer has no
Array as first child, yet the array-of-arrays factory rejects both. -/
theorem arrayarray_row_fails :
    (ArrayArrayRow exampleArrayNoSubs
      ∧ exampleArrayArrayFactory.matchPart (some exampleArrayNoSubs) = false)
    ∧ (ArrayArrayRow exampleArrayNullFirst
      ∧ exampleArrayArrayFactory.matchPart (some exampleArrayNullFirst) = false) := by
  refine ⟨⟨⟨rfl, Or.inl rfl⟩, rfl⟩, ⟨⟨rfl, Or.inr ⟨none, [], rfl, ?_⟩⟩, rfl⟩⟩
  intro q hq; cases hq

/-- C12 (amended): `ArrayArrayFactory::match` accepts a Part exactly when it
is an Array that has a child sequence, and that sequence is empty or starts
with a non-null Part that is not an Array. -/
theorem arrayarray_match (f : ContainerFactoryBase) (p : Part)
    (hc : f.cls = FactoryClass.ArrayArrayFactory) :
    f.matchPart (some p) = true ↔
      p.type = PartType.ARRAY ∧
        ∃ l, p.subs = some l ∧
          (l = [] ∨ ∃ q rest, l = some q :: rest ∧ q.type ≠ PartType.ARRAY) := by
  simp only [ContainerFactoryBase.matchPart, hc, Bool.and_eq_true, decide_eq_true_eq]
  cases hs : p.subs with
  | none => simp
  | some l =>
    cases l with
    | nil => simp
    | cons c rest =>
      cases c with
      | none => simp
      | some q => simp

/-- Witness of C12 (amended): an Array of two Int leaves is accepted. -/
theorem arrayarray_match_witness :
    exampleArrayArrayFactory.cls = FactoryClass.ArrayArrayFactory
    ∧ exampleArrayArrayFactory.matchPart (some exampleArray) = true :=
  ⟨rfl, (arrayarray_match exampleArrayArrayFactory exampleArray rfl).mpr
    ⟨rfl, _, rfl, Or.inr ⟨exampleLeafRaw, _, rfl, by decide⟩⟩⟩

/-! ## Serials -/

theorem PartCtor.run_serial (g : Int) (c : PartCtor) :
    (c.run g).1.serial = g + 1 ∧ (c.run g).2 = g + 1 := by
  cases c <;> exact ⟨rfl, rfl⟩

theorem constructAll_serials (cs : List PartCtor) :
    ∀ g : Int, (∀ p ∈ (constructAll g cs).1, g < p.serial)
      ∧ ((constructAll g cs).1.map Part.serial).Pairwise (· < ·)
      ∧ (constructAll g cs).2 = g + cs.length := by
  induction cs with
  | nil => intro g; simp [constructAll]
  | cons c rest ih =>
    intro g
    obtain ⟨h1, h2⟩ := PartCtor.run_serial g c
    obtain ⟨i1, i2, i3⟩ := ih (c.run g).2
    rw [h2] at i1 i2 i3
    simp only [constructAll, h2]
    refine ⟨?_, ?_, ?_⟩
    · intro p hp
      rcases List.mem_cons.mp hp with rfl | hp
      · rw [h1]; exact Int.lt_succ g
      · exact lt_trans (Int.lt_succ g) (i1 p hp)
    · simp only [List.map_cons, List.pairwise_cons]
      refine ⟨?_, i2⟩
      intro s hs
      obtain ⟨p, hp, rfl⟩ := List.mem_map.mp hs
      rw [h1]; exact i1 p hp
    · rw [i3]; simp only [List.length_cons]; push_cast; ring

/-- C19: every constructor of `Part` gives the new Part the serial one above
the serial generator; so in any sequence of constructions each Part has a
serial strictly greater than every Part built before it (and than the
generator at the start), and no serial occurs twice.  `setKey`, the move of a
queue head into an accumulator, and recirculation leave the serial as it is. -/
theorem serials_strictly_increase (g : Serial) (cs : List PartCtor) :
    (∀ c : PartCtor, (c.run g).1.serial = g + 1 ∧ (c.run g).2 = g + 1)
    ∧ (∀ p ∈ (constructAll g cs).1, g < p.serial)
    ∧ ((constructAll g cs).1.map Part.serial).Pairwise (· < ·)
    ∧ ((constructAll g cs).1.map Part.serial).Nodup
    ∧ (∀ (p : Part) (k : Key), (p.setKey k).serial = p.serial)
    ∧ (∀ (f : ContainerFactoryBase) (queue : MuxParts),
        ((f.fill queue).1.mSubs ++ (f.fill queue).2).map (Option.map Part.serial)
          = (f.mSubs ++ queue).map (Option.map Part.serial))
    ∧ (∀ (mParts : MuxParts) (p : Part),
        Producer.recirculate mParts (some p) = mParts ++ [some p]) := by
  obtain ⟨h1, h2, _⟩ := constructAll_serials cs g
  refine ⟨PartCtor.run_serial g, h1, h2, ?_, ?_, ?_, fun _ _ => rfl⟩
  · exact (h2.imp (fun h => ne_of_lt h))
  · intro p k; cases p; rfl
  · intro f queue
    rcases ContainerFactoryBase.fill_cases f queue with ⟨h, _⟩ | ⟨head, rest, hq, _, h⟩
    · rw [h]
    · rw [h, hq]
      cases head
      by_cases ha : f.mPartType = PartType.ARRAY <;>
        simp [ha, Part.setKey, Part.serial]

/-- Witness of C19: two leaves built from a fresh generator get the serials
1 and 2. -/
theorem serials_strictly_increase_witness :
    (constructAll 0 [PartCtor.int 1 none, PartCtor.string "x" none]).1.map Part.serial = [1, 2]
    ∧ ((constructAll 0 [PartCtor.int 1 none, PartCtor.string "x" none]).1.map
        Part.serial).Pairwise (· < ·) :=
  ⟨by decide,
    (serials_strictly_increase 0 [PartCtor.int 1 none, PartCtor.string "x" none]).2.2.1⟩

/-! ## The key pool -/

/-- C18 (code defect): the suffix counter writes plain base-26 numerals with
`a` as the digit zero: the counter values 0, 1, 2, 25, 26, 27 give the
empty suffix, then `b`, `c`, `z`, `ba`, `bb`; no counter value gives `a` or
`aa`, and the pool built from one stem with multiplier 4 is the stem, the
stem again, then the stem with `_b`, `_c`, `_d`. -/
theorem suffix_counter_values :
    [0, 1, 2, 25, 26, 27].map (fun n => BaseN.deref ⟨26, 'a', n⟩)
      = [some "", some "b", some "c", some "z", some "ba", some "bb"]
    ∧ KeyGetter.new ["stem"] 4
      = some ⟨["stem", "stem", "stem_b", "stem_c", "stem_d"], 0, 5⟩ := by
  decide

set_option maxRecDepth 20000 in
/-- C16 (code defect): with the stems of `g_substantives` (pairwise
distinct), key multiplier 1 and the 15 tokens of a producer, token 0 and
token 7 can both be given the key `"abaxiator"`: the pool of 260 entries
holds every stem twice (the suffix of counter value 0 is empty), slices have
17 entries, and the second copy of the first stem, at index 130, lies in the
slice of token 7. -/
theorem slices_share_key :
    g_substantives.Nodup
    ∧ (KeyGetter.setup g_substantives 1 15).map
        (fun kg => (kg.mKeys.length, kg.mSlice, kg.get 0 0, kg.get 7 11))
      = some (260, 17, some (conv "abaxiator"), some (conv "abaxiator")) := by
  decide

set_option maxRecDepth 20000 in
/-- C17 (code defect): with the 130 stems of `g_substantives`, key multiplier 0
and the 15 tokens of a producer, the slice size is 8 and `keyCount` of the
last token is 8, not 130 - 14 * 8 = 18: the 10 leftover keys are not folded
into the last slice, because `tail < mSlice` fails for a leftover of 10. -/
theorem last_slice_not_folded :
    (KeyGetter.setup g_substantives 0 15).map
        (fun kg => (kg.mKeys.length, kg.mSlice, kg.keyCount 14, kg.keyCount 13))
      = some (130, 8, 8, 8)
    ∧ 130 - 14 * 8 = 18 := by
  decide

/-! ## The producer -/

set_option maxRecDepth 20000 in
/-- C13 (code defect): in a producer built from the preset "default" (key
multiplier 0), the factory configured by `CT::AM` is an `ArrayArrayFactory`
and rejects the unkeyed Int leaf 7, and the factory configured by `CT::OM` is
an `ObjectObjectFactory` and rejects the keyed Int leaf `"k":1` although its
accumulator is empty; `MixedArrayFactory::match` and
`MixedObjectFactory::match` accept these Parts. -/
theorem mixed_categories_get_unmixed_factories :
    ((Producer.new (presetDefault 0) (fun _ => 0)).bind (fun p => p.containerOf CT.AM)).map
        (fun f => (f.cls, f.mSubs.length, f.matchPart (some exampleLeafRaw)))
      = some (FactoryClass.ArrayArrayFactory, 0, false)
    ∧ ((Producer.new (presetDefault 0) (fun _ => 0)).bind (fun p => p.containerOf CT.OM)).map
        (fun f => (f.cls, f.mSubs.length, f.matchPart (some exampleLeafK)))
      = some (FactoryClass.ObjectObjectFactory, 0, false)
    ∧ ContainerFactoryBase.matchPart
        ⟨FactoryClass.MixedArrayFactory, [], 1, 2, 1, true, PartType.ARRAY, 11⟩
        (some exampleLeafRaw) = true
    ∧ ContainerFactoryBase.matchPart
        ⟨FactoryClass.MixedObjectFactory, [], 1, 2, 1, true, PartType.OBJECT, 14⟩
        (some exampleLeafK) = true := by
  decide

set_option maxRecDepth 20000 in
/-- C14 (code defect): on a producer built from the preset "default" (key
multiplier 0) with an empty work queue, `order(1,0,0)` appends two unkeyed
Int leaves, and `order(2,1,0)` appends three Int leaves and two Double
leaves: each loop `for(; n>=0; --n)` runs `n+1` times. -/
theorem order_pushes_one_more :
    ((Producer.new (presetDefault 0) (fun _ => 0)).bind
        (fun p => p.order 1 0 0 0 exampleRand)).map
        (fun r => r.1.mParts.map (Option.map (fun q => (q.type, q.key, q.value))))
      = some [some (PartType.INT, none, some "0"), some (PartType.INT, none, some "0")]
    ∧ ((Producer.new (presetDefault 0) (fun _ => 0)).bind
        (fun p => p.order 2 1 0 0 exampleRand)).map
        (fun r => r.1.mParts.map (Option.map Part.type))
      = some [some PartType.INT, some PartType.INT, some PartType.INT,
          some PartType.DOUBLE, some PartType.DOUBLE] := by
  decide

set_option maxRecDepth 20000 in
/-- C15 (code defect): when the only Int group is empty, `order(1,0,0)` pushes
two null pointers into the work queue; when there is no Int group at all,
`order(1,0,0)` is undefined (`mt() % 0`). -/
theorem order_on_empty_pool :
    ((Producer.new { presetDefault 0 with mInts := [[]] } (fun _ => 0)).bind
        (fun p => p.order 1 0 0 0 exampleRand)).map
        (fun r => r.1.mParts.map (Option.map Part.type))
      = some [none, none]
    ∧ ((Producer.new { presetDefault 0 with mInts := [] } (fun _ => 0)).map
        (fun p => (p.order 1 0 0 0 exampleRand).isSome))
      = some false := by
  decide

theorem Producer.missesAt_incr (m : List (Serial × Int)) (k : Serial) :
    Producer.missesAt (Producer.missesIncr m k) k = Producer.missesAt m k + 1 := by
  induction m with
  | nil => simp [Producer.missesIncr, Producer.missesAt]
  | cons e rest ih =>
    obtain ⟨k1, v⟩ := e
    by_cases h : k1 = k
    · simp [Producer.missesIncr, Producer.missesAt, h]
    · simp [Producer.missesIncr, Producer.missesAt, h, ih]

theorem Producer.missesAt_erase (m : List (Serial × Int)) (k : Serial) :
    Producer.missesAt (Producer.missesErase m k) k = 0
    ∧ k ∉ (Producer.missesErase m k).map (fun e => e.1) := by
  induction m with
  | nil => simp [Producer.missesErase, Producer.missesAt]
  | cons e rest ih =>
    obtain ⟨k1, v⟩ := e
    unfold Producer.missesErase at ih ⊢
    by_cases h : k1 = k
    · simpa [List.filter_cons, h] using ih
    · have hk : k ≠ k1 := fun h1 => h h1.symm
      simp only [List.filter_cons, ne_eq, h, not_false_eq_true, decide_True, if_true,
        Producer.missesAt, if_false, List.map_cons, List.mem_cons, not_or]
      exact ⟨ih.1, hk, ih.2⟩

/-- C20: stall handling at the end of a dispatch pass whose recorded candidate
is still the head of the non-empty work queue.  The stall counter of that
serial (0 when it has no entry) goes up by one; while the new count is at
most 2, that is on the first and on the second stall, the head moves to the
back of the work queue, the other Parts keep their order and the products
queue is untouched; when the new count exceeds 2, that is on the third
stall, the Part (one that the log line can render) leaves the work queue,
is appended unchanged to the products queue, and its counter is erased. -/
theorem stall_handling (p : Producer) (head : Part) (rest : MuxParts) (n : Int)
    (hq : p.mParts = some head :: rest)
    (hn : Producer.missesAt p.mMisses head.serial = n) :
    Producer.missesAt (Producer.missesIncr p.mMisses head.serial) head.serial = n + 1
    ∧ (n + 1 ≤ 2 →
        p.endOfPass head.serial = some { p with
          mMisses := Producer.missesIncr p.mMisses head.serial,
          mParts := rest ++ [some head] })
    ∧ (2 < n + 1 → head.render.isSome = true →
        p.endOfPass head.serial = some { p with
          mProducts := p.mProducts ++ [some head],
          mParts := rest,
          mMisses := Producer.missesErase
            (Producer.missesIncr p.mMisses head.serial) head.serial }
        ∧ Producer.missesAt (Producer.missesErase
            (Producer.missesIncr p.mMisses head.serial) head.serial) head.serial = 0
        ∧ head.serial ∉ (Producer.missesErase
            (Producer.missesIncr p.mMisses head.serial) head.serial).map (fun e => e.1)) := by
  have hincr := Producer.missesAt_incr p.mMisses head.serial
  rw [hn] at hincr
  refine ⟨hincr, ?_, ?_⟩
  · intro hle
    have hnot : ¬ (n + 1 > 2) := not_lt.mpr hle
    simp only [Producer.endOfPass, hq, if_true, hincr, hnot, if_false]
  · intro hgt hr
    obtain ⟨text, ht⟩ := Option.isSome_iff_exists.mp hr
    have hgt1 : n + 1 > 2 := hgt
    refine ⟨?_, Producer.missesAt_erase _ _⟩
    simp only [Producer.endOfPass, hq, if_true, hincr, hgt1, ht]

/-- Witness of C20: the leaf 7 alone in the work queue stalls three times:
it stays in the queue with counts 1 and 2, then moves to the products. -/
theorem stall_handling_witness :
    (exampleStalled [] []).endOfPass exampleLeafRaw.serial
        = some (exampleStalled [(2, 1)] [])
    ∧ (exampleStalled [(2, 1)] []).endOfPass exampleLeafRaw.serial
        = some (exampleStalled [(2, 2)] [])
    ∧ (exampleStalled [(2, 2)] []).endOfPass exampleLeafRaw.serial
        = some { exampleStalled [] [some exampleLeafRaw] with mParts := [] } :=
  ⟨(stall_handling (exampleStalled [] []) exampleLeafRaw [] 0 rfl rfl).2.1 (by decide),
   (stall_handling (exampleStalled [(2, 1)] []) exampleLeafRaw [] 1 rfl rfl).2.1 (by decide),
   ((stall_handling (exampleStalled [(2, 2)] []) exampleLeafRaw [] 2 rfl rfl).2.2
      (by decide) rfl).1⟩

/-! ## The activated key allocator -/

theorem KeyGetter.keyCount_activated (kg : KeyGetter) (t : Nat)
    (hT : 0 < kg.mToken) (hs : kg.mSlice = kg.mKeys.length / kg.mToken)
    (hN : kg.mToken ≤ kg.mKeys.length) (hsize : kg.mKeys.length < SIZE_MOD)
    (ht : t < kg.mToken) :
    0 < kg.mSlice
    ∧ (kg.keyCount t = kg.mSlice
        ∨ (t + 1 = kg.mToken ∧ kg.keyCount t = kg.mKeys.length - t * kg.mSlice))
    ∧ 0 < kg.keyCount t
    ∧ t * kg.mSlice + kg.keyCount t ≤ kg.mKeys.length := by
  have hspos : 0 < kg.mSlice := by
    rw [hs]; exact Nat.div_pos hN hT
  have hTs : kg.mToken * kg.mSlice ≤ kg.mKeys.length := by
    rw [hs, Nat.mul_comm]; exact Nat.div_mul_le_self _ _
  have hnext : t * kg.mSlice + kg.mSlice ≤ kg.mToken * kg.mSlice := by
    have := Nat.mul_le_mul_right kg.mSlice (Nat.succ_le_of_lt ht)
    rw [Nat.succ_mul] at this
    exact this
  have hfold : t + 2 ≤ kg.mToken →
      t * kg.mSlice + kg.mSlice + kg.mSlice ≤ kg.mToken * kg.mSlice := by
    intro h2
    have := Nat.mul_le_mul_right kg.mSlice h2
    have e : (t + 2) * kg.mSlice = t * kg.mSlice + kg.mSlice + kg.mSlice := by ring
    rw [e] at this
    exact this
  unfold KeyGetter.keyCount
  generalize t * kg.mSlice = a at *
  generalize kg.mToken * kg.mSlice = b at *
  generalize kg.mKeys.length = n at *
  generalize kg.mSlice = s at *
  have hmod1 : (a + s) % SIZE_MOD = a + s := Nat.mod_eq_of_lt (by omega)
  have hmod2 : (n + SIZE_MOD - (a + s)) % SIZE_MOD = n - (a + s) := by
    have e : n + SIZE_MOD - (a + s) = (n - (a + s)) + SIZE_MOD := by omega
    rw [e, Nat.add_mod_right]
    exact Nat.mod_eq_of_lt (by omega)
  simp only [hmod1, hmod2]
  by_cases hc : (decide (0 < n - (a + s)) && decide (n - (a + s) < s)) = true
  · simp only [hc, if_true]
    simp only [Bool.and_eq_true, decide_eq_true_eq] at hc
    have hmod3 : (s + (n - (a + s))) % SIZE_MOD = s + (n - (a + s)) :=
      Nat.mod_eq_of_lt (by omega)
    rw [hmod3]
    have hlast : t + 1 = kg.mToken := by
      by_contra hne
      have := hfold (by omega)
      omega
    exact ⟨hspos, Or.inr ⟨hlast, by omega⟩, by omega, by omega⟩
  · simp only [hc, Bool.false_eq_true, if_false]
    exact ⟨hspos, Or.inl trivial, hspos, by omega⟩

theorem KeyGetter.sliceOk_activated (kg : KeyGetter) (t : Nat)
    (hT : 0 < kg.mToken) (hs : kg.mSlice = kg.mKeys.length / kg.mToken)
    (hN : kg.mToken ≤ kg.mKeys.length) (hsize : kg.mKeys.length < SIZE_MOD)
    (ht : t < kg.mToken) : kg.SliceOk t := by
  obtain ⟨_, _, h3, h4⟩ := KeyGetter.keyCount_activated kg t hT hs hN hsize ht
  exact ⟨h3, h4, hsize⟩

/-- C30: after `activate()` on an allocator with at least one token and at
least as many keys as tokens (fewer than `2^64`), `get(t)` for a registered
token `t` and any draw `r` divides by a non-zero `keyCount(t)` and returns,
between double quotes, the pool entry at index `t*s + r % keyCount(t)`, which
lies in `[t*s, t*s + keyCount(t))` with `t*s + keyCount(t) <= N`; the clamp
to `N-1` leaves that index as it is, and the index range of a token ends
where the range of the next token starts or earlier. -/
theorem activated_get_stays_in_slice (kg0 kg : KeyGetter) (t r : Nat)
    (hact : kg0.activate = some kg)
    (hN : kg0.mToken ≤ kg0.mKeys.length) (hsize : kg0.mKeys.length < SIZE_MOD)
    (ht : t < kg0.mToken) :
    kg.mKeys = kg0.mKeys ∧ kg.mSlice = kg0.mKeys.length / kg0.mToken
    ∧ 0 < kg.keyCount t
    ∧ t * kg.mSlice + kg.keyCount t ≤ kg.mKeys.length
    ∧ (∃ stem, kg.mKeys.get? (t * kg.mSlice + r % kg.keyCount t) = some stem
        ∧ kg.get t r = some (conv stem))
    ∧ min (kg.mKeys.length - 1) (t * kg.mSlice + r % kg.keyCount t)
        = t * kg.mSlice + r % kg.keyCount t
    ∧ (∀ t2, t < t2 → t2 < kg0.mToken → t * kg.mSlice + kg.keyCount t ≤ t2 * kg.mSlice) := by
  unfold KeyGetter.activate at hact
  by_cases hz : kg0.mToken = 0
  · omega
  · simp only [hz, if_false, Option.some.injEq] at hact
    have hT : 0 < kg.mToken := by rw [← hact]; exact Nat.pos_of_ne_zero hz
    have hk : kg.mKeys = kg0.mKeys := by rw [← hact]
    have ht0 : kg.mToken = kg0.mToken := by rw [← hact]
    have hs : kg.mSlice = kg.mKeys.length / kg.mToken := by rw [← hact]
    obtain ⟨hspos, hcase, hpos, hle⟩ := KeyGetter.keyCount_activated kg t hT hs
      (by rw [hk, ht0]; exact hN) (by rw [hk]; exact hsize) (by rw [ht0]; exact ht)
    have hmod : r % kg.keyCount t < kg.keyCount t := Nat.mod_lt _ hpos
    have hix : t * kg.mSlice + r % kg.keyCount t < kg.mKeys.length := by omega
    have hok : kg.SliceOk t := ⟨hpos, hle, by rw [hk]; exact hsize⟩
    refine ⟨hk, by rw [hs, hk, ht0], hpos, hle, ?_, ?_, ?_⟩
    · obtain ⟨stem, hstem⟩ : ∃ stem, kg.mKeys.get? (t * kg.mSlice + r % kg.keyCount t)
          = some stem := ⟨_, List.get?_eq_get hix⟩
      refine ⟨stem, hstem, ?_⟩
      obtain ⟨_, _, hlt⟩ := hok
      have hstart : (t * kg.mSlice) % SIZE_MOD = t * kg.mSlice :=
        Nat.mod_eq_of_lt (by omega)
      have hsum : (t * kg.mSlice + r % kg.keyCount t) % SIZE_MOD
          = t * kg.mSlice + r % kg.keyCount t := Nat.mod_eq_of_lt (by omega)
      have hlast : (kg.mKeys.length + SIZE_MOD - 1) % SIZE_MOD = kg.mKeys.length - 1 := by
        have : kg.mKeys.length + SIZE_MOD - 1 = (kg.mKeys.length - 1) + SIZE_MOD := by omega
        rw [this, Nat.add_mod_right]
        exact Nat.mod_eq_of_lt (by omega)
      have hmin : min (kg.mKeys.length - 1) (t * kg.mSlice + r % kg.keyCount t)
          = t * kg.mSlice + r % kg.keyCount t := by
        apply Nat.min_eq_right; omega
      unfold KeyGetter.get getFrom
      simp only [hstart, hsum, hlast, hmin, hstem, Nat.pos_iff_ne_zero.mp hpos, if_false]
    · apply Nat.min_eq_right; omega
    · intro t2 h12 h2T
      have hmul : (t + 1) * kg.mSlice ≤ t2 * kg.mSlice :=
        Nat.mul_le_mul_right _ (Nat.succ_le_of_lt h12)
      rw [Nat.succ_mul] at hmul
      rcases hcase with hc | ⟨hc, _⟩
      · rw [hc]; exact hmul
      · omega

/-- Witness of C30: the allocator over two stems with one token. -/
theorem activated_get_stays_in_slice_witness :
    exampleKeysFresh.reg.2.activate = some exampleKeys
    ∧ exampleKeys.get 0 1 = some (conv "beta")
    ∧ 0 * exampleKeys.mSlice + exampleKeys.keyCount 0 ≤ exampleKeys.mKeys.length :=
  have h := activated_get_stays_in_slice exampleKeysFresh.reg.2 exampleKeys 0 1
    (by decide) (by decide) (by decide) (by decide)
  ⟨by decide, by decide, h.2.2.2.1⟩

/-! ## `valueCount` counts leaves -/

mutual
theorem valueCount_eq_mod (type : SimpleType) :
    ∀ p : Part, p.noNullChildren = true →
      p.valueCount type = some (p.leafCount type % SIZE_MOD)
  | Part.mk sr t k v s, h => by
    have hs : noNullOptSubs s = true := by simpa [Part.noNullChildren] using h
    cases t with
    | ARRAY =>
      simp only [Part.valueCount, Part.isSimple, Part.type, Part.leafCount]
      simpa using valueCountOptSubs_eq_mod type s hs
    | OBJECT =>
      simp only [Part.valueCount, Part.isSimple, Part.type, Part.leafCount]
      simpa using valueCountOptSubs_eq_mod type s hs
    | INT =>
      simp only [Part.valueCount, Part.isSimple, Part.type, Part.mValueCount, Part.leafCount]
      by_cases ht : PartType.INT = Part.T2T type <;> simp [ht, SIZE_MOD]
    | DOUBLE =>
      simp only [Part.valueCount, Part.isSimple, Part.type, Part.mValueCount, Part.leafCount]
      by_cases ht : PartType.DOUBLE = Part.T2T type <;> simp [ht, SIZE_MOD]
    | STRING =>
      simp only [Part.valueCount, Part.isSimple, Part.type, Part.mValueCount, Part.leafCount]
      by_cases ht : PartType.STRING = Part.T2T type <;> simp [ht, SIZE_MOD]
theorem valueCountOptSubs_eq_mod (type : SimpleType) :
    ∀ s : Option (List (Option Part)), noNullOptSubs s = true →
      valueCountOptSubs type s = some (leafCountOptSubs type s % SIZE_MOD)
  | none, _ => by simp [valueCountOptSubs, leafCountOptSubs]
  | some l, h => by
    have hl : noNullSubs l = true := by simpa [noNullOptSubs] using h
    have := valueCountSubs_eq_mod type l 0 hl (by simp [SIZE_MOD])
    simpa [valueCountOptSubs, leafCountOptSubs] using this
theorem valueCountSubs_eq_mod (type : SimpleType) :
    ∀ (l : List (Option Part)) (count : Nat), noNullSubs l = true → count < SIZE_MOD →
      valueCountSubs type count l = some ((count + leafCountSubs type l) % SIZE_MOD)
  | [], count, _, hc => by
    simp [valueCountSubs, leafCountSubs, Nat.mod_eq_of_lt hc]
  | none :: rest, count, h, _ => by simp [noNullSubs] at h
  | some p :: rest, count, h, _ => by
    have hp : p.noNullChildren = true ∧ noNullSubs rest = true := by
      simpa [noNullSubs] using h
    have h1 := valueCount_eq_mod type p hp.1
    have h2 := valueCountSubs_eq_mod type rest
      ((count + Part.leafCount type p % SIZE_MOD) % SIZE_MOD) hp.2
      (Nat.mod_lt _ (by simp [SIZE_MOD]))
    simp only [valueCountSubs, h1, h2, leafCountSubs, Option.some.injEq]
    rw [Nat.add_mod, Nat.mod_mod, Nat.add_mod count, Nat.mod_mod, ← Nat.add_mod count,
      ← Nat.add_mod, Nat.add_assoc]
end

mutual
theorem leafCount_sum (p : Part) :
    p.leafCount SimpleType.INT + p.leafCount SimpleType.DOUBLE
      + p.leafCount SimpleType.STRING = p.leaves :=
  match p with
  | Part.mk sr t k v s => by
    cases t with
    | ARRAY => simpa [Part.leafCount, Part.leaves] using leafCountOptSubs_sum s
    | OBJECT => simpa [Part.leafCount, Part.leaves] using leafCountOptSubs_sum s
    | INT => simp [Part.leafCount, Part.leaves, Part.T2T]
    | DOUBLE => simp [Part.leafCount, Part.leaves, Part.T2T]
    | STRING => simp [Part.leafCount, Part.leaves, Part.T2T]
theorem leafCountOptSubs_sum (s : Option (List (Option Part))) :
    leafCountOptSubs SimpleType.INT s + leafCountOptSubs SimpleType.DOUBLE s
      + leafCountOptSubs SimpleType.STRING s = leavesOptSubs s :=
  match s with
  | none => by simp [leafCountOptSubs, leavesOptSubs]
  | some l => by simpa [leafCountOptSubs, leavesOptSubs] using leafCountSubs_sum l
theorem leafCountSubs_sum (l : List (Option Part)) :
    leafCountSubs SimpleType.INT l + leafCountSubs SimpleType.DOUBLE l
      + leafCountSubs SimpleType.STRING l = leavesSubs l :=
  match l with
  | [] => by simp [leafCountSubs, leavesSubs]
  | none :: rest => by simpa [leafCountSubs, leavesSubs] using leafCountSubs_sum rest
  | some p :: rest => by
    have h1 := leafCount_sum p
    have h2 := leafCountSubs_sum rest
    simp only [leafCountSubs, leavesSubs]
    omega
end

/-- C27: for a Part tree without null children and with fewer than `2^64`
leaves, `valueCount(t)` is the number of leaves of type `t` the tree contains
transitively (1 for a leaf of type `t`, 0 for a leaf of another type or an
empty container, the sum over the children otherwise), and the three counts
add up to the number of leaves of the tree. -/
theorem valueCount_counts_leaves (p : Part) (type : SimpleType)
    (hnn : p.noNullChildren = true) (hsize : p.leaves < SIZE_MOD) :
    p.valueCount type = some (p.leafCount type)
    ∧ (∃ i d s, p.valueCount SimpleType.INT = some i
        ∧ p.valueCount SimpleType.DOUBLE = some d
        ∧ p.valueCount SimpleType.STRING = some s
        ∧ i + d + s = p.leaves)
    ∧ (p.isSimple = true → p.type = Part.T2T type → p.valueCount type = some 1)
    ∧ (p.isSimple = true → p.type ≠ Part.T2T type → p.valueCount type = some 0)
    ∧ (p.isSimple = false → (p.subs = none ∨ p.subs = some []) →
        p.valueCount type = some 0) := by
  have hsum := leafCount_sum p
  have hmod : ∀ ty, p.valueCount ty = some (p.leafCount ty) := by
    intro ty
    rw [valueCount_eq_mod ty p hnn]
    have hle : p.leafCount ty ≤ p.leaves := by
      cases ty <;> omega
    rw [Nat.mod_eq_of_lt (by omega)]
  refine ⟨hmod type, ⟨_, _, _, hmod _, hmod _, hmod _, hsum⟩, ?_, ?_, ?_⟩
  · intro hs ht
    cases p with
    | mk sr t k v s =>
      simp only [Part.type] at ht
      subst ht
      simp [Part.valueCount, hs, Part.mValueCount]
  · intro hs ht
    cases p with
    | mk sr t k v s =>
      simp only [Part.type] at ht
      simp [Part.valueCount, hs, ht]
  · intro hs hsub
    cases p with
    | mk sr t k v s =>
      simp only [Part.subs] at hsub
      rcases hsub with rfl | rfl <;>
        simp [Part.valueCount, hs, valueCountOptSubs, valueCountSubs]

/-- Witness of C27: the round-trip tree holds three Int leaves. -/
theorem valueCount_counts_leaves_witness :
    roundTripExample.noNullChildren = true
    ∧ roundTripExample.leaves < SIZE_MOD
    ∧ roundTripExample.valueCount SimpleType.INT = some 3 :=
  ⟨by decide, by decide,
    (valueCount_counts_leaves roundTripExample SimpleType.INT (by decide) (by decide)).1⟩

/-! ## What the accumulators hold -/

theorem ContainerFactoryBase.accumulate_subs (f : ContainerFactoryBase) (queue : MuxParts) :
    (f.accumulate queue).1.mSubs = f.mSubs
    ∨ ∃ head, f.matchPart (some head) = true
        ∧ (f.accumulate queue).1.mSubs = f.mSubs ++
            [some (if f.mPartType = PartType.ARRAY then head.setKey none else head)] := by
  unfold ContainerFactoryBase.accumulate
  by_cases hs : f.mSubs.length < f.mExpectedLen
  · simp only [hs, if_true]
    rcases ContainerFactoryBase.fill_cases f queue with ⟨h, _⟩ | ⟨head, rest, _, hm, h⟩
    · left; rw [h]
    · right; exact ⟨head, hm, by rw [h]⟩
  · left; simp [hs]

theorem ContainerFactoryBase.emit_self (f : ContainerFactoryBase) (queue : MuxParts)
    (keys : Option KeyGetter) (serialGenerator : Serial) (rKey rLen : Nat)
    (res : ContainerFactoryBase.Get)
    (h : ContainerFactoryBase.emit f queue keys serialGenerator rKey rLen = some res) :
    res.self.cls = f.cls ∧ res.self.mPartType = f.mPartType
    ∧ res.self.mMinLen = f.mMinLen ∧ res.self.mMaxLen = f.mMaxLen
    ∧ res.self.mAutoClear = f.mAutoClear ∧ res.self.mTok = f.mTok
    ∧ (res.self.mSubs = f.mSubs ∨ res.self.mSubs = [])
    ∧ (res.self.mExpectedLen = f.mExpectedLen
        ∨ ∃ r, drawExpectedLen f.mMinLen f.mMaxLen r = some res.self.mExpectedLen) := by
  unfold ContainerFactoryBase.emit at h
  cases keys with
  | none =>
    simp only [Option.some.injEq] at h
    subst h
    exact ⟨rfl, rfl, rfl, rfl, rfl, rfl, Or.inl rfl, Or.inl rfl⟩
  | some kg =>
    simp only at h
    cases hk : kg.get f.mTok rKey with
    | none => simp [hk] at h
    | some k =>
      simp only [hk] at h
      cases hd : drawExpectedLen f.mMinLen f.mMaxLen rLen with
      | none => simp [hd] at h
      | some e =>
        simp only [hd, Option.some.injEq] at h
        subst h
        refine ⟨rfl, rfl, rfl, rfl, rfl, rfl, ?_, Or.inr ⟨rLen, hd⟩⟩
        by_cases ha : f.mAutoClear = true
        · right; simp [ha]
        · left; simp [ha]

theorem ContainerFactoryBase.get_self (f : ContainerFactoryBase) (queue : MuxParts)
    (keys : Option KeyGetter) (serialGenerator : Serial) (rKey rLen : Nat)
    (res : ContainerFactoryBase.Get)
    (h : f.get queue keys serialGenerator rKey rLen = some res) :
    res.self.cls = f.cls ∧ res.self.mPartType = f.mPartType
    ∧ res.self.mMinLen = f.mMinLen ∧ res.self.mMaxLen = f.mMaxLen
    ∧ res.self.mAutoClear = f.mAutoClear ∧ res.self.mTok = f.mTok
    ∧ (res.self.mSubs = (f.accumulate queue).1.mSubs ∨ res.self.mSubs = [])
    ∧ (res.self.mExpectedLen = f.mExpectedLen
        ∨ ∃ r, drawExpectedLen f.mMinLen f.mMaxLen r = some res.self.mExpectedLen)
    ∧ (∀ made, res.part = some made →
        made.subs = some (f.accumulate queue).1.mSubs ∧ made.type = f.mPartType
        ∧ f.mExpectedLen ≤ (f.accumulate queue).1.mSubs.length) := by
  rw [ContainerFactoryBase.get_eq] at h
  obtain ⟨h1, h2, h3, h4, h5, h6, h7, _⟩ := ContainerFactoryBase.accumulate_fields f queue
  split at h
  · simp only [Option.some.injEq] at h
    subst h
    exact ⟨h1, h2, h3, h4, h5, h7, Or.inl rfl, Or.inl h6, by intro made hm; cases hm⟩
  · rename_i hlen
    obtain ⟨e1, e2, e3, e4, e5, e6, e7, e8⟩ := ContainerFactoryBase.emit_self _ _ _ _ _ _ _ h
    obtain ⟨_, hm, _⟩ := ContainerFactoryBase.emit_queue _ _ _ _ _ _ _ h
    refine ⟨e1.trans h1, e2.trans h2, e3.trans h3, e4.trans h4, e5.trans h5, e6.trans h7,
      e7, ?_, ?_⟩
    · rcases e8 with e8 | ⟨r, e8⟩
      · left; rw [e8, h6]
      · right; exact ⟨r, by rw [← h3, ← h4]; exact e8⟩
    · intro made hmade
      obtain ⟨m1, m2, _⟩ := hm made hmade
      exact ⟨m1, m2.trans h2, by omega⟩

theorem ContainerFactoryBase.reachable_fields (f0 f : ContainerFactoryBase)
    (hreach : ContainerFactoryBase.Reachable f0 f) :
    f.cls = f0.cls ∧ f.mPartType = f0.mPartType ∧ f.mMinLen = f0.mMinLen
    ∧ f.mMaxLen = f0.mMaxLen ∧ f.mAutoClear = f0.mAutoClear ∧ f.mTok = f0.mTok := by
  induction hreach with
  | start => exact ⟨rfl, rfl, rfl, rfl, rfl, rfl⟩
  | call f1 queue keys sg rKey rLen res _ hget ih =>
    obtain ⟨h1, h2, h3, h4, h5, h6, _⟩ :=
      ContainerFactoryBase.get_self f1 queue keys sg rKey rLen res hget
    exact ⟨h1.trans ih.1, h2.trans ih.2.1, h3.trans ih.2.2.1, h4.trans ih.2.2.2.1,
      h5.trans ih.2.2.2.2.1, h6.trans ih.2.2.2.2.2⟩

theorem ContainerFactoryBase.new_fields (cls : FactoryClass) (minLen maxLen : Nat)
    (autoClear : Bool) (keys0 keys1 : Option KeyGetter) (r0 : Nat) (f0 : ContainerFactoryBase)
    (h : ContainerFactoryBase.new cls minLen maxLen autoClear keys0 r0 = some (f0, keys1)) :
    f0.cls = cls ∧ f0.mPartType = cls.partType ∧ f0.mMinLen = minLen ∧ f0.mMaxLen = maxLen
    ∧ f0.mAutoClear = autoClear ∧ f0.mSubs = []
    ∧ drawExpectedLen minLen maxLen r0 = some f0.mExpectedLen := by
  unfold ContainerFactoryBase.new at h
  cases hd : drawExpectedLen minLen maxLen r0 with
  | none => simp [hd] at h
  | some e =>
    simp only [hd] at h
    cases keys0 with
    | none =>
      simp only [Option.some.injEq, Prod.mk.injEq] at h
      obtain ⟨rfl, _⟩ := h
      exact ⟨rfl, rfl, rfl, rfl, rfl, rfl, rfl⟩
    | some kg =>
      simp only [Option.some.injEq, Prod.mk.injEq] at h
      obtain ⟨rfl, _⟩ := h
      exact ⟨rfl, rfl, rfl, rfl, rfl, rfl, rfl⟩

/-- A property of accumulators that holds for the empty accumulator and
survives the acceptance of a matching head holds in every reachable state
and for the accumulator handed to an emitted container. -/
theorem ContainerFactoryBase.accumulator_invariant (f0 f : ContainerFactoryBase)
    (P : D_PartPtr → Prop) (h0 : P f0.mSubs) (hnil : P [])
    (hstep : ∀ (g : ContainerFactoryBase) (head : Part),
      g.cls = f0.cls → g.mPartType = f0.mPartType → P g.mSubs →
      g.matchPart (some head) = true →
      P (g.mSubs ++ [some (if g.mPartType = PartType.ARRAY then head.setKey none else head)]))
    (hreach : ContainerFactoryBase.Reachable f0 f) :
    P f.mSubs ∧ ∀ queue, P (f.accumulate queue).1.mSubs := by
  have hacc : ∀ g : ContainerFactoryBase, ContainerFactoryBase.Reachable f0 g → P g.mSubs →
      ∀ queue, P (g.accumulate queue).1.mSubs := by
    intro g hg hP queue
    obtain ⟨c1, c2, _⟩ := ContainerFactoryBase.reachable_fields f0 g hg
    rcases ContainerFactoryBase.accumulate_subs g queue with h | ⟨head, hm, h⟩
    · rw [h]; exact hP
    · rw [h]; exact hstep g head c1 c2 hP hm
  have hP : P f.mSubs := by
    induction hreach with
    | start => exact h0
    | call f1 queue keys sg rKey rLen res hr hget ih =>
      obtain ⟨_, _, _, _, _, _, h7, _⟩ :=
        ContainerFactoryBase.get_self f1 queue keys sg rKey rLen res hget
      rcases h7 with h7 | h7
      · rw [h7]; exact hacc f1 hr ih queue
      · rw [h7]; exact hnil
  exact ⟨hP, hacc f hreach hP⟩

theorem keyUnused_iff_not_mem (l : D_PartPtr) (k : String) :
    KeyUnused l k ↔ k ∉ keysOf l := by
  unfold KeyUnused keysOf
  simp only [List.mem_filterMap, not_exists, not_and]
  constructor
  · intro h c hc hk
    cases c with
    | none => simp at hk
    | some q => exact h (some q) hc q rfl (by simpa using hk)
  · intro h c hc q hq hk
    subst hq
    exact h (some q) hc (by simpa using hk)

theorem ContainerFactoryBase.matchPart_object (g : ContainerFactoryBase) (head : Part)
    (hc : g.cls.partType = PartType.OBJECT) (hm : g.matchPart (some head) = true) :
    ∃ k, head.key = some k ∧ k ∉ keysOf g.mSubs := by
  unfold ContainerFactoryBase.matchPart at hm
  cases hcls : g.cls with
  | SimpleArrayFactory N => rw [hcls] at hc; simp [FactoryClass.partType] at hc
  | ObjectArrayFactory => rw [hcls] at hc; simp [FactoryClass.partType] at hc
  | ArrayArrayFactory => rw [hcls] at hc; simp [FactoryClass.partType] at hc
  | MixedArrayFactory => rw [hcls] at hc; simp [FactoryClass.partType] at hc
  | SimpleObjectFactory N =>
    simp only [hcls] at hm
    cases hk : head.key with
    | none => simp [hk] at hm
    | some k =>
      simp only [hk, Bool.and_eq_true, ContainerFactoryBase.uniqueKey_iff] at hm
      exact ⟨k, rfl, (keyUnused_iff_not_mem _ _).mp hm.2.2⟩
  | ArrayObjectFactory =>
    simp only [hcls] at hm
    cases hk : head.key with
    | none => simp [hk] at hm
    | some k =>
      simp only [hk, Bool.and_eq_true, ContainerFactoryBase.uniqueKey_iff] at hm
      exact ⟨k, rfl, (keyUnused_iff_not_mem _ _).mp hm.1⟩
  | ObjectObjectFactory =>
    simp only [hcls] at hm
    cases hk : head.key with
    | none => simp [hk] at hm
    | some k =>
      simp only [hk, Bool.and_eq_true, ContainerFactoryBase.uniqueKey_iff] at hm
      exact ⟨k, rfl, (keyUnused_iff_not_mem _ _).mp hm.1⟩
  | MixedObjectFactory =>
    simp only [hcls] at hm
    cases hk : head.key with
    | none => simp [hk] at hm
    | some k =>
      simp only [hk, ContainerFactoryBase.uniqueKey_iff] at hm
      exact ⟨k, rfl, (keyUnused_iff_not_mem _ _).mp hm⟩

/-- C26: in every state a container factory reaches by calls of `get`, the
children in the accumulator of an object-variant factory all carry a key and
their keys are pairwise distinct, and so do the children of every Object it
emits; the children in the accumulator of an array-variant factory, and of
every Array it emits, carry no key. -/
theorem accumulator_children_keys (cls : FactoryClass) (minLen maxLen : Nat)
    (autoClear : Bool) (keys0 keys1 : Option KeyGetter) (r0 : Nat)
    (f0 f : ContainerFactoryBase)
    (hnew : ContainerFactoryBase.new cls minLen maxLen autoClear keys0 r0 = some (f0, keys1))
    (hreach : ContainerFactoryBase.Reachable f0 f) :
    (cls.partType = PartType.OBJECT →
      AllKeyed f.mSubs ∧ (keysOf f.mSubs).Nodup
      ∧ ∀ queue keys serialGenerator rKey rLen res made,
          f.get queue keys serialGenerator rKey rLen = some res → res.part = some made →
          made.type = PartType.OBJECT
          ∧ ∃ l, made.subs = some l ∧ AllKeyed l ∧ (keysOf l).Nodup)
    ∧ (cls.partType = PartType.ARRAY →
      AllUnkeyed f.mSubs
      ∧ ∀ queue keys serialGenerator rKey rLen res made,
          f.get queue keys serialGenerator rKey rLen = some res → res.part = some made →
          made.type = PartType.ARRAY
          ∧ ∃ l, made.subs = some l ∧ AllUnkeyed l) := by
  obtain ⟨n1, n2, _, _, _, n6, _⟩ :=
    ContainerFactoryBase.new_fields cls minLen maxLen autoClear keys0 keys1 r0 f0 hnew
  obtain ⟨r1, r2, _⟩ := ContainerFactoryBase.reachable_fields f0 f hreach
  have htype : f.mPartType = cls.partType := r2.trans n2
  refine ⟨?_, ?_⟩
  · intro hobj
    have hinv := ContainerFactoryBase.accumulator_invariant f0 f
      (fun l => AllKeyed l ∧ (keysOf l).Nodup)
      (by rw [n6]; exact ⟨(by intro c hc; cases hc), (by simp [keysOf])⟩)
      ⟨(by intro c hc; cases hc), (by simp [keysOf])⟩
      (by
        intro g head hc ht hP hm
        have hcobj : g.cls.partType = PartType.OBJECT := by rw [hc, n1]; exact hobj
        have hne : ¬ g.mPartType = PartType.ARRAY := by rw [ht, n2, hobj]; decide
        obtain ⟨k, hk, hnot⟩ := ContainerFactoryBase.matchPart_object g head hcobj hm
        simp only [hne, if_false]
        refine ⟨?_, ?_⟩
        · intro c hcm
          rcases List.mem_append.mp hcm with hcm | hcm
          · exact hP.1 c hcm
          · simp only [List.mem_singleton] at hcm
            exact ⟨head, k, hcm, hk⟩
        · have : keysOf (g.mSubs ++ [some head]) = keysOf g.mSubs ++ [k] := by
            simp [keysOf, List.filterMap_append, hk]
          rw [this]
          exact List.Nodup.append hP.2 (List.nodup_singleton _)
            (by simpa [List.disjoint_singleton] using hnot))
      hreach
    refine ⟨hinv.1.1, hinv.1.2, ?_⟩
    intro queue keys sg rKey rLen res made hget hmade
    obtain ⟨_, _, _, _, _, _, _, _, hm⟩ :=
      ContainerFactoryBase.get_self f queue keys sg rKey rLen res hget
    obtain ⟨m1, m2, _⟩ := hm made hmade
    exact ⟨by rw [m2, htype, hobj], _, m1, hinv.2 queue⟩
  · intro harr
    have hinv := ContainerFactoryBase.accumulator_invariant f0 f AllUnkeyed
      (by rw [n6]; intro c hc; cases hc)
      (by intro c hc; cases hc)
      (by
        intro g head _ ht hP _
        have ha : g.mPartType = PartType.ARRAY := by rw [ht, n2, harr]
        simp only [ha, if_true]
        intro c hcm
        rcases List.mem_append.mp hcm with hcm | hcm
        · exact hP c hcm
        · simp only [List.mem_singleton] at hcm
          exact ⟨head.setKey none, hcm, by cases head; rfl⟩)
      hreach
    refine ⟨hinv.1, ?_⟩
    intro queue keys sg rKey rLen res made hget hmade
    obtain ⟨_, _, _, _, _, _, _, _, hm⟩ :=
      ContainerFactoryBase.get_self f queue keys sg rKey rLen res hget
    obtain ⟨m1, m2, _⟩ := hm made hmade
    exact ⟨by rw [m2, htype, harr], _, m1, hinv.2 queue⟩

/-- Witness of C26: the Array emitted by the simple Int array factory holds
two leaves without key. -/
theorem accumulator_children_keys_witness :
    ContainerFactoryBase.new (FactoryClass.SimpleArrayFactory SimpleType.INT) 2 2 true
        (some exampleKeysFresh) 0 = some (exampleArrayFactory, some exampleKeys)
    ∧ exampleArrayFactoryHalf.get [some exampleLeafRaw2] (some exampleKeys) 10 0 0
        = some ⟨some exampleArray, exampleArrayFactory, [], 11⟩
    ∧ AllUnkeyed exampleArrayFactoryHalf.mSubs
    ∧ ∃ l, exampleArray.subs = some l ∧ AllUnkeyed l :=
  have hnew : ContainerFactoryBase.new (FactoryClass.SimpleArrayFactory SimpleType.INT) 2 2 true
      (some exampleKeysFresh) 0 = some (exampleArrayFactory, some exampleKeys) := by rfl
  have hget : exampleArrayFactoryHalf.get [some exampleLeafRaw2] (some exampleKeys) 10 0 0
      = some ⟨some exampleArray, exampleArrayFactory, [], 11⟩ := by rfl
  have hreach : ContainerFactoryBase.Reachable exampleArrayFactory exampleArrayFactoryHalf :=
    ContainerFactoryBase.Reachable.call exampleArrayFactory
      [some exampleLeafRaw, some exampleLeafRaw2] (some exampleKeys) 10 0 0
      ⟨none, exampleArrayFactoryHalf, [some exampleLeafRaw2], 10⟩
      ContainerFactoryBase.Reachable.start (by rfl)
  have h := (accumulator_children_keys (FactoryClass.SimpleArrayFactory SimpleType.INT) 2 2 true
    (some exampleKeysFresh) (some exampleKeys) 0 exampleArrayFactory exampleArrayFactoryHalf
    hnew hreach).2 rfl
  ⟨hnew, hget, h.1, (h.2 _ _ _ _ _ _ exampleArray hget rfl).2⟩

theorem arrayDepth_le_subs (l : List (Option Part)) (q : Part) (h : some q ∈ l) :
    q.arrayDepth ≤ arrayDepthSubs l := by
  induction l with
  | nil => cases h
  | cons c rest ih =>
    cases c with
    | none =>
      simp only [List.mem_cons, reduceCtorEq, false_or] at h
      simpa [arrayDepthSubs] using ih h
    | some p =>
      simp only [List.mem_cons, Option.some.injEq] at h
      simp only [arrayDepthSubs]
      rcases h with h | h
      · subst h; exact le_max_left _ _
      · exact le_trans (ih h) (le_max_right _ _)

theorem arrayDepthSubs_le (l : List (Option Part)) (n : Nat)
    (h : ∀ q, some q ∈ l → q.arrayDepth ≤ n) : arrayDepthSubs l ≤ n := by
  induction l with
  | nil => simp [arrayDepthSubs]
  | cons c rest ih =>
    have hrest := ih (fun q hq => h q (List.mem_cons_of_mem _ hq))
    cases c with
    | none => simpa [arrayDepthSubs] using hrest
    | some p =>
      simp only [arrayDepthSubs]
      exact max_le (h p (List.mem_cons_self _ _)) hrest

theorem arrayDepth_of_array (p : Part) (l : List (Option Part))
    (ht : p.type = PartType.ARRAY) (hs : p.subs = some l) :
    p.arrayDepth = 1 + arrayDepthSubs l := by
  cases p with
  | mk s t k v subs =>
    simp only [Part.type] at ht
    simp only [Part.subs] at hs
    subst ht; subst hs
    simp [Part.arrayDepth, arrayDepthOptSubs]

theorem arrayDepth_pos_of_array (p : Part) (ht : p.type = PartType.ARRAY) :
    1 ≤ p.arrayDepth := by
  cases p with
  | mk s t k v subs =>
    simp only [Part.type] at ht
    subst ht
    simp [Part.arrayDepth]

/-- C29 (amended): every Array emitted by an array-of-arrays factory built
with `minLen >= 1` has at least one child, each of its children is an Array
whose own first child, if any, is not an Array, and the match predicate of
every array-of-arrays factory rejects the emitted Array.  Its array depth is
one more than the greatest array depth among its children, hence at least 2,
and it is 2 when no child holds an Array below itself. -/
theorem arrayarray_output_not_renested (minLen maxLen : Nat) (autoClear : Bool)
    (keys0 keys1 keys : Option KeyGetter) (r0 : Nat) (f0 f g : ContainerFactoryBase)
    (queue : MuxParts) (serialGenerator : Serial) (rKey rLen : Nat)
    (res : ContainerFactoryBase.Get) (made : Part)
    (hmin : 1 ≤ minLen) (hmax : maxLen < SIZE_MOD)
    (hnew : ContainerFactoryBase.new FactoryClass.ArrayArrayFactory minLen maxLen autoClear
      keys0 r0 = some (f0, keys1))
    (hreach : ContainerFactoryBase.Reachable f0 f)
    (hget : f.get queue keys serialGenerator rKey rLen = some res)
    (hmade : res.part = some made)
    (hg : g.cls = FactoryClass.ArrayArrayFactory) :
    g.matchPart (some made) = false
    ∧ made.type = PartType.ARRAY
    ∧ (∃ q rest, made.subs = some (some q :: rest) ∧ PlainArray q)
    ∧ ∃ l, made.subs = some l
        ∧ (∀ c ∈ l, ∃ q : Part, c = some q ∧ PlainArray q)
        ∧ made.arrayDepth = 1 + arrayDepthSubs l
        ∧ 2 ≤ made.arrayDepth
        ∧ ((∀ q, some q ∈ l → q.arrayDepth ≤ 1) → made.arrayDepth = 2) := by
  obtain ⟨n1, n2, n3, n4, _, n6, n7⟩ :=
    ContainerFactoryBase.new_fields _ minLen maxLen autoClear keys0 keys1 r0 f0 hnew
  have hinv := ContainerFactoryBase.accumulator_invariant f0 f
    (fun l => ∀ c ∈ l, ∃ q : Part, c = some q ∧ PlainArray q)
    (by rw [n6]; intro c hc; cases hc)
    (by intro c hc; cases hc)
    (by
      intro g1 head hc ht hP hm
      have ha : g1.mPartType = PartType.ARRAY := by rw [ht, n2]; rfl
      have hplain : PlainArray head := by
        simp only [ContainerFactoryBase.matchPart, hc, n1, Bool.and_eq_true,
          decide_eq_true_eq] at hm
        refine ⟨hm.1, ?_⟩
        cases hs : head.subs with
        | none => simp [hs] at hm
        | some l =>
          cases l with
          | nil => exact Or.inl rfl
          | cons c rest =>
            cases c with
            | none => simp [hs] at hm
            | some q2 =>
              simp only [hs, decide_eq_true_eq] at hm
              exact Or.inr ⟨q2, rest, rfl, hm.2⟩
      simp only [ha, if_true]
      intro c hcm
      rcases List.mem_append.mp hcm with hcm | hcm
      · exact hP c hcm
      · simp only [List.mem_singleton] at hcm
        refine ⟨head.setKey none, hcm, ?_⟩
        cases head
        exact hplain)
    hreach
  have hdrawn : ∃ r, drawExpectedLen minLen maxLen r = some f.mExpectedLen := by
    clear hget hinv
    induction hreach with
    | start => exact ⟨r0, n7⟩
    | call f1 queue1 keys2 sg rKey1 rLen1 res1 hr hget1 ih =>
      obtain ⟨_, _, _, _, _, _, _, h8, _⟩ :=
        ContainerFactoryBase.get_self f1 queue1 keys2 sg rKey1 rLen1 res1 hget1
      obtain ⟨_, _, c3, c4, _⟩ := ContainerFactoryBase.reachable_fields f0 f1 hr
      rcases h8 with h8 | ⟨r, h8⟩
      · rw [h8]; exact ih
      · exact ⟨r, by rw [← n3, ← n4, ← c3, ← c4]; exact h8⟩
  obtain ⟨r, hr⟩ := hdrawn
  have hb := drawExpectedLen_bounds minLen maxLen r f.mExpectedLen hmax hr
  have hexp : 1 ≤ f.mExpectedLen := by
    by_cases hle : minLen ≤ maxLen
    · have := (hb.1 hle).1; omega
    · have := hb.2 (by omega); omega
  obtain ⟨_, r2, _⟩ := ContainerFactoryBase.reachable_fields f0 f hreach
  obtain ⟨_, _, _, _, _, _, _, _, hm⟩ :=
    ContainerFactoryBase.get_self f queue keys serialGenerator rKey rLen res hget
  obtain ⟨m1, m2, m3⟩ := hm made hmade
  have htype : made.type = PartType.ARRAY := by rw [m2, r2, n2]; rfl
  cases hl : (f.accumulate queue).1.mSubs with
  | nil => rw [hl] at m3; simp at m3; omega
  | cons c rest =>
    obtain ⟨q, hq, hplain⟩ := hinv.2 queue c (by rw [hl]; exact List.mem_cons_self _ _)
    subst hq
    have hdepth := arrayDepth_of_array made _ htype m1
    have hq1 : 1 ≤ q.arrayDepth := arrayDepth_pos_of_array q hplain.1
    have hqle : q.arrayDepth ≤ arrayDepthSubs (f.accumulate queue).1.mSubs :=
      arrayDepth_le_subs _ q (by rw [hl]; exact List.mem_cons_self _ _)
    refine ⟨?_, htype, ⟨q, rest, by rw [m1, hl], hplain⟩,
      ⟨_, m1, hinv.2 queue, hdepth, by omega, ?_⟩⟩
    · simp [ContainerFactoryBase.matchPart, hg, htype, m1, hl, hplain.1]
    · intro hle
      have := arrayDepthSubs_le _ 1 hle
      omega

/-- Witness of C29 (amended): the array-of-arrays factory with `minLen = 1`
emits the Array around `exampleArray`, which an array-of-arrays factory
rejects and which has array depth 2. -/
theorem arrayarray_output_not_renested_witness :
    ContainerFactoryBase.new FactoryClass.ArrayArrayFactory 1 2 true
        (some exampleKeysFresh) 0 = some (exampleArrayArrayFactory, some exampleKeys)
    ∧ exampleArrayArrayFactory.get [some exampleArray] (some exampleKeys) 11 0 0
        = some ⟨some exampleNested, exampleArrayArrayFactory, [], 12⟩
    ∧ exampleArrayArrayFactory.matchPart (some exampleNested) = false
    ∧ exampleNested.arrayDepth = 2 :=
  have hnew : ContainerFactoryBase.new FactoryClass.ArrayArrayFactory 1 2 true
      (some exampleKeysFresh) 0 = some (exampleArrayArrayFactory, some exampleKeys) := by rfl
  have hget : exampleArrayArrayFactory.get [some exampleArray] (some exampleKeys) 11 0 0
      = some ⟨some exampleNested, exampleArrayArrayFactory, [], 12⟩ := by rfl
  ⟨hnew, hget,
    (arrayarray_output_not_renested 1 2 true (some exampleKeysFresh) (some exampleKeys)
      (some exampleKeys) 0 exampleArrayArrayFactory exampleArrayArrayFactory
      exampleArrayArrayFactory [some exampleArray] 11 0 0
      ⟨some exampleNested, exampleArrayArrayFactory, [], 12⟩ exampleNested
      (by decide) (by decide) hnew ContainerFactoryBase.Reachable.start hget rfl rfl).1,
    by decide⟩

set_option maxRecDepth 20000 in
/-- Counterexample to C29 as stated: the match predicate looks only at the
first child of a candidate, so the array-of-arrays factory with `minLen = 1`
takes the Array `[7,[[8]]]`, whose first child is a leaf, and emits
`[[7,[[8]]]]`, an Array of array depth 4. -/
theorem arrayarray_depth_exceeds_two :
    ContainerFactoryBase.new FactoryClass.ArrayArrayFactory 1 2 true
        (some exampleKeysFresh) 0 = some (exampleArrayArrayFactory, some exampleKeys)
    ∧ exampleArrayArrayFactory.get [some exampleDeepCandidate] (some exampleKeys) 22 0 0
        = some ⟨some exampleDeepNested, exampleArrayArrayFactory, [], 23⟩
    ∧ exampleDeepNested.render = some "\"alpha\":[[7,[[8]]]]"
    ∧ exampleDeepNested.arrayDepth = 4 :=
  ⟨by rfl, by rfl, by decide, by decide⟩

/-! ## The recirculation roll -/

set_option maxRecDepth 20000 in
/-- C22 (code defect): with recirculation percentage 100 only 99 of the 100
rolls send the emitted Part back (roll 0 promotes it), with percentage 50
only 49 do, and for every percentage `p` from 1 to 100 exactly `p - 1` rolls
do: the test is `100 - p < roll`. -/
theorem recirculation_count_is_one_short :
    ((List.range 100).filter (fun r => Producer.recirculates 100 r)).length = 99
    ∧ Producer.recirculates 100 0 = false
    ∧ ((List.range 100).filter (fun r => Producer.recirculates 50 r)).length = 49
    ∧ (List.range 101).all (fun p =>
        ((List.range 100).filter (fun r => Producer.recirculates p r)).length = p - 1) = true := by
  decide

/-- Counterexample to C23 as stated: with percentage 50 and roll 99 the test
`100 - 50 < 99` holds, and the emitted Part goes back onto the work queue,
not to the products. -/
theorem roll_above_threshold_recirculates :
    100 - 50 < 99
    ∧ (Producer.dispose (exampleStalled [] []) exampleArray 50 99).mParts
        = [some exampleLeafRaw, some exampleArray]
    ∧ (Producer.dispose (exampleStalled [] []) exampleArray 50 99).mProducts = [] :=
  ⟨by decide, rfl, rfl⟩

/-- C23 (amended): a Part emitted by a factory with recirculation percentage
`percent` (at most 100) is recirculated onto the back of the work queue when
`100 - percent < roll` and promoted to the back of the products queue when
`roll < 100 - percent`, `roll` being the draw reduced modulo 100. -/
theorem roll_decides_disposal (p : Producer) (part : Part) (percent r : Nat)
    (hp : percent ≤ 100) :
    (100 - percent < r % 100 →
      Producer.dispose p part percent r = { p with mParts := p.mParts ++ [some part] })
    ∧ (r % 100 < 100 - percent →
      Producer.dispose p part percent r
        = { p with mProducts := p.mProducts ++ [some part] }) := by
  have h1 : percent % 2 ^ 32 = percent := Nat.mod_eq_of_lt (by omega)
  have h2 : (100 + 2 ^ 32 - percent) % 2 ^ 32 = 100 - percent := by
    have e : 100 + 2 ^ 32 - percent = (100 - percent) + 2 ^ 32 := by omega
    rw [e, Nat.add_mod_right]
    exact Nat.mod_eq_of_lt (by omega)
  unfold Producer.dispose Producer.recirculates
  rw [h1, h2]
  constructor
  · intro h; simp [h]
  · intro h
    have : ¬ (100 - percent < r % 100) := by omega
    simp [this]

/-- Witness of C23 (amended): percentage 50, roll 10. -/
theorem roll_decides_disposal_witness :
    50 ≤ 100 ∧ 10 % 100 < 100 - 50
    ∧ Producer.dispose (exampleStalled [] []) exampleArray 50 10
        = { exampleStalled [] [] with mProducts := [] ++ [some exampleArray] } :=
  ⟨by decide, by decide,
    (roll_decides_disposal (exampleStalled [] []) exampleArray 50 10 (by decide)).2
      (by decide)⟩

/-! ## The scenario of the int-array factory -/

set_option maxRecDepth 20000 in
/-- Counterexample to C21 as stated: in the scenario (all draws 0) the third
pass takes the third leaf into the accumulator of the int-array factory; from
then on the work queue is empty, the products queue holds the one Array of
the first two leaves, and a further pass changes nothing. -/
theorem scenario_leaves_queue_empty :
    (scenarioAfter 3).map (fun s =>
        (s.1.mParts.length,
         s.1.mProducts.map (Option.map (fun q =>
           (q.type, (q.subs.getD []).map (Option.map Part.serial)))),
         (s.1.containerOf CT.AI).map (fun f => f.mSubs.map (Option.map Part.serial))))
      = some (0, [some (PartType.ARRAY, [some 1, some 2])], some [some 3])
    ∧ (scenarioAfter 4).map (fun s =>
        (s.1.mParts.length,
         s.1.mProducts.map (Option.map (fun q =>
           (q.type, (q.subs.getD []).map (Option.map Part.serial)))),
         (s.1.containerOf CT.AI).map (fun f => f.mSubs.map (Option.map Part.serial))))
      = some (0, [some (PartType.ARRAY, [some 1, some 2])], some [some 3]) :=
  ⟨by rfl, by rfl⟩

theorem Part.setKey_of_unkeyed (p : Part) (h : p.key = none) : p.setKey none = p := by
  cases p
  simp only [Part.key] at h
  subst h
  rfl

theorem Producer.pass_single (p : Producer) (i : Nat) (front : Part) (rest : MuxParts)
    (serialGenerator : Serial) (rnd : Rand)
    (hdone : p.mDone = false) (hkey : Producer.key2 p = [i])
    (hparts : p.mParts = some front :: rest) :
    p.pass serialGenerator rnd =
      match Producer.offer p i serialGenerator rnd.next.2 with
      | none => none
      | some (p1, g1, rnd1) =>
        match p1.endOfPass front.serial with
        | some p2 => some (p2, g1, rnd1)
        | none => none := by
  unfold Producer.pass
  simp only [hdone, hkey, hparts, Bool.false_eq_true, if_false, List.length_singleton,
    Producer.dispatchLoop, List.isEmpty_cons, Nat.mod_one, List.get?_cons_zero]
  cases Producer.offer p i serialGenerator rnd.next.2 with
  | none => rfl
  | some r =>
    obtain ⟨p1, g1, rnd1⟩ := r
    simp [Producer.dispatchLoop]

theorem Producer.key2_set (cs : List ConsumerProducer) (i j : Nat) (c c1 : ConsumerProducer)
    (hget : cs.get? i = some c) (hw : c1.weigth = c.weigth) :
    Producer.key2From j (cs.set i c1) = Producer.key2From j cs := by
  induction cs generalizing i j with
  | nil => simp
  | cons d rest ih =>
    cases i with
    | zero =>
      simp only [List.get?_cons_zero, Option.some.injEq] at hget
      subst hget
      simp [Producer.key2From, hw]
    | succ n =>
      simp only [List.get?_cons_succ] at hget
      simp [Producer.key2From, ih n (j + 1) hget]

theorem Producer.recirculates_zero (r : Nat) : Producer.recirculates 0 r = false := by
  unfold Producer.recirculates
  have h : (100 + 2 ^ 32 - 0 % 2 ^ 32) % 2 ^ 32 = 100 := by decide
  rw [h]
  have : r % 100 < 100 := Nat.mod_lt _ (by decide)
  simp only [decide_eq_false_iff_not, not_lt]
  omega

/-- C21 (amended): with only the int-array factory in `key2` (`minLen =
maxLen = 2`, recirculation 0, empty accumulator, live key allocator) and the
work queue holding three unkeyed Int leaves `l1`, `l2`, `l3` with values,
three iterations of `produce` yield, for every outcome of the draws, a
products queue holding exactly one Part, an Array with the children `l1` and
`l2` in that order, an empty work queue, and the accumulator of the factory
holding `l3`; a further iteration changes nothing. -/
theorem scenario_for_all_draws (p : Producer) (i tok w : Nat) (l1 l2 l3 : Part)
    (serialGenerator : Serial) (rnd : Rand)
    (hdone : p.mDone = false) (hkey : Producer.key2 p = [i])
    (hcons : p.mConsumers.get? i = some ⟨Factory.container
      ⟨FactoryClass.SimpleArrayFactory SimpleType.INT, [], 2, 2, 2, true, PartType.ARRAY, tok⟩,
      0, w⟩)
    (hslice : p.mKeyGetter.SliceOk tok)
    (hparts : p.mParts = [some l1, some l2, some l3]) (hprod : p.mProducts = [])
    (h1 : l1.type = PartType.INT ∧ l1.key = none ∧ l1.value.isSome = true)
    (h2 : l2.type = PartType.INT ∧ l2.key = none ∧ l2.value.isSome = true)
    (h3 : l3.type = PartType.INT ∧ l3.key = none ∧ l3.value.isSome = true)
    (hs12 : l1.serial ≠ l2.serial) (hs23 : l2.serial ≠ l3.serial) :
    ∃ p3 rnd3 k, Producer.passes 3 p serialGenerator rnd = some (p3, serialGenerator + 1, rnd3)
      ∧ p.mKeyGetter.InSlice tok k
      ∧ p3.mProducts = [some (Part.mk (serialGenerator + 1) PartType.ARRAY (some k) none
          (some [some l1, some l2]))]
      ∧ p3.mParts = []
      ∧ p3.mConsumers.get? i = some ⟨Factory.container
          ⟨FactoryClass.SimpleArrayFactory SimpleType.INT, [some l3], 2, 2, 2, true,
            PartType.ARRAY, tok⟩, 0, w⟩
      ∧ p3.pass (serialGenerator + 1) rnd3 = some (p3, serialGenerator + 1, rnd3) := by
  have hi : i < p.mConsumers.length := by
    by_contra hge
    rw [List.get?_eq_none.mpr (by omega)] at hcons
    cases hcons
  have hm : ∀ (l : Part) (subs : D_PartPtr),
      l.type = PartType.INT ∧ l.key = none ∧ l.value.isSome = true →
      ContainerFactoryBase.matchPart
        ⟨FactoryClass.SimpleArrayFactory SimpleType.INT, subs, 2, 2, 2, true,
          PartType.ARRAY, tok⟩ (some l) = true := by
    intro l subs hl
    simp [ContainerFactoryBase.matchPart, Part.matchType, hl.1, hl.2.1, hl.2.2]
  -- first pass: `l1` enters the accumulator
  let c1 : ConsumerProducer := ⟨Factory.container
    ⟨FactoryClass.SimpleArrayFactory SimpleType.INT, [some l1], 2, 2, 2, true,
      PartType.ARRAY, tok⟩, 0, w⟩
  let p1 : Producer := { p with mParts := [some l2, some l3], mConsumers := p.mConsumers.set i c1 }
  have hpass1 : p.pass serialGenerator rnd = some (p1, serialGenerator, rnd.next.2) := by
    rw [Producer.pass_single p i l1 [some l2, some l3] serialGenerator rnd hdone hkey hparts]
    have hoffer : Producer.offer p i serialGenerator rnd.next.2
        = some (p1, serialGenerator, rnd.next.2) := by
      simp only [Producer.offer, hcons, hparts, ContainerFactoryBase.get,
        ContainerFactoryBase.fill, hm l1 [] h1, List.length_nil, List.nil_append,
        List.length_singleton, List.tail_cons, Part.setKey_of_unkeyed l1 h1.2.1]
      simp [p1, c1, hparts]
    rw [hoffer]
    simp [Producer.endOfPass, p1, hs12]
  -- second pass: `l2` completes the Array, which is promoted
  obtain ⟨k, hk, hin⟩ := KeyGetter.get_inSlice p.mKeyGetter tok rnd.next.2.next.2.next.1 hslice
  let arr : Part := Part.mk (serialGenerator + 1) PartType.ARRAY (some k) none
    (some [some l1, some l2])
  let c0 : ConsumerProducer := ⟨Factory.container
    ⟨FactoryClass.SimpleArrayFactory SimpleType.INT, [], 2, 2, 2, true,
      PartType.ARRAY, tok⟩, 0, w⟩
  let p2 : Producer := { p with
    mParts := [some l3], mProducts := [some arr], mConsumers := p.mConsumers.set i c0 }
  have hkey1 : Producer.key2 p1 = [i] := by
    show Producer.key2From 0 (p.mConsumers.set i c1) = [i]
    rw [Producer.key2_set p.mConsumers i 0 _ c1 hcons rfl]
    exact hkey
  have hcons1 : p1.mConsumers.get? i = some c1 := by
    show (p.mConsumers.set i c1).get? i = some c1
    simp [List.get?_eq_getElem?, List.getElem?_set, hi]
  have hpass2 : p1.pass serialGenerator rnd.next.2
      = some (p2, serialGenerator + 1, rnd.next.2.next.2.next.2.next.2) := by
    rw [Producer.pass_single p1 i l2 [some l3] serialGenerator rnd.next.2 hdone hkey1 rfl]
    have hoffer : Producer.offer p1 i serialGenerator rnd.next.2.next.2
        = some (p2, serialGenerator + 1, rnd.next.2.next.2.next.2.next.2) := by
      have hkg : p1.mKeyGetter = p.mKeyGetter := rfl
      simp only [Producer.offer, hcons1, c1, ContainerFactoryBase.get,
        ContainerFactoryBase.fill, hm l2 [some l1] h2, List.length_singleton,
        List.tail_cons, Part.setKey_of_unkeyed l2 h2.2.1, hkg]
      simp [p1, p2, c0, arr, ContainerFactoryBase.emit, hk, drawExpectedLen, Part.newSubs,
        Producer.dispose, Producer.recirculates_zero, hprod, List.set_set]
    rw [hoffer]
    simp [Producer.endOfPass, p2, hs23]
  -- third pass: `l3` enters the accumulator and the queue is empty
  let c3 : ConsumerProducer := ⟨Factory.container
    ⟨FactoryClass.SimpleArrayFactory SimpleType.INT, [some l3], 2, 2, 2, true,
      PartType.ARRAY, tok⟩, 0, w⟩
  let p3 : Producer := { p with
    mParts := [], mProducts := [some arr], mConsumers := p.mConsumers.set i c3 }
  have hkey2 : Producer.key2 p2 = [i] := by
    show Producer.key2From 0 (p.mConsumers.set i c0) = [i]
    rw [Producer.key2_set p.mConsumers i 0 _ c0 hcons rfl]
    exact hkey
  have hcons2 : p2.mConsumers.get? i = some c0 := by
    show (p.mConsumers.set i c0).get? i = some c0
    simp [List.get?_eq_getElem?, List.getElem?_set, hi]
  have hpass3 : p2.pass (serialGenerator + 1) rnd.next.2.next.2.next.2.next.2
      = some (p3, serialGenerator + 1, rnd.next.2.next.2.next.2.next.2.next.2) := by
    rw [Producer.pass_single p2 i l3 [] (serialGenerator + 1) _ hdone hkey2 rfl]
    have hoffer : Producer.offer p2 i (serialGenerator + 1)
          rnd.next.2.next.2.next.2.next.2.next.2
        = some (p3, serialGenerator + 1, rnd.next.2.next.2.next.2.next.2.next.2) := by
      simp only [Producer.offer, hcons2, c0, ContainerFactoryBase.get,
        ContainerFactoryBase.fill, hm l3 [] h3, List.length_nil, List.nil_append,
        List.length_singleton, List.tail_cons, Part.setKey_of_unkeyed l3 h3.2.1]
      simp [p2, p3, c3, List.set_set]
    rw [hoffer]
    simp [Producer.endOfPass, p3]
  refine ⟨p3, rnd.next.2.next.2.next.2.next.2.next.2, k, ?_, hin, rfl, rfl, ?_, ?_⟩
  · simp only [Producer.passes, hpass1, hpass2, hpass3]
  · show (p.mConsumers.set i c3).get? i = some c3
    simp [List.get?_eq_getElem?, List.getElem?_set, hi]
  · simp [Producer.pass, p3, hdone]

/-- Witness of C21 (amended): the producer holding only the int-array
factory and the three seeds. -/
theorem scenario_for_all_draws_witness :
    Producer.key2 exampleScenarioProducer = [0]
    ∧ exampleKeys.SliceOk 0
    ∧ ∃ p3 rnd3 k, Producer.passes 3 exampleScenarioProducer 3 exampleRand = some (p3, 3 + 1, rnd3)
      ∧ exampleKeys.InSlice 0 k
      ∧ p3.mProducts = [some (Part.mk (3 + 1) PartType.ARRAY (some k) none
          (some [some (Part.mk 1 PartType.INT none (some "10") none),
            some (Part.mk 2 PartType.INT none (some "20") none)]))]
      ∧ p3.mParts = [] :=
  match scenario_for_all_draws exampleScenarioProducer 0 0 1
    (Part.mk 1 PartType.INT none (some "10") none)
    (Part.mk 2 PartType.INT none (some "20") none)
    (Part.mk 3 PartType.INT none (some "30") none) 3 exampleRand
    rfl rfl rfl (by decide) rfl rfl ⟨rfl, rfl, rfl⟩ ⟨rfl, rfl, rfl⟩ ⟨rfl, rfl, rfl⟩
    (by decide) (by decide) with
  | ⟨p3, rnd3, k, h1, h2, h3, h4, _⟩ => ⟨rfl, by decide, p3, rnd3, k, h1, h2, h3, h4⟩

/-! ## No Part occurs twice -/

theorem serialsSubs_append (a b : List (Option Part)) :
    serialsSubs (a ++ b) = serialsSubs a ++ serialsSubs b := by
  induction a with
  | nil => simp [serialsSubs]
  | cons c rest ih =>
    cases c with
    | none => simpa [serialsSubs] using ih
    | some p => simp [serialsSubs, ih]

theorem Part.serials_setKey (p : Part) (k : Key) : (p.setKey k).serials = p.serials := by
  cases p; rfl

/-- The bookkeeping step: when the serials afterwards are, as a multiset,
among the serials before plus new ones issued in between, distinctness and
the bound by the generator carry over. -/
theorem distinct_of_le (S S1 F : List Serial) (g g1 : Int)
    (hS : S.Nodup) (hb : ∀ s ∈ S, s ≤ g) (hF : F.Nodup)
    (hnew : ∀ x ∈ F, g < x ∧ x ≤ g1) (hg : g ≤ g1)
    (hle : (↑S1 : Multiset Serial) ≤ ↑F + ↑S) :
    S1.Nodup ∧ ∀ s ∈ S1, s ≤ g1 := by
  have hnd : (↑F + ↑S : Multiset Serial).Nodup := by
    rw [Multiset.coe_add, Multiset.coe_nodup]
    refine List.Nodup.append hF hS ?_
    intro x hx hxs
    have h1 := (hnew x hx).1
    have h2 := hb x hxs
    exact absurd h2 (not_le.mpr h1)
  refine ⟨Multiset.coe_nodup.mp (Multiset.nodup_of_le hle hnd), ?_⟩
  intro s hs
  have hmem : s ∈ (↑F + ↑S : Multiset Serial) :=
    Multiset.mem_of_le hle (Multiset.mem_coe.mpr hs)
  rw [Multiset.coe_add, Multiset.mem_coe, List.mem_append] at hmem
  rcases hmem with h | h
  · exact (hnew s h).2
  · exact le_trans (hb s h) hg

theorem serialsSubs_tail_le (queue : List (Option Part)) :
    (↑(serialsSubs queue.tail) : Multiset Serial) ≤ ↑(serialsSubs queue) := by
  cases queue with
  | nil => simp
  | cons c rest =>
    cases c with
    | none => simp [serialsSubs]
    | some p =>
      simp only [List.tail_cons, serialsSubs, Multiset.coe_le]
      exact (List.sublist_append_right _ _).subperm

theorem SimpleKvPairFactory.kv_get_serials (f : SimpleKvPairFactory) (queue : MuxParts)
    (keys : Option KeyGetter) (g : Int) (r : Nat) (res : KvGet)
    (h : f.get queue keys g r = some res) :
    (↑(serialsSubs res.queue) : Multiset Serial) ≤ ↑(serialsSubs queue)
    ∧ ((res.part = none ∧ res.serialGenerator = g)
      ∨ ∃ part, res.part = some part ∧ part.serials = [g + 1]
          ∧ res.serialGenerator = g + 1) := by
  unfold SimpleKvPairFactory.get at h
  cases queue with
  | nil =>
    simp only [Option.some.injEq] at h
    subst h
    exact ⟨le_refl _, Or.inl ⟨rfl, rfl⟩⟩
  | cons c rest =>
    cases c with
    | none =>
      simp only [Option.some.injEq] at h
      subst h
      exact ⟨le_refl _, Or.inl ⟨rfl, rfl⟩⟩
    | some part =>
      have htail := serialsSubs_tail_le (some part :: rest)
      simp only [List.tail_cons] at htail
      cases keys with
      | none =>
        simp only [Option.some.injEq] at h
        subst h
        exact ⟨htail, Or.inl ⟨rfl, rfl⟩⟩
      | some kg =>
        simp only at h
        split at h
        · cases hk : kg.get f.mTok r with
          | none => simp [hk] at h
          | some k =>
            simp only [hk, Option.some.injEq] at h
            subst h
            exact ⟨htail, Or.inr ⟨_, rfl, rfl, rfl⟩⟩
        · simp only [Option.some.injEq] at h
          subst h
          exact ⟨htail, Or.inl ⟨rfl, rfl⟩⟩

theorem ContainerFactoryBase.accumulate_serials (f : ContainerFactoryBase) (queue : MuxParts) :
    (↑(serialsSubs (f.accumulate queue).2) : Multiset Serial)
        + ↑(serialsSubs (f.accumulate queue).1.mSubs)
      = ↑(serialsSubs queue) + ↑(serialsSubs f.mSubs) := by
  unfold ContainerFactoryBase.accumulate
  by_cases hs : f.mSubs.length < f.mExpectedLen
  · simp only [hs, if_true]
    rcases ContainerFactoryBase.fill_cases f queue with ⟨h, _⟩ | ⟨head, rest, hq, _, h⟩
    · rw [h]
    · rw [h, hq]
      have hser : (if f.mPartType = PartType.ARRAY then head.setKey none else head).serials
          = head.serials := by
        by_cases ha : f.mPartType = PartType.ARRAY
        · simp [ha, Part.serials_setKey]
        · simp [ha]
      simp only [serialsSubs_append, serialsSubs, hser, List.append_nil, Multiset.coe_add,
        ← Multiset.coe_add]
      abel
  · simp [hs]

theorem ContainerFactoryBase.container_get_serials (f : ContainerFactoryBase) (queue : MuxParts)
    (keys : Option KeyGetter) (g : Int) (rKey rLen : Nat) (res : ContainerFactoryBase.Get)
    (hauto : f.mAutoClear = true)
    (h : f.get queue keys g rKey rLen = some res) :
    res.self.mAutoClear = true
    ∧ ((res.part = none ∧ res.serialGenerator = g
        ∧ (↑(serialsSubs res.queue) : Multiset Serial) + ↑(serialsSubs res.self.mSubs)
            = ↑(serialsSubs queue) + ↑(serialsSubs f.mSubs))
      ∨ ∃ made, res.part = some made ∧ res.serialGenerator = g + 1
          ∧ (↑(serialsSubs res.queue) : Multiset Serial) + ↑made.serials
              + ↑(serialsSubs res.self.mSubs)
            = ↑[g + 1] + (↑(serialsSubs queue) + ↑(serialsSubs f.mSubs))) := by
  have hacc := ContainerFactoryBase.accumulate_serials f queue
  obtain ⟨_, _, _, _, h5, _⟩ := ContainerFactoryBase.accumulate_fields f queue
  rw [ContainerFactoryBase.get_eq] at h
  split at h
  · simp only [Option.some.injEq] at h
    subst h
    exact ⟨h5.trans hauto, Or.inl ⟨rfl, rfl, hacc⟩⟩
  · unfold ContainerFactoryBase.emit at h
    cases keys with
    | none =>
      simp only [Option.some.injEq] at h
      subst h
      exact ⟨h5.trans hauto, Or.inl ⟨rfl, rfl, hacc⟩⟩
    | some kg =>
      simp only at h
      cases hk : kg.get (f.accumulate queue).1.mTok rKey with
      | none => simp [hk] at h
      | some k =>
        simp only [hk] at h
        cases hd : drawExpectedLen (f.accumulate queue).1.mMinLen
            (f.accumulate queue).1.mMaxLen rLen with
        | none => simp [hd] at h
        | some e =>
          simp only [hd, Option.some.injEq] at h
          subst h
          refine ⟨h5.trans hauto, Or.inr ⟨_, rfl, rfl, ?_⟩⟩
          simp only [h5.trans hauto, if_true, Part.newSubs, Part.serials, serialsOptSubs,
            serialsSubs, Multiset.coe_nil, add_zero]
          rw [← hacc]
          simp only [← Multiset.cons_coe, Multiset.coe_nil, Multiset.cons_zero,
            Multiset.singleton_add]
          rw [Multiset.add_cons]

theorem consumersSerials_set (cs : List ConsumerProducer) (i : Nat)
    (c c1 : ConsumerProducer) (h : cs.get? i = some c) :
    (↑(consumersSerials (cs.set i c1)) : Multiset Serial) + ↑c.factory.serials
      = ↑(consumersSerials cs) + ↑c1.factory.serials := by
  induction cs generalizing i with
  | nil => simp at h
  | cons d rest ih =>
    cases i with
    | zero =>
      simp only [List.get?_cons_zero, Option.some.injEq] at h
      subst h
      simp only [List.set_cons_zero, consumersSerials, ← Multiset.coe_add]
      abel
    | succ j =>
      simp only [List.get?_cons_succ] at h
      have := ih j h
      simp only [List.set_cons_succ, consumersSerials, ← Multiset.coe_add] at this ⊢
      rw [add_assoc, this]
      abel

theorem Producer.allSerials_coe (p : Producer) :
    (↑p.allSerials : Multiset Serial)
      = ↑(serialsSubs p.mParts) + ↑(serialsSubs p.mProducts)
          + ↑(consumersSerials p.mConsumers) := by
  simp [Producer.allSerials]

theorem Producer.allSerials_dispose (p : Producer) (part : Part) (percentage r : Nat) :
    (↑(p.dispose part percentage r).allSerials : Multiset Serial)
      = ↑part.serials + ↑p.allSerials := by
  unfold Producer.dispose
  by_cases h : Producer.recirculates percentage r = true
  · simp only [h, if_true, Producer.allSerials_coe, serialsSubs_append, serialsSubs,
      List.append_nil, ← Multiset.coe_add]
    abel
  · simp only [h, Bool.false_eq_true, if_false, Producer.allSerials_coe, serialsSubs_append,
      serialsSubs, List.append_nil, ← Multiset.coe_add]
    abel

theorem Producer.dispose_consumers (p : Producer) (part : Part) (percentage r : Nat) :
    (p.dispose part percentage r).mConsumers = p.mConsumers := by
  unfold Producer.dispose
  split <;> rfl

theorem Producer.autoClear_set (p : Producer) (ixx : Nat) (f : ContainerFactoryBase)
    (percentage weigth : Nat) (hp : p.AutoClear) (hf : f.mAutoClear = true) :
    ∀ c ∈ p.mConsumers.set ixx ⟨Factory.container f, percentage, weigth⟩,
      ∀ f1, c.factory = Factory.container f1 → f1.mAutoClear = true := by
  intro c hc f1 hf1
  rcases List.mem_or_eq_of_mem_set hc with h | h
  · exact hp c h f1 hf1
  · subst h
    simp only [Factory.container.injEq] at hf1
    subst hf1
    exact hf

theorem Producer.offer_distinct (p : Producer) (ixx : Nat) (g : Int) (rnd : Rand)
    (p1 : Producer) (g1 : Int) (rnd1 : Rand)
    (hd : p.Distinct g) (h : p.offer ixx g rnd = some (p1, g1, rnd1)) :
    p1.Distinct g1 ∧ g ≤ g1 := by
  obtain ⟨hnd, hb, hac⟩ := hd
  unfold Producer.offer at h
  cases hget : p.mConsumers.get? ixx with
  | none => rw [hget] at h; simp at h
  | some c =>
    obtain ⟨fac, percentage, weigth⟩ := c
    cases fac with
    | kvPair f =>
      rw [hget] at h
      simp only at h
      cases hres : f.get p.mParts (some p.mKeyGetter) g rnd.next.1 with
      | none => simp [hres] at h
      | some res =>
        simp only [hres] at h
        obtain ⟨hq, hcase⟩ := SimpleKvPairFactory.kv_get_serials _ _ _ _ _ _ hres
        rcases hcase with ⟨hpart, hg⟩ | ⟨part, hpart, hser, hg⟩
        · simp only [hpart, Option.some.injEq, Prod.mk.injEq] at h
          obtain ⟨h1, h2, _⟩ := h
          subst h1
          rw [hg] at h2
          subst h2
          have hle : (↑({ p with mParts := res.queue } : Producer).allSerials
              : Multiset Serial) ≤ ↑([] : List Serial) + ↑p.allSerials := by
            simp only [Producer.allSerials_coe, Multiset.coe_nil, zero_add]
            exact add_le_add_right (add_le_add_right hq _) _
          obtain ⟨a, b⟩ := distinct_of_le _ _ [] g g hnd hb List.nodup_nil
            (by simp) (le_refl _) hle
          exact ⟨⟨a, b, hac⟩, le_refl _⟩
        · simp only [hpart, Option.some.injEq, Prod.mk.injEq] at h
          obtain ⟨h1, h2, _⟩ := h
          subst h1
          rw [hg] at h2
          subst h2
          have hle : (↑(({ p with mParts := res.queue } : Producer).dispose part percentage
              rnd.next.2.next.1).allSerials : Multiset Serial)
                ≤ ↑([g + 1] : List Serial) + ↑p.allSerials := by
            rw [Producer.allSerials_dispose, hser]
            simp only [Producer.allSerials_coe]
            exact add_le_add_left (add_le_add_right (add_le_add_right hq _) _) _
          obtain ⟨a, b⟩ := distinct_of_le _ _ [g + 1] g (g + 1) hnd hb
            (List.nodup_singleton _)
            (by intro x hx; simp only [List.mem_singleton] at hx; subst hx;
                exact ⟨Int.lt_succ g, le_refl _⟩)
            (Int.le_of_lt (Int.lt_succ g)) hle
          refine ⟨⟨a, b, ?_⟩, Int.le_of_lt (Int.lt_succ g)⟩
          intro c hc
          rw [Producer.dispose_consumers] at hc
          exact hac c hc
    | container f =>
      rw [hget] at h
      simp only at h
      have hfa : f.mAutoClear = true :=
        hac _ (List.get?_mem hget) f rfl
      cases hres : f.get p.mParts (some p.mKeyGetter) g rnd.next.1 rnd.next.2.next.1 with
      | none => simp [hres] at h
      | some res =>
        simp only [hres] at h
        obtain ⟨hauto, hcase⟩ := ContainerFactoryBase.container_get_serials _ _ _ _ _ _ _ hfa hres
        have hset := consumersSerials_set p.mConsumers ixx
          ⟨Factory.container f, percentage, weigth⟩
          ⟨Factory.container res.self, percentage, weigth⟩ hget
        simp only [Factory.serials] at hset
        rcases hcase with ⟨hpart, hg, hm⟩ | ⟨made, hpart, hg, hm⟩
        · simp only [hpart, Option.some.injEq, Prod.mk.injEq] at h
          obtain ⟨h1, h2, _⟩ := h
          subst h1
          rw [hg] at h2
          subst h2
          have hle : (↑({ p with
                mParts := res.queue,
                mConsumers := p.mConsumers.set ixx
                  ⟨Factory.container res.self, percentage, weigth⟩ } : Producer).allSerials
              : Multiset Serial) ≤ ↑([] : List Serial) + ↑p.allSerials := by
            simp only [Producer.allSerials_coe, Multiset.coe_nil, zero_add]
            apply le_of_eq
            apply add_right_cancel (b := (↑(serialsSubs f.mSubs) : Multiset Serial))
            calc _ = (↑(serialsSubs res.queue) : Multiset Serial)
                      + ↑(serialsSubs p.mProducts)
                      + (↑(consumersSerials (p.mConsumers.set ixx
                          ⟨Factory.container res.self, percentage, weigth⟩))
                        + ↑(serialsSubs f.mSubs)) := by abel
              _ = (↑(serialsSubs res.queue) + ↑(serialsSubs res.self.mSubs))
                      + ↑(serialsSubs p.mProducts) + ↑(consumersSerials p.mConsumers) := by
                    rw [hset]; abel
              _ = _ := by rw [hm]; abel
          obtain ⟨a, b⟩ := distinct_of_le _ _ [] g g hnd hb List.nodup_nil
            (by simp) (le_refl _) hle
          exact ⟨⟨a, b, Producer.autoClear_set p ixx res.self percentage weigth hac hauto⟩,
            le_refl _⟩
        · simp only [hpart, Option.some.injEq, Prod.mk.injEq] at h
          obtain ⟨h1, h2, _⟩ := h
          subst h1
          rw [hg] at h2
          subst h2
          have hle : (↑(({ p with
                mParts := res.queue,
                mConsumers := p.mConsumers.set ixx
                  ⟨Factory.container res.self, percentage, weigth⟩ } : Producer).dispose
                made percentage
                (if f.mMaxLen ≤ f.mMinLen then rnd.next.2 else rnd.next.2.next.2).next.1).allSerials
              : Multiset Serial) ≤ ↑([g + 1] : List Serial) + ↑p.allSerials := by
            rw [Producer.allSerials_dispose]
            simp only [Producer.allSerials_coe]
            apply le_of_eq
            apply add_right_cancel (b := (↑(serialsSubs f.mSubs) : Multiset Serial))
            calc _ = (↑made.serials : Multiset Serial) + ↑(serialsSubs res.queue)
                      + ↑(serialsSubs p.mProducts)
                      + (↑(consumersSerials (p.mConsumers.set ixx
                          ⟨Factory.container res.self, percentage, weigth⟩))
                        + ↑(serialsSubs f.mSubs)) := by abel
              _ = (↑(serialsSubs res.queue) + ↑made.serials + ↑(serialsSubs res.self.mSubs))
                      + ↑(serialsSubs p.mProducts) + ↑(consumersSerials p.mConsumers) := by
                    rw [hset]; abel
              _ = _ := by rw [hm]; abel
          obtain ⟨a, b⟩ := distinct_of_le _ _ [g + 1] g (g + 1) hnd hb
            (List.nodup_singleton _)
            (by intro x hx; simp only [List.mem_singleton] at hx; subst hx;
                exact ⟨Int.lt_succ g, le_refl _⟩)
            (Int.le_of_lt (Int.lt_succ g)) hle
          refine ⟨⟨a, b, ?_⟩, Int.le_of_lt (Int.lt_succ g)⟩
          intro c hc
          rw [Producer.dispose_consumers] at hc
          exact Producer.autoClear_set p ixx res.self percentage weigth hac hauto c hc

theorem Producer.dispatchLoop_distinct (fuel : Nat) (key : List Nat) (p : Producer) (g : Int)
    (rnd : Rand) (p1 : Producer) (g1 : Int) (rnd1 : Rand)
    (hd : p.Distinct g) (h : Producer.dispatchLoop fuel key p g rnd = some (p1, g1, rnd1)) :
    p1.Distinct g1 ∧ g ≤ g1 := by
  induction fuel generalizing key p g rnd with
  | zero =>
    unfold Producer.dispatchLoop at h
    split at h
    · simp only [Option.some.injEq, Prod.mk.injEq] at h
      obtain ⟨h1, h2, _⟩ := h
      subst h1; subst h2
      exact ⟨hd, le_refl _⟩
    · simp at h
  | succ n ih =>
    unfold Producer.dispatchLoop at h
    split at h
    · simp only [Option.some.injEq, Prod.mk.injEq] at h
      obtain ⟨h1, h2, _⟩ := h
      subst h1; subst h2
      exact ⟨hd, le_refl _⟩
    · split at h
      · simp at h
      · rename_i ixx _
        split at h
        · simp at h
        · rename_i p2 g2 rnd2 hoff
          obtain ⟨hd2, hg2⟩ := Producer.offer_distinct p ixx g _ p2 g2 rnd2 hd hoff
          obtain ⟨hd3, hg3⟩ := ih _ p2 g2 rnd2 hd2 h
          exact ⟨hd3, le_trans hg2 hg3⟩

theorem Producer.endOfPass_distinct (p : Producer) (candidate : Serial) (g : Int)
    (p1 : Producer) (hd : p.Distinct g) (h : p.endOfPass candidate = some p1) :
    p1.Distinct g := by
  obtain ⟨hnd, hb, hac⟩ := hd
  have key : (↑p1.allSerials : Multiset Serial) = ↑p.allSerials ∧ p1.mConsumers = p.mConsumers := by
    unfold Producer.endOfPass at h
    split at h
    · simp only [Option.some.injEq] at h
      subst h
      exact ⟨rfl, rfl⟩
    · simp at h
    · rename_i front rest hq
      split at h
      · split at h
        · split at h
          · simp only [Option.some.injEq] at h
            subst h
            refine ⟨?_, rfl⟩
            simp only [Producer.allSerials_coe, hq, serialsSubs_append, serialsSubs,
              List.append_nil, ← Multiset.coe_add]
            abel
          · simp at h
        · simp only [Option.some.injEq] at h
          subst h
          refine ⟨?_, rfl⟩
          simp only [Producer.allSerials_coe, hq, serialsSubs_append, serialsSubs,
            List.append_nil, ← Multiset.coe_add]
          abel
      · simp only [Option.some.injEq] at h
        subst h
        exact ⟨rfl, rfl⟩
  obtain ⟨hm, hc⟩ := key
  obtain ⟨a, b⟩ := distinct_of_le _ p1.allSerials [] g g hnd hb List.nodup_nil
    (by simp) (le_refl _) (by simp [hm])
  refine ⟨a, b, ?_⟩
  intro c hcm
  rw [hc] at hcm
  exact hac c hcm

theorem Producer.pass_distinct (p : Producer) (g : Int) (rnd : Rand)
    (p1 : Producer) (g1 : Int) (rnd1 : Rand)
    (hd : p.Distinct g) (h : p.pass g rnd = some (p1, g1, rnd1)) :
    p1.Distinct g1 ∧ g ≤ g1 := by
  unfold Producer.pass at h
  split at h
  · simp only [Option.some.injEq, Prod.mk.injEq] at h
    obtain ⟨h1, h2, _⟩ := h
    subst h1; subst h2
    exact ⟨hd, le_refl _⟩
  · split at h
    · simp only [Option.some.injEq, Prod.mk.injEq] at h
      obtain ⟨h1, h2, _⟩ := h
      subst h1; subst h2
      exact ⟨hd, le_refl _⟩
    · simp at h
    · rename_i front _ _
      split at h
      · simp at h
      · rename_i p2 g2 rnd2 hdis
        obtain ⟨hd2, hg2⟩ := Producer.dispatchLoop_distinct _ _ p g rnd p2 g2 rnd2 hd hdis
        split at h
        · rename_i p3 hend
          simp only [Option.some.injEq, Prod.mk.injEq] at h
          obtain ⟨h1, h2, _⟩ := h
          subst h1; subst h2
          exact ⟨Producer.endOfPass_distinct p2 _ _ _ hd2 hend, hg2⟩
        · simp at h

theorem FreshSerials.refl (g : Int) (a : List Serial) : FreshSerials g g a a :=
  ⟨[], List.nodup_nil, by simp, le_refl _, by simp⟩

theorem FreshSerials.trans (g g1 g2 : Int) (a b c : List Serial)
    (h1 : FreshSerials g g1 a b) (h2 : FreshSerials g1 g2 b c) : FreshSerials g g2 a c := by
  obtain ⟨F1, n1, b1, l1, e1⟩ := h1
  obtain ⟨F2, n2, b2, l2, e2⟩ := h2
  refine ⟨F2 ++ F1, ?_, ?_, le_trans l1 l2, ?_⟩
  · refine List.Nodup.append n2 n1 ?_
    intro x hx2 hx1
    exact absurd (b1 x hx1).2 (not_le.mpr (b2 x hx2).1)
  · intro x hx
    rcases List.mem_append.mp hx with h | h
    · exact ⟨lt_of_le_of_lt l1 (b2 x h).1, (b2 x h).2⟩
    · exact ⟨(b1 x h).1, le_trans (b1 x h).2 l2⟩
  · rw [e2, e1, ← Multiset.coe_add, add_assoc]

theorem SimpleValueGenerator.value_get_serials {T : Type} (gen : SimpleValueGenerator T)
    (mk : Serial → T → Key → Part × Serial)
    (hmk : ∀ (g : Int) (v : T) (k : Key), (mk g v k).1.serials = [g + 1] ∧ (mk g v k).2 = g + 1)
    (g : Int) (rnd : Rand) (q : MuxParts) :
    FreshSerials g (gen.get mk g rnd).2.1 (serialsSubs q)
      (serialsSubs (q ++ [(gen.get mk g rnd).1])) := by
  have hnone : FreshSerials g g (serialsSubs q) (serialsSubs (q ++ [none])) := by
    have : serialsSubs (q ++ [none]) = serialsSubs q := by
      simp [serialsSubs_append, serialsSubs]
    rw [this]
    exact FreshSerials.refl _ _
  unfold SimpleValueGenerator.get
  split
  · exact hnone
  · split
    · exact hnone
    · split
      · rename_i v _
        refine ⟨[g + 1], List.nodup_singleton _, ?_, ?_, ?_⟩
        · intro x hx
          simp only [List.mem_singleton] at hx
          subst hx
          simp only [(hmk g v none).2]
          exact ⟨Int.lt_succ g, le_refl _⟩
        · simp only [(hmk g v none).2]
          exact Int.le_of_lt (Int.lt_succ g)
        · simp only [serialsSubs_append, serialsSubs, (hmk g v none).1, List.append_nil,
            ← Multiset.coe_add]
          rw [add_comm]
      · exact hnone

theorem Producer.orderLoop_serials {T : Type} (gen : SimpleValueGenerator T)
    (mk : Serial → T → Key → Part × Serial)
    (hmk : ∀ (g : Int) (v : T) (k : Key), (mk g v k).1.serials = [g + 1] ∧ (mk g v k).2 = g + 1)
    (fuel : Nat) (ints : Int) (q : MuxParts) (g : Int) (rnd : Rand)
    (q1 : MuxParts) (g1 : Int) (rnd1 : Rand)
    (h : Producer.orderLoop gen mk fuel ints q g rnd = some (q1, g1, rnd1)) :
    FreshSerials g g1 (serialsSubs q) (serialsSubs q1) := by
  induction fuel generalizing ints q g rnd with
  | zero => simp [Producer.orderLoop] at h
  | succ n ih =>
    unfold Producer.orderLoop at h
    split at h
    · exact FreshSerials.trans _ _ _ _ _ _
        (SimpleValueGenerator.value_get_serials gen mk hmk g rnd q) (ih _ _ _ _ h)
    · simp only [Option.some.injEq, Prod.mk.injEq] at h
      obtain ⟨h1, h2, _⟩ := h
      subst h1; subst h2
      exact FreshSerials.refl _ _

theorem Producer.orderType_serials {T : Type} (gens : List (SimpleValueGenerator T))
    (mk : Serial → T → Key → Part × Serial)
    (hmk : ∀ (g : Int) (v : T) (k : Key), (mk g v k).1.serials = [g + 1] ∧ (mk g v k).2 = g + 1)
    (ints : Int) (q : MuxParts) (g : Int) (rnd : Rand)
    (q1 : MuxParts) (g1 : Int) (rnd1 : Rand)
    (h : Producer.orderType gens mk ints q g rnd = some (q1, g1, rnd1)) :
    FreshSerials g g1 (serialsSubs q) (serialsSubs q1) := by
  unfold Producer.orderType at h
  split at h
  · split at h
    · simp at h
    · split at h
      · exact Producer.orderLoop_serials _ mk hmk _ _ _ _ _ _ _ _ h
      · simp at h
  · simp only [Option.some.injEq, Prod.mk.injEq] at h
    obtain ⟨h1, h2, _⟩ := h
    subst h1; subst h2
    exact FreshSerials.refl _ _

theorem Producer.order_distinct (p : Producer) (ints doubles strings : Int) (g : Int)
    (rnd : Rand) (p1 : Producer) (g1 : Int) (rnd1 : Rand)
    (hd : p.Distinct g) (h : p.order ints doubles strings g rnd = some (p1, g1, rnd1)) :
    p1.Distinct g1 := by
  obtain ⟨hnd, hb, hac⟩ := hd
  unfold Producer.order at h
  split at h
  · simp at h
  · rename_i qa ga ra ha
    split at h
    · simp at h
    · rename_i qb gb rb hb1
      split at h
      · simp at h
      · rename_i qc gc rc hc
        simp only [Option.some.injEq, Prod.mk.injEq] at h
        obtain ⟨h1, h2, _⟩ := h
        subst h1; subst h2
        have f1 := Producer.orderType_serials _ Part.newInt
          (fun g v k => ⟨rfl, rfl⟩) _ _ _ _ _ _ _ ha
        have f2 := Producer.orderType_serials _ Part.newDouble
          (fun g v k => ⟨rfl, rfl⟩) _ _ _ _ _ _ _ hb1
        have f3 := Producer.orderType_serials _ Part.newString
          (fun g v k => ⟨rfl, rfl⟩) _ _ _ _ _ _ _ hc
        obtain ⟨F, n, bnd, l, e⟩ := FreshSerials.trans _ _ _ _ _ _
          (FreshSerials.trans _ _ _ _ _ _ f1 f2) f3
        have hle : (↑({ p with mParts := qc } : Producer).allSerials : Multiset Serial)
            ≤ ↑F + ↑p.allSerials := by
          simp only [Producer.allSerials_coe, e]
          apply le_of_eq
          abel
        obtain ⟨a, b⟩ := distinct_of_le _ _ F g _ hnd hb n bnd l hle
        exact ⟨a, b, hac⟩

theorem Producer.moved_distinct (p q : Producer) (g : Int) (hd : p.Distinct g)
    (hc : q.mConsumers = p.mConsumers)
    (hle : (↑q.allSerials : Multiset Serial) ≤ ↑p.allSerials) : q.Distinct g := by
  obtain ⟨hnd, hb, hac⟩ := hd
  obtain ⟨a, b⟩ := distinct_of_le _ q.allSerials [] g g hnd hb List.nodup_nil (by simp)
    (le_refl _) (by simpa using hle)
  refine ⟨a, b, ?_⟩
  intro c hcm
  rw [hc] at hcm
  exact hac c hcm

theorem Producer.step_distinct (s s1 : Producer × Serial)
    (hd : s.1.Distinct s.2) (h : Producer.Step s s1) : s1.1.Distinct s1.2 := by
  obtain ⟨p, g⟩ := s
  obtain ⟨p1, g1⟩ := s1
  cases h with
  | pass _ _ rnd _ _ rnd1 hp => exact (Producer.pass_distinct p g rnd p1 g1 rnd1 hd hp).1
  | order _ ints doubles strings _ rnd _ _ rnd1 ho =>
    exact Producer.order_distinct p ints doubles strings g rnd p1 g1 rnd1 hd ho
  | recirculate _ _ prod rest hq =>
    refine Producer.moved_distinct p _ g hd rfl ?_
    simp only [Producer.allSerials_coe, hq]
    apply le_of_eq
    cases prod with
    | none => simp [Producer.recirculate, serialsSubs]
    | some part =>
      simp only [Producer.recirculate, serialsSubs_append, serialsSubs, List.append_nil,
        ← Multiset.coe_add]
      abel
  | accept _ _ prod rest hq =>
    refine Producer.moved_distinct p _ g hd rfl ?_
    simp only [Producer.allSerials_coe, hq]
    refine add_le_add_right (add_le_add_left ?_ _) _
    have := serialsSubs_tail_le (prod :: rest)
    simpa using this

theorem Producer.reach_distinct (s0 s : Producer × Serial)
    (hd : s0.1.Distinct s0.2) (h : Producer.Reach s0 s) : s.1.Distinct s.2 := by
  induction h with
  | start => exact hd
  | step s s1 _ hs ih => exact Producer.step_distinct s s1 ih hs

theorem consumersSerials_of_empty (cs : List ConsumerProducer)
    (h : ∀ c ∈ cs, ∀ f, c.factory = Factory.container f → f.mSubs = []) :
    consumersSerials cs = [] := by
  induction cs with
  | nil => rfl
  | cons c rest ih =>
    have hrest := ih (fun d hd => h d (List.mem_cons_of_mem _ hd))
    have hc := h c (List.mem_cons_self _ _)
    simp only [consumersSerials, hrest, List.append_nil]
    cases hf : c.factory with
    | kvPair f => rfl
    | container f => simp [Factory.serials, hc f hf, serialsSubs]

/-- C28: start from a producer whose work queue holds Parts with pairwise
distinct serials (each issued by the serial generator, as every constructor
of `Part` does, hence not above its current value), whose products queue and
factory accumulators are empty and whose container factories have auto-clear
enabled.  After any number of iterations of `produce`, orders and Assembly
steps taking the head of the products queue (recirculating it or keeping it),
in any interleaving and with any random draws, no serial occurs twice among
the work queue, the products queue, the accumulators of all factories and the
children of all containers among them. -/
theorem no_part_occurs_twice (p0 : Producer) (g0 : Serial) (p : Producer) (g : Serial)
    (hq : (serialsSubs p0.mParts).Nodup)
    (hissued : ∀ s ∈ serialsSubs p0.mParts, s ≤ g0)
    (hprod : p0.mProducts = [])
    (hacc : ∀ c ∈ p0.mConsumers, ∀ f, c.factory = Factory.container f → f.mSubs = [])
    (hauto : p0.AutoClear)
    (h : Producer.Reach (p0, g0) (p, g)) :
    p.allSerials.Nodup := by
  have hall : p0.allSerials = serialsSubs p0.mParts := by
    simp [Producer.allSerials, hprod, consumersSerials_of_empty _ hacc, serialsSubs]
  have hd : p0.Distinct g0 := ⟨by rw [hall]; exact hq, by rw [hall]; exact hissued, hauto⟩
  exact (Producer.reach_distinct (p0, g0) (p, g) hd h).1

set_option maxRecDepth 20000 in
/-- Witness for C28: the scenario producer with the three seeds, taken through
two iterations of `produce`; by then the work queue holds the third seed and
the products queue an Array of the first two. -/
theorem no_part_occurs_twice_witness :
    (serialsSubs exampleScenarioProducer.mParts).Nodup
    ∧ (∀ s ∈ serialsSubs exampleScenarioProducer.mParts, s ≤ (3 : Serial))
    ∧ exampleScenarioProducer.mProducts = []
    ∧ (∀ c ∈ exampleScenarioProducer.mConsumers, ∀ f,
        c.factory = Factory.container f → f.mSubs = [])
    ∧ exampleScenarioProducer.AutoClear
    ∧ Producer.Reach (exampleScenarioProducer, 3) (exampleAfterPass2.1, exampleAfterPass2.2.1)
    ∧ exampleAfterPass2.1.allSerials = [3, 4, 1, 2]
    ∧ exampleAfterPass2.1.allSerials.Nodup :=
  have hq : (serialsSubs exampleScenarioProducer.mParts).Nodup := by decide
  have hissued : ∀ s ∈ serialsSubs exampleScenarioProducer.mParts, s ≤ (3 : Serial) := by
    decide
  have hacc : ∀ c ∈ exampleScenarioProducer.mConsumers, ∀ f,
      c.factory = Factory.container f → f.mSubs = [] := by
    intro c hc f hf
    simp only [exampleScenarioProducer, List.mem_singleton] at hc
    subst hc
    cases hf
    rfl
  have hauto : exampleScenarioProducer.AutoClear := by
    intro c hc f hf
    simp only [exampleScenarioProducer, List.mem_singleton] at hc
    subst hc
    cases hf
    rfl
  have hreach : Producer.Reach (exampleScenarioProducer, 3)
      (exampleAfterPass2.1, exampleAfterPass2.2.1) :=
    Producer.Reach.step (exampleAfterPass1.1, exampleAfterPass1.2.1)
      (exampleAfterPass2.1, exampleAfterPass2.2.1)
      (Producer.Reach.step (exampleScenarioProducer, 3)
        (exampleAfterPass1.1, exampleAfterPass1.2.1) Producer.Reach.start
        (Producer.Step.pass exampleScenarioProducer 3 exampleRand exampleAfterPass1.1
          exampleAfterPass1.2.1 exampleAfterPass1.2.2 (by rfl)))
      (Producer.Step.pass exampleAfterPass1.1 exampleAfterPass1.2.1 exampleAfterPass1.2.2
        exampleAfterPass2.1 exampleAfterPass2.2.1 exampleAfterPass2.2.2 (by rfl))
  ⟨hq, hissued, rfl, hacc, hauto, hreach, by rfl,
    no_part_occurs_twice _ _ _ _ hq hissued rfl hacc hauto hreach⟩

/-! ## The command line: evaluations -/

/-- C24 (defect of the code): for `-t 1,2,3` the pieces `splitz` yields are
"1", "2,3" and "3", and because every test advances `vv` before the value is
read, the first piece is never converted: `parseCmdline` returns 0 and
appends (2,3,3) to `counts`, not (1,2,3). -/
theorem t_option_skips_first_count :
    splitz "1,2,3" = some ["1", "2,3", "3"]
    ∧ countsOf ["1", "2,3", "3"] = some (some (2, 3, 3))
    ∧ (parseCmdline ["jsonizer", "-t", "1,2,3"] (presetDefault 0) []
          [("default", presetDefault 0)]).map (fun r => (r.1, r.2.2))
        = some (0, [(2, 3, 3)]) := by
  decide

/-- C25 (defect of the code): the four sizes are declared before the loop over
the `-c` values, so a field an argument omits keeps the value of the previous
argument.  Alone, `-c AD` leaves AD at 1,2,50,1; after `-c AI,5,6,7,8` it sets
AD to 5,6,7,8. -/
theorem c_option_keeps_previous_sizes :
    (parseCmdline ["jsonizer", "-c", "AD"] (presetDefault 0) []
          [("default", presetDefault 0)]).map (fun r => (r.1, r.2.1.at CT.AD))
        = some (0, ⟨1, 2, 50, 1⟩)
    ∧ (parseCmdline ["jsonizer", "-c", "AI,5,6,7,8", "-c", "AD"] (presetDefault 0) []
          [("default", presetDefault 0)]).map
            (fun r => (r.1, r.2.1.at CT.AI, r.2.1.at CT.AD))
        = some (0, ⟨5, 6, 7, 8⟩, ⟨5, 6, 7, 8⟩) := by
  decide

/-! ## The suffixes are base-26 numerals -/

theorem base26_digit_char :
    ∀ d, d < 26 → (Char.ofNat (('a'.toNat + d) % 256)).toNat = 97 + d := by
  decide

theorem base26Value_snoc (ds : List Char) (c : Char) :
    base26Value (ds ++ [c]) = 26 * base26Value ds + (c.toNat - 97) := by
  simp [base26Value, List.foldl_append]

theorem string_singleton_append (c : Char) (acc : List Char) :
    String.singleton c ++ String.mk acc = String.mk (c :: acc) := by
  rfl

theorem BaseN.derefLoop_numeral (fuel val : Nat) (acc : List Char) (h : val ≤ fuel) :
    ∃ ds : List Char,
      BaseN.derefLoop 26 'a' fuel val (String.mk acc) = some (String.mk (ds ++ acc))
      ∧ (∀ c ∈ ds, 97 ≤ c.toNat ∧ c.toNat ≤ 122)
      ∧ base26Value ds = val
      ∧ ds.head? ≠ some 'a'
      ∧ (val = 0 → ds = []) := by
  induction fuel generalizing val acc with
  | zero =>
    have hv : val = 0 := by omega
    subst hv
    exact ⟨[], by simp [BaseN.derefLoop], by simp, rfl, by simp, fun _ => rfl⟩
  | succ n ih =>
    by_cases hv : val = 0
    · subst hv
      exact ⟨[], by simp [BaseN.derefLoop], by simp, rfl, by simp, fun _ => rfl⟩
    · have hd : val % 26 < 26 := Nat.mod_lt _ (by decide)
      have hc := base26_digit_char (val % 26) hd
      have hle : (val - val % 26) / 26 ≤ n := by
        have : (val - val % 26) / 26 = val / 26 := by omega
        rw [this]
        have : val / 26 < val := Nat.div_lt_self (Nat.pos_of_ne_zero hv) (by decide)
        omega
      obtain ⟨ds, h1, h2, h3, h4, h5⟩ := ih ((val - val % 26) / 26)
        (Char.ofNat (('a'.toNat + val % 26) % 256) :: acc) hle
      refine ⟨ds ++ [Char.ofNat (('a'.toNat + val % 26) % 256)], ?_, ?_, ?_, ?_, ?_⟩
      · unfold BaseN.derefLoop
        simp only [hv, if_false, string_singleton_append]
        rw [if_neg (by decide)]
        simp only [h1, List.append_assoc, List.singleton_append]
      · intro c hcm
        rcases List.mem_append.mp hcm with hm | hm
        · exact h2 c hm
        · simp only [List.mem_singleton] at hm
          subst hm
          omega
      · rw [base26Value_snoc, h3, hc]
        omega
      · cases ds with
        | nil =>
          simp only [List.nil_append, List.head?_cons, ne_eq, Option.some.injEq]
          intro heq
          have h0 : base26Value [] = (val - val % 26) / 26 := h3
          have : (Char.ofNat (('a'.toNat + val % 26) % 256)).toNat = 97 := by
            rw [heq]; rfl
          simp only [base26Value, List.foldl_nil] at h0
          omega
        | cons x xs =>
          simpa using h4
      · intro h0
        exact absurd h0 hv

/-- C31: for every counter value `n`, `operator*` of `BaseN<26>('a')` returns
(its loop ends) a string of characters `a` ... `z` whose value as a base-26
numeral, most significant digit first, is `n`, which does not start with `a`
and is empty for `n = 0`; no other counter value gives the same string. -/
theorem suffix_is_base26_numeral (n : Nat) :
    ∃ s : String, BaseN.deref ⟨26, 'a', n⟩ = some s
      ∧ (∀ c ∈ s.data, 'a'.toNat ≤ c.toNat ∧ c.toNat ≤ 'z'.toNat)
      ∧ base26Value s.data = n
      ∧ s.data.head? ≠ some 'a'
      ∧ (n = 0 → s = "")
      ∧ ∀ m, BaseN.deref ⟨26, 'a', m⟩ = some s → m = n := by
  obtain ⟨ds, h1, h2, h3, h4, h5⟩ := BaseN.derefLoop_numeral n n [] (le_refl _)
  simp only [List.append_nil] at h1
  refine ⟨String.mk ds, h1, h2, h3, h4, ?_, ?_⟩
  · intro h0
    rw [h5 h0]
  · intro m hm
    obtain ⟨es, g1, _, g3, _, _⟩ := BaseN.derefLoop_numeral m m [] (le_refl _)
    simp only [List.append_nil] at g1
    have hm1 : BaseN.derefLoop 26 'a' m m (String.mk []) = some (String.mk ds) := hm
    rw [g1] at hm1
    simp only [Option.some.injEq] at hm1
    have hds : es = ds := congrArg String.data hm1
    rw [← g3, hds, h3]

/-! ## The layout of the key pool -/

theorem suffixOf_facts (k : Nat) :
    BaseN.deref ⟨26, 'a', k⟩ = some (suffixOf k)
    ∧ base26Value (suffixOf k).data = k
    ∧ (k = 0 → suffixOf k = "")
    ∧ (1 ≤ k → (suffixOf k).isEmpty = false) := by
  obtain ⟨ds, h1, _, h3, _, h5⟩ := BaseN.derefLoop_numeral k k [] (le_refl _)
  simp only [List.append_nil] at h1
  have hd : BaseN.deref ⟨26, 'a', k⟩ = some (String.mk ds) := h1
  have hs : suffixOf k = String.mk ds := by simp [suffixOf, hd]
  refine ⟨by rw [hs]; exact hd, by rw [hs]; exact h3, ?_, ?_⟩
  · intro h0
    rw [hs, h5 h0]
  · intro hk
    rw [hs]
    cases ds with
    | nil =>
      simp only [base26Value, List.foldl_nil] at h3
      omega
    | cons c cs =>
      rw [Bool.eq_false_iff]
      intro he
      have := congrArg String.data ((String.isEmpty_iff _).mp he)
      simp at this

theorem suffixOf_injective (k m : Nat) (h : suffixOf k = suffixOf m) : k = m := by
  rw [← (suffixOf_facts k).2.1, ← (suffixOf_facts m).2.1, h]

theorem KeyGetter.expand_suffixed (names : List String) (c v : Nat) (mKeys : List String)
    (hv : 1 ≤ v) (hb : v + c ≤ SIZE_MOD) :
    KeyGetter.expand names c ⟨26, 'a', v⟩ mKeys = some (mKeys ++ suffixedKeys names v c) := by
  induction c generalizing v mKeys with
  | zero => simp [KeyGetter.expand, suffixedKeys]
  | succ n ih =>
    obtain ⟨hd, _, _, hne⟩ := suffixOf_facts v
    have hmap : names.map (fun i => i ++ ("_" ++ suffixOf v))
        = names.map (fun i => i ++ "_" ++ suffixOf v) := by
      apply List.map_congr_left
      intro i _
      exact (String.append_assoc _ _ _).symm
    unfold KeyGetter.expand
    simp only [hd, hne hv, Bool.not_false, if_true, hmap]
    cases n with
    | zero => simp [KeyGetter.expand, suffixedKeys]
    | succ m =>
      have hlt : (v + 1) % SIZE_MOD = v + 1 := Nat.mod_eq_of_lt (by omega)
      have hincr : BaseN.incr ⟨26, 'a', v⟩ = ⟨26, 'a', v + 1⟩ := by
        simp only [BaseN.incr, hlt]
      rw [hincr, ih (v + 1) _ (by omega) (by omega)]
      simp only [suffixedKeys, List.append_assoc]

theorem KeyGetter.expand_pool (names : List String) (count : Nat) (hpos : 1 ≤ count)
    (hcount : count < SIZE_MOD) :
    KeyGetter.expand names count (BaseN.new 26 'a') names
      = some (names ++ names ++ suffixedKeys names 1 (count - 1)) := by
  obtain ⟨c, rfl⟩ : ∃ c, count = c + 1 := ⟨count - 1, by omega⟩
  obtain ⟨hd, _, h0, _⟩ := suffixOf_facts 0
  have hd0 : BaseN.deref (BaseN.new 26 'a') = some "" := by
    rw [← h0 rfl]; exact hd
  have hmap : names.map (fun i => i ++ "") = names := by
    conv_rhs => rw [← List.map_id names]
    apply List.map_congr_left
    intro i _
    simp
  unfold KeyGetter.expand
  simp only [hd0]
  have hemp : (!("" : String).isEmpty) = false := by decide
  simp only [hemp, Bool.false_eq_true, if_false, hmap]
  cases c with
  | zero => simp [KeyGetter.expand, suffixedKeys]
  | succ m =>
    have hincr : BaseN.incr (BaseN.new 26 'a') = ⟨26, 'a', 1⟩ := by decide
    rw [hincr, KeyGetter.expand_suffixed names (m + 1) 1 _ (le_refl _) (by omega)]
    simp

theorem suffixedKeys_length (names : List String) (v c : Nat) :
    (suffixedKeys names v c).length = names.length * c := by
  induction c generalizing v with
  | zero => simp [suffixedKeys]
  | succ n ih => simp [suffixedKeys, ih, Nat.mul_succ, Nat.add_comm]

theorem mem_suffixedKeys (names : List String) (v c : Nat) (x : String)
    (h : x ∈ suffixedKeys names v c) :
    ∃ k, v ≤ k ∧ k < v + c ∧ ∃ j ∈ names, x = j ++ "_" ++ suffixOf k := by
  induction c generalizing v with
  | zero => simp [suffixedKeys] at h
  | succ n ih =>
    simp only [suffixedKeys, List.mem_append, List.mem_map] at h
    rcases h with ⟨j, hj, rfl⟩ | h
    · exact ⟨v, le_refl _, by omega, j, hj, rfl⟩
    · obtain ⟨k, h1, h2, h3⟩ := ih (v + 1) h
      exact ⟨k, by omega, by omega, h3⟩

theorem underscore_split (a b s t : List Char) (ha : '_' ∉ a) (hb : '_' ∉ b)
    (h : a ++ '_' :: s = b ++ '_' :: t) : a = b ∧ s = t := by
  induction a generalizing b with
  | nil =>
    cases b with
    | nil => simpa using h
    | cons c cs =>
      simp only [List.nil_append, List.cons_append, List.cons.injEq] at h
      exact absurd (by rw [← h.1]; exact List.mem_cons_self _ _) hb
  | cons x xs ih =>
    cases b with
    | nil =>
      simp only [List.nil_append, List.cons_append, List.cons.injEq] at h
      exact absurd (by rw [h.1]; exact List.mem_cons_self _ _) ha
    | cons c cs =>
      simp only [List.cons_append, List.cons.injEq] at h
      obtain ⟨h1, h2⟩ := ih cs (fun hm => ha (List.mem_cons_of_mem _ hm))
        (fun hm => hb (List.mem_cons_of_mem _ hm)) h.2
      exact ⟨by rw [h.1, h1], h2⟩

theorem suffixedKey_injective (i j : String) (k m : Nat)
    (hi : '_' ∉ i.data) (hj : '_' ∉ j.data)
    (h : i ++ "_" ++ suffixOf k = j ++ "_" ++ suffixOf m) : i = j ∧ k = m := by
  have hdata := congrArg String.data h
  simp only [String.data_append, List.append_assoc] at hdata
  simp only [List.singleton_append] at hdata
  obtain ⟨h1, h2⟩ := underscore_split _ _ _ _ hi hj hdata
  exact ⟨String.ext h1, suffixOf_injective k m (String.ext h2)⟩

theorem suffixedKey_has_underscore (j : String) (k : Nat) :
    '_' ∈ (j ++ "_" ++ suffixOf k).data := by
  simp only [String.data_append, List.mem_append]
  exact Or.inl (Or.inr (by decide))

theorem suffixedKeys_nodup (names : List String) (v c : Nat) (hn : names.Nodup)
    (hu : ∀ i ∈ names, '_' ∉ i.data) : (suffixedKeys names v c).Nodup := by
  induction c generalizing v with
  | zero => simp [suffixedKeys]
  | succ n ih =>
    simp only [suffixedKeys]
    refine List.Nodup.append ?_ (ih (v + 1)) ?_
    · refine List.Nodup.map_on ?_ hn
      intro i hi j hj heq
      exact (suffixedKey_injective i j v v (hu i hi) (hu j hj) heq).1
    · intro x hx1 hx2
      obtain ⟨i, hi, rfl⟩ := List.mem_map.mp hx1
      obtain ⟨k, h1, _, j, hj, heq⟩ := mem_suffixedKeys names (v + 1) n _ hx2
      have := (suffixedKey_injective i j v k (hu i hi) (hu j hj) heq).2
      omega

theorem mem_suffixedKeys_of (names : List String) (v c k : Nat) (i : String)
    (hi : i ∈ names) (h1 : v ≤ k) (h2 : k < v + c) :
    i ++ "_" ++ suffixOf k ∈ suffixedKeys names v c := by
  induction c generalizing v with
  | zero => omega
  | succ n ih =>
    simp only [suffixedKeys, List.mem_append, List.mem_map]
    by_cases hk : k = v
    · subst hk
      exact Or.inl ⟨i, hi, rfl⟩
    · exact Or.inr (ih (v + 1) (by omega) (by omega))

/-- C32: the constructor of `KeyGetter` on the stems `names` and a key
multiplier `count` (a `std::size_t`) builds the pool of the specification:
the stems alone when `count = 0`; else `n*(count+1)` entries, namely the
stems, the stems again, then `stem + "_" + suffix(k)` for `k = 1 ... count-1`
in order of `k` and within one `k` in stem order.  For pairwise distinct
stems without `_` every stem then occurs exactly twice in the pool and every
suffixed key exactly once. -/
theorem key_pool_layout (names : List String) (count : Nat) (hcount : count < SIZE_MOD) :
    ∃ kg, KeyGetter.new names count = some kg
      ∧ kg.mKeys = poolSpec names count
      ∧ (count = 0 → kg.mKeys = names)
      ∧ (1 ≤ count → kg.mKeys.length = names.length * (count + 1))
      ∧ (1 ≤ count → names.Nodup → (∀ i ∈ names, '_' ∉ i.data) →
          (∀ i ∈ names, kg.mKeys.count i = 2)
          ∧ ∀ k, 1 ≤ k → k < count → ∀ i ∈ names,
              kg.mKeys.count (i ++ "_" ++ suffixOf k) = 1) := by
  by_cases h0 : count = 0
  · subst h0
    refine ⟨⟨names, 0, names.length⟩, by simp [KeyGetter.new], by simp [poolSpec],
      fun _ => rfl, ?_, ?_⟩
    · intro h; omega
    · intro h; omega
  · have hpos : 1 ≤ count := Nat.pos_of_ne_zero h0
    have hexp := KeyGetter.expand_pool names count hpos hcount
    refine ⟨⟨names ++ names ++ suffixedKeys names 1 (count - 1), 0,
      (names ++ names ++ suffixedKeys names 1 (count - 1)).length⟩, ?_, ?_, ?_, ?_, ?_⟩
    · simp only [KeyGetter.new, h0, if_false, hexp]
    · simp only [poolSpec, h0, if_false]
    · intro h; exact absurd h h0
    · intro _
      simp only [List.length_append, suffixedKeys_length]
      have : count + 1 = (count - 1) + 2 := by omega
      rw [this, Nat.mul_add]
      omega
    · intro _ hn hu
      constructor
      · intro i hi
        have hnot : i ∉ suffixedKeys names 1 (count - 1) := by
          intro hm
          obtain ⟨k, _, _, j, _, heq⟩ := mem_suffixedKeys names 1 (count - 1) i hm
          have := suffixedKey_has_underscore j k
          rw [← heq] at this
          exact hu i hi this
        simp only [List.count_append, List.count_eq_one_of_mem hn hi,
          List.count_eq_zero_of_not_mem hnot]
      · intro k hk1 hk2 i hi
        have hnot : i ++ "_" ++ suffixOf k ∉ names := by
          intro hm
          exact hu _ hm (suffixedKey_has_underscore i k)
        have hmem := mem_suffixedKeys_of names 1 (count - 1) k i hi hk1 (by omega)
        simp only [List.count_append, List.count_eq_zero_of_not_mem hnot,
          List.count_eq_one_of_mem (suffixedKeys_nodup names 1 (count - 1) hn hu) hmem]

/-- Witness of C32: two stems and the key multiplier 3. -/
theorem key_pool_layout_witness :
    (3 : Nat) < SIZE_MOD
    ∧ poolSpec ["ab", "cd"] 3 = ["ab", "cd", "ab", "cd", "ab_b", "cd_b", "ab_c", "cd_c"]
    ∧ ∃ kg, KeyGetter.new ["ab", "cd"] 3 = some kg
      ∧ kg.mKeys = poolSpec ["ab", "cd"] 3
      ∧ (3 = 0 → kg.mKeys = ["ab", "cd"])
      ∧ (1 ≤ 3 → kg.mKeys.length = ["ab", "cd"].length * (3 + 1))
      ∧ (1 ≤ 3 → ["ab", "cd"].Nodup → (∀ i ∈ ["ab", "cd"], '_' ∉ i.data) →
          (∀ i ∈ ["ab", "cd"], kg.mKeys.count i = 2)
          ∧ ∀ k, 1 ≤ k → k < 3 → ∀ i ∈ ["ab", "cd"],
              kg.mKeys.count (i ++ "_" ++ suffixOf k) = 1) :=
  ⟨by decide, by decide, key_pool_layout ["ab", "cd"] 3 (by decide)⟩

/-! ## The log line of the rejection path -/

/-- C33 (defect of the code): the rejection path of `Assembly::run` writes
`*prod->key()` into its log line for every rejected product, also when the
product was rejected because it has no key.  Every product without key makes
`run` read the absent key, and the raw leaf 7 released by stall promotion is
such a product. -/
theorem rejection_log_reads_absent_key :
    (∀ (a : Assembly) (st : Assembly.Run) (s : Serial) (t : PartType) (v : Value)
        (subs : Option (List (Option Part))),
        (a.step st (some (Part.mk s t none v subs))).map (fun r => r.absentKeyRead)
          = some true)
    ∧ exampleLeafRaw.key = none
    ∧ ((exampleStalled [(2, 2)] []).endOfPass exampleLeafRaw.serial).map
        (fun p => p.mProducts.map (Option.map Part.serial)) = some [some exampleLeafRaw.serial]
    ∧ ((Assembly.mk 1 0 0).run [some exampleLeafRaw]).state.map
        (fun r => (r.absentKeyRead, r.calls.length)) = some (true, 2) := by
  refine ⟨?_, by decide, by decide, by decide⟩
  intro a st s t v subs
  rfl

end Jsonizer
